import Mathlib

/-!
# Server-side apply engine (`ssa/manager_apply.go`)

A shallow embedding of `ResourceManager.Apply`, `ResourceManager.ApplyAll`,
`ResourceManager.ApplyAllStaged` and `ResourceManager.cleanupManagedFields`.

* Objects (`unstructured.Unstructured`) are plain values, so `DeepCopy` is the
  identity and aliasing between the desired, existing and dry-run views cannot
  occur.
* The cluster client is an arbitrary deterministic state machine over a state
  type `σ`; every call the engine makes is appended, together with its outcome,
  to a call log carried next to the client state (`World`).
* `Apply` and `ApplyAll` recurse without bound after a forced delete, so the
  embedding takes a fuel argument counting the invocations still allowed;
  `none` means the fuel ran out.
* The order of `SortableUnstructureds` and the readiness wait are parameters
  (`BatchEnv`); the wait acts on the client state and issues no logged call.
-/

set_option autoImplicit false

namespace ssa

/-! ## Data model -/

/-- The operation kind of a field-manager entry (`metav1.ManagedFieldsOperationType`). -/
inductive ManagedFieldsOperationType where
  | ManagedFieldsOperationUpdate
  | ManagedFieldsOperationApply
  deriving DecidableEq

export ManagedFieldsOperationType (ManagedFieldsOperationUpdate ManagedFieldsOperationApply)

/-- One ownership entry of `metadata.managedFields`. -/
structure ManagedFieldsEntry where
  Manager : String
  Operation : ManagedFieldsOperationType
  Fields : List String
  deriving DecidableEq

/-- The dynamically typed object (`unstructured.Unstructured`): identity,
resource version, the metadata the engine inspects, and the remaining content
as opaque key/value pairs. Maps are association lists read with `List.lookup`. -/
structure Unstructured where
  Kind : String
  Namespace : String
  Name : String
  ResourceVersion : String
  Labels : List (String × String)
  Annotations : List (String × String)
  ManagedFields : List ManagedFieldsEntry
  Content : List (String × String)
  deriving DecidableEq

/-- The result of `object.DeepCopy()`: objects are values, the copy is the object. -/
def DeepCopy (object : Unstructured) : Unstructured := object

/-- The key used to fetch an object (`client.ObjectKey`). -/
structure ObjectKey where
  Namespace : String
  Name : String
  deriving DecidableEq

/-- The key of an object (`client.ObjectKeyFromObject`). -/
def ObjectKeyFromObject (object : Unstructured) : ObjectKey :=
  { Namespace := object.Namespace, Name := object.Name }

/-- Options of a server-side apply request (`ApplyOptions`); the wait timeout is
in nanoseconds, as `time.Duration` is. -/
structure ApplyOptions where
  Force : Bool
  Exclusions : List (String × String)
  WaitTimeout : Nat
  deriving DecidableEq

/-- The default options (`DefaultApplyOptions`): no force, no exclusions, 60 s. -/
def DefaultApplyOptions : ApplyOptions :=
  { Force := false, Exclusions := [], WaitTimeout := 60 * 1000000000 }

/-- The action tag of a change-set entry. -/
inductive Action where
  | CreatedAction
  | ConfiguredAction
  | UnchangedAction
  | DeletedAction
  deriving DecidableEq

export Action (CreatedAction ConfiguredAction UnchangedAction DeletedAction)

/-- Modelled from the spec: `FmtUnstructured` is not in the sources at hand; the
spec only says that errors and entries carry the object identity
(kind/namespace/name), which is what this renders. -/
def FmtUnstructured (object : Unstructured) : String :=
  object.Kind ++ "/" ++ object.Namespace ++ "/" ++ object.Name

/-- Modelled from the spec: a change-set entry is one object identity plus an
action tag (the `ChangeSetEntry` type is not in the sources at hand). -/
structure ChangeSetEntry where
  Subject : String
  Action : Action
  deriving DecidableEq

/-- Modelled from the spec: `m.changeSetEntry(object, action)` is not in the
sources at hand; it pairs the identity of the object with the action. -/
def changeSetEntry (object : Unstructured) (action : Action) : ChangeSetEntry :=
  { Subject := FmtUnstructured object, Action := action }

/-- Modelled from the spec: the error classes a cluster client can signal
(section 6: immutable-field conflict, not found, other). -/
inductive ClientError where
  | ImmutableFieldConflict (detail : String)
  | NotFound
  | Other (msg : String)
  deriving DecidableEq

/-- Modelled from the spec: `IsImmutableError` is not in the sources at hand; it
recognises the immutable-field conflict class of section 6. -/
def IsImmutableError : ClientError → Bool
  | .ImmutableFieldConflict _ => true
  | _ => false

/-- Modelled from the spec: `AnyInMetadata` is not in the sources at hand. An
object matches when at least one key/value pair of the given map is present
in its labels or in its annotations; the empty (nil) map matches nothing. -/
def AnyInMetadata (object : Unstructured) (metadata : List (String × String)) : Bool :=
  metadata.any fun kv =>
    object.Labels.lookup kv.1 == some kv.2 || object.Annotations.lookup kv.1 == some kv.2

/-! ## JSON patches built by the sanitizer -/

/-- Modelled from the spec: one operation of the sanitizer patch (the
`jsonPatch` type is not in the sources at hand): removal of an annotation, or
removal of the field-manager entries of one manager and operation kind. -/
inductive jsonPatch where
  | removeAnnotationKey (key : String)
  | removeFieldsManager (manager : String) (operation : ManagedFieldsOperationType)
  deriving DecidableEq

/-- The annotation written by client-side apply (`corev1.LastAppliedConfigAnnotation`). -/
def LastAppliedConfigAnnotation : String := "kubectl.kubernetes.io/last-applied-configuration"

def kubectlManager : String := "kubectl"

def beforeApplyManager : String := "before-first-apply"

/-- Modelled from the spec: `patchRemoveAnnotations` is not in the sources at
hand; it yields one removal for every listed annotation key the object has. -/
def patchRemoveAnnotations (object : Unstructured) (keys : List String) : List jsonPatch :=
  (keys.filter fun key => (object.Annotations.lookup key).isSome).map jsonPatch.removeAnnotationKey

/-- Modelled from the spec: `patchRemoveFieldsManagers` is not in the sources at
hand; it yields one removal for every field-manager entry of the object whose
manager name is in the given list and whose operation is the given one. -/
def patchRemoveFieldsManagers (object : Unstructured) (managers : List String)
    (operation : ManagedFieldsOperationType) : List jsonPatch :=
  (object.ManagedFields.filter fun entry =>
      decide (entry.Manager ∈ managers) && decide (entry.Operation = operation)).map
    fun entry => jsonPatch.removeFieldsManager entry.Manager entry.Operation

/-- The outcome of `json.Marshal(patches)`. The encoded patch is represented by
the list it encodes. Encoding a list of `jsonPatch` values, which hold only
strings and operation tags, cannot fail, so this always succeeds. -/
def jsonMarshal (patches : List jsonPatch) : Except String (List jsonPatch) :=
  .ok patches

/-! ## The cluster client and the instrumented world -/

/-- The options of a `Patch` call that the engine uses. -/
inductive PatchOption where
  | DryRunAll
  | ForceOwnership
  | FieldOwner (name : String)
  deriving DecidableEq

/-- The patch kinds the engine uses: `client.Apply` (server-side apply) and
`client.RawPatch(types.JSONPatchType, raw)`. -/
inductive PatchSpec where
  | Apply
  | RawJSONPatch (raw : List jsonPatch)
  deriving DecidableEq

/-- The outcome of a client call that yields an object. -/
inductive Outcome where
  | ok (object : Unstructured)
  | failed (err : ClientError)
  deriving DecidableEq

/-- The cluster client: `Get` and `Patch` fill the object they are given on
success and report an error otherwise; `Delete` reports an error or nothing.
Each call may change the client state. -/
structure Client (σ : Type) where
  Get : σ → ObjectKey → Unstructured → Outcome × σ
  Patch : σ → Unstructured → PatchSpec → List PatchOption → Outcome × σ
  Delete : σ → Unstructured → Option ClientError × σ

/-- A record of one client call with its arguments and its outcome. -/
inductive Call where
  | Get (key : ObjectKey) (object : Unstructured) (result : Outcome)
  | Patch (object : Unstructured) (patch : PatchSpec) (opts : List PatchOption) (result : Outcome)
  | Delete (object : Unstructured) (result : Option ClientError)
  deriving DecidableEq

/-- The client state together with the log of the calls made so far. -/
structure World (σ : Type) where
  st : σ
  calls : List Call
  deriving DecidableEq

/-- The field owner of the engine (`m.owner`). -/
structure Owner where
  Field : String
  Group : String
  deriving DecidableEq

/-- The resource manager: its client, its owner, and the drift detector
`m.hasDrifted`, whose body is not in the sources at hand and is a parameter. -/
structure ResourceManager (σ : Type) where
  client : Client σ
  owner : Owner
  hasDrifted : Unstructured → Unstructured → Bool

variable {σ : Type}

/-- The call `m.client.Get(ctx, key, object)`: the object read, or the given
object untouched when the call fails, with the outcome and the new world. -/
def clientGet (m : ResourceManager σ) (w : World σ) (key : ObjectKey) (object : Unstructured) :
    Unstructured × Outcome × World σ :=
  let r := m.client.Get w.st key object
  let w1 : World σ := { st := r.2, calls := w.calls ++ [Call.Get key object r.1] }
  match r.1 with
  | .ok found => (found, r.1, w1)
  | .failed _ => (object, r.1, w1)

/-- The call `m.client.Patch(ctx, object, patch, opts...)`: the patched object,
or the given object untouched when the call fails. -/
def clientPatch (m : ResourceManager σ) (w : World σ) (object : Unstructured)
    (patch : PatchSpec) (opts : List PatchOption) : Unstructured × Option ClientError × World σ :=
  let r := m.client.Patch w.st object patch opts
  let w1 : World σ := { st := r.2, calls := w.calls ++ [Call.Patch object patch opts r.1] }
  match r.1 with
  | .ok patched => (patched, none, w1)
  | .failed err => (object, some err, w1)

/-- The call `m.client.Delete(ctx, object)`. -/
def clientDelete (m : ResourceManager σ) (w : World σ) (object : Unstructured) :
    Option ClientError × World σ :=
  let r := m.client.Delete w.st object
  (r.1, { st := r.2, calls := w.calls ++ [Call.Delete object r.1] })

/-- The options of the dry-run apply. -/
def dryRunOpts (m : ResourceManager σ) : List PatchOption :=
  [PatchOption.DryRunAll, PatchOption.ForceOwnership, PatchOption.FieldOwner m.owner.Field]

/-- The options of the real apply. -/
def applyOpts (m : ResourceManager σ) : List PatchOption :=
  [PatchOption.ForceOwnership, PatchOption.FieldOwner m.owner.Field]

/-- The method `dryRunApply`: a server-side apply patch with `DryRunAll`. -/
def dryRunApply (m : ResourceManager σ) (w : World σ) (object : Unstructured) :
    Unstructured × Option ClientError × World σ :=
  clientPatch m w object PatchSpec.Apply (dryRunOpts m)

/-- The method `apply`: a server-side apply patch that persists. -/
def apply (m : ResourceManager σ) (w : World σ) (object : Unstructured) :
    Unstructured × Option ClientError × World σ :=
  clientPatch m w object PatchSpec.Apply (applyOpts m)

/-! ## The sanitizer and the apply engine -/

/-- The method `cleanupManagedFields` (lines 229-260): collects the removals of the
last-applied-configuration annotation, of the update managers and of the
kubectl apply manager, and sends them in one JSON patch under the owner of
the engine. The result is the `changed` flag, the error, and the new world. -/
def cleanupManagedFields (m : ResourceManager σ) (w : World σ) (object : Option Unstructured) :
    Bool × Option ClientError × World σ :=
  match object with
  | none => (false, none, w)
  | some object =>
    let existingObject := DeepCopy object
    let patches : List jsonPatch := []
    -- remove last-applied-configuration annotation
    let annotationKeys := [ LastAppliedConfigAnnotation]
    let patches := patches ++ patchRemoveAnnotations existingObject annotationKeys
    -- remove kubectl update managers
    let updateManagers := [kubectlManager, beforeApplyManager, "kustomize-controller"]
    let patches := patches ++
      patchRemoveFieldsManagers existingObject updateManagers ManagedFieldsOperationUpdate
    -- remove kubectl apply managers
    let applyManagers := [kubectlManager]
    let patches := patches ++
      patchRemoveFieldsManagers existingObject applyManagers ManagedFieldsOperationApply
    -- no patching is needed exit early
    if patches.length == 0 then
      (false, none, w)
    else
      match jsonMarshal patches with
      | .error _ => (false, none, w)
      | .ok rawPatch =>
        let r := clientPatch m w existingObject (PatchSpec.RawJSONPatch rawPatch)
          [PatchOption.FieldOwner m.owner.Field]
        (true, r.2.1, r.2.2)

/-- The errors `Apply` returns; each wraps the client error and names the object. -/
inductive ApplyError where
  /-- The error "immutable field detected, failed to delete object". -/
  | deleteFailed (subject : String) (cause : ClientError)
  /-- The error built by `m.validationError(dryRunObject, err)`. -/
  | validation (subject : String) (cause : ClientError)
  /-- The error "metadata.managedFields cleanup failed". -/
  | cleanupFailed (subject : String) (cause : ClientError)
  /-- The error "apply failed". -/
  | applyFailed (subject : String) (cause : ClientError)
  deriving DecidableEq

/-- Modelled from the spec: `m.validationError` is not in the sources at hand; a
validation error identifies the object and carries the underlying cause. -/
def validationError (object : Unstructured) (err : ClientError) : ApplyError :=
  ApplyError.validation (FmtUnstructured object) err

/-- The method `Apply` (lines 62-104). The first argument is the number of
invocations of `Apply` still allowed; the result is `none` when it is used up.
The existing object starts as a copy of the desired one and is replaced only
by a successful Get; being a copy of an object it is never nil, so the nil
test of line 66 always passes and only the exclusion test is kept. -/
def Apply (m : ResourceManager σ) :
    Nat → World σ → Unstructured → ApplyOptions →
      Option (Except ApplyError ChangeSetEntry) × World σ
  | 0, w, _, _ => (none, w)
  | fuel + 1, w, object, opts =>
    let existingObject := DeepCopy object
    match clientGet m w (ObjectKeyFromObject object) existingObject with
    | (existingObject, _, w1) =>
      if AnyInMetadata existingObject opts.Exclusions then
        (some (.ok (changeSetEntry object UnchangedAction)), w1)
      else
        let dryRunObject := DeepCopy object
        match dryRunApply m w1 dryRunObject with
        | (dryRunObject, some err, w2) =>
          if opts.Force && IsImmutableError err then
            match clientDelete m w2 existingObject with
            | (some err, w3) =>
              (some (.error (ApplyError.deleteFailed (FmtUnstructured dryRunObject) err)), w3)
            | (none, w3) => Apply m fuel w3 object opts
          else
            (some (.error (validationError dryRunObject err)), w2)
        | (dryRunObject, none, w2) =>
          match cleanupManagedFields m w2 (some existingObject) with
          | (_, some err, w3) =>
            (some (.error (ApplyError.cleanupFailed (FmtUnstructured existingObject) err)), w3)
          | (patched, none, w3) =>
            -- do not apply objects that have not drifted to avoid bumping the resource version
            if !patched && !m.hasDrifted existingObject dryRunObject then
              (some (.ok (changeSetEntry object UnchangedAction)), w3)
            else
              let appliedObject := DeepCopy object
              match apply m w3 appliedObject with
              | (appliedObject, some err, w4) =>
                (some (.error (ApplyError.applyFailed (FmtUnstructured appliedObject) err)), w4)
              | (appliedObject, none, w4) =>
                if dryRunObject.ResourceVersion == "" then
                  (some (.ok (changeSetEntry appliedObject CreatedAction)), w4)
                else
                  (some (.ok (changeSetEntry appliedObject ConfiguredAction)), w4)

/-! ## The batch engine and the staged rollout -/

/-- Modelled from the spec: the change set is an ordered sequence of entries
(the `ChangeSet` type is not in the sources at hand). -/
structure ChangeSet where
  Entries : List ChangeSetEntry
  deriving DecidableEq

/-- Modelled from the spec: `NewChangeSet` yields the empty change set. -/
def NewChangeSet : ChangeSet := { Entries := [] }

/-- Modelled from the spec: `changeSet.Add` appends one entry. -/
def ChangeSet.Add (changeSet : ChangeSet) (entry : ChangeSetEntry) : ChangeSet :=
  { Entries := changeSet.Entries ++ [entry] }

/-- Modelled from the spec: `changeSet.Append` concatenates the given entries. -/
def ChangeSet.Append (changeSet : ChangeSet) (entries : List ChangeSetEntry) : ChangeSet :=
  { Entries := changeSet.Entries ++ entries }

/-- Modelled from the spec: the options of the readiness wait, a polling
interval and a timeout in nanoseconds (`WaitOptions` is not in the sources at
hand). -/
structure WaitOptions where
  Interval : Nat
  Timeout : Nat
  deriving DecidableEq

/-- Modelled from the spec: the failure of the readiness wait. -/
inductive WaitError where
  | Timeout
  | Other (msg : String)
  deriving DecidableEq

/-- The collaborators of the batch methods whose code is not in the sources at
hand, as parameters. `rank` stands for the order of `SortableUnstructureds`:
the spec only says the sort is deterministic, and every such order on the
objects of one call is given by a rank. `Wait` stands for `m.Wait`, which
polls the readiness of the given objects and may change the cluster state. -/
structure BatchEnv (σ : Type) where
  rank : Unstructured → Nat
  Wait : σ → List Unstructured → WaitOptions → Option WaitError × σ

/-- The result of `sort.Sort(SortableUnstructureds(objects))`: the objects by
ascending rank, equal ranks in their given order. -/
def sortObjects (b : BatchEnv σ) (objects : List Unstructured) : List Unstructured :=
  objects.insertionSort fun x y => b.rank x ≤ b.rank y

/-- How a round of the first loop of `ApplyAll`, or the whole loop, ends: done
with the change set and the to-apply list built so far, a restart of
`ApplyAll` after a forced delete, or an error. -/
inductive DiffOutcome where
  | done (changeSet : ChangeSet) (toApply : List Unstructured)
  | restart
  | failed (err : ApplyError)
  deriving DecidableEq

/-- One round of the first loop of `ApplyAll` (lines 113-149), for one object,
with the change set and the to-apply list built so far. As in `Apply`, the
existing object is never nil and only the exclusion test of line 116 is kept. -/
def diffStep (m : ResourceManager σ) (opts : ApplyOptions) (object : Unstructured)
    (changeSet : ChangeSet) (toApply : List Unstructured) (w : World σ) :
    DiffOutcome × World σ :=
  let existingObject := DeepCopy object
  match clientGet m w (ObjectKeyFromObject object) existingObject with
  | (existingObject, _, w1) =>
    if AnyInMetadata existingObject opts.Exclusions then
      (DiffOutcome.done (changeSet.Add (changeSetEntry existingObject UnchangedAction))
        toApply, w1)
    else
      let dryRunObject := DeepCopy object
      match dryRunApply m w1 dryRunObject with
      | (dryRunObject, some err, w2) =>
        if opts.Force && IsImmutableError err then
          match clientDelete m w2 existingObject with
          | (some err, w3) =>
            (DiffOutcome.failed
              (ApplyError.deleteFailed (FmtUnstructured dryRunObject) err), w3)
          | (none, w3) => (DiffOutcome.restart, w3)
        else
          (DiffOutcome.failed (validationError dryRunObject err), w2)
      | (dryRunObject, none, w2) =>
        match cleanupManagedFields m w2 (some existingObject) with
        | (_, some err, w3) =>
          (DiffOutcome.failed
            (ApplyError.cleanupFailed (FmtUnstructured existingObject) err), w3)
        | (patched, none, w3) =>
          if patched || m.hasDrifted existingObject dryRunObject then
            if dryRunObject.ResourceVersion == "" then
              (DiffOutcome.done (changeSet.Add (changeSetEntry dryRunObject CreatedAction))
                (toApply ++ [object]), w3)
            else
              (DiffOutcome.done
                (changeSet.Add (changeSetEntry dryRunObject ConfiguredAction))
                (toApply ++ [object]), w3)
          else
            (DiffOutcome.done (changeSet.Add (changeSetEntry dryRunObject UnchangedAction))
              toApply, w3)

/-- The first loop of `ApplyAll` (lines 112-150) over the remaining objects: a
round per object, left at the first restart or error. -/
def diffPass (m : ResourceManager σ) (opts : ApplyOptions) :
    List Unstructured → ChangeSet → List Unstructured → World σ → DiffOutcome × World σ
  | [], changeSet, toApply, w => (DiffOutcome.done changeSet toApply, w)
  | object :: rest, changeSet, toApply, w =>
    match diffStep m opts object changeSet toApply w with
    | (DiffOutcome.done changeSet toApply, w1) => diffPass m opts rest changeSet toApply w1
    | (DiffOutcome.restart, w1) => (DiffOutcome.restart, w1)
    | (DiffOutcome.failed err, w1) => (DiffOutcome.failed err, w1)

/-- The second loop of `ApplyAll` (lines 152-157): the writes, stopping at the
first that fails. -/
def writePass (m : ResourceManager σ) : List Unstructured → World σ →
    Option ApplyError × World σ
  | [], w => (none, w)
  | object :: rest, w =>
    let appliedObject := DeepCopy object
    match apply m w appliedObject with
    | (appliedObject, some err, w1) =>
      (some (ApplyError.applyFailed (FmtUnstructured appliedObject) err), w1)
    | (_, none, w1) => writePass m rest w1

/-- The method `ApplyAll` (lines 108-160). The first argument is the number of
invocations of `ApplyAll` still allowed; the result is `none` when it is used
up. The slice is sorted in place, so a restart receives the sorted objects. -/
def ApplyAll (m : ResourceManager σ) (b : BatchEnv σ) :
    Nat → World σ → List Unstructured → ApplyOptions →
      Option (Except ApplyError ChangeSet) × World σ
  | 0, w, _, _ => (none, w)
  | fuel + 1, w, objects, opts =>
    let objects := sortObjects b objects
    let changeSet := NewChangeSet
    match diffPass m opts objects changeSet [] w with
    | (DiffOutcome.restart, w1) => ApplyAll m b fuel w1 objects opts
    | (DiffOutcome.failed err, w1) => (some (.error err), w1)
    | (DiffOutcome.done changeSet toApply, w1) =>
      match writePass m toApply w1 with
      | (some err, w2) => (some (.error err), w2)
      | (none, w2) => (some (.ok changeSet), w2)

/-- Modelled from the spec: `IsClusterDefinition` is not in the sources at
hand; the spec speaks of schema-definition and namespace-like kinds, and the
comments of `ApplyAllStaged` of CRDs and Namespaces. -/
def IsClusterDefinition (object : Unstructured) : Bool :=
  object.Kind == "CustomResourceDefinition" || object.Kind == "Namespace"

/-- The error `ApplyAllStaged` returns: that of an `ApplyAll` or that of the
wait, handed on as it is. -/
inductive StagedError where
  | applyAll (err : ApplyError)
  | wait (err : WaitError)
  deriving DecidableEq

/-- One second in nanoseconds (`time.Second`). -/
def Second : Nat := 1000000000

/-- The call `m.Wait(objects, opts)`: the error, if any, and the new world; the
call log, which records the calls of the cluster client, is left as it is. -/
def waitFor (b : BatchEnv σ) (w : World σ) (objects : List Unstructured)
    (opts : WaitOptions) : Option WaitError × World σ :=
  let r := b.Wait w.st objects opts
  (r.1, { w with st := r.2 })

/-- The end of `ApplyAllStaged` (lines 195-201): the second stage is applied
and its entries are appended to the change set. -/
def applyStageTwo (m : ResourceManager σ) (b : BatchEnv σ) (fuel : Nat) (w : World σ)
    (changeSet : ChangeSet) (stageTwo : List Unstructured) (opts : ApplyOptions) :
    Option (Except StagedError ChangeSet) × World σ :=
  match ApplyAll m b fuel w stageTwo opts with
  | (none, w1) => (none, w1)
  | (some (.error err), w1) => (some (.error (StagedError.applyAll err)), w1)
  | (some (.ok cs), w1) => (some (.ok (changeSet.Append cs.Entries)), w1)

/-- The method `ApplyAllStaged` (lines 166-202); each `ApplyAll` it calls gets
the given fuel. The wait is given the first stage as `ApplyAll` left it, that
is sorted in place; a restart sorts the sorted slice again, which changes
nothing (`sortObjects_idem`). -/
def ApplyAllStaged (m : ResourceManager σ) (b : BatchEnv σ) (fuel : Nat) (w : World σ)
    (objects : List Unstructured) (opts : ApplyOptions) :
    Option (Except StagedError ChangeSet) × World σ :=
  let changeSet := NewChangeSet
  -- contains only CRDs and Namespaces
  let stageOne := objects.filter fun u => IsClusterDefinition u
  -- contains all objects except for CRDs and Namespaces
  let stageTwo := objects.filter fun u => !IsClusterDefinition u
  if stageOne.length > 0 then
    match ApplyAll m b fuel w stageOne opts with
    | (none, w1) => (none, w1)
    | (some (.error err), w1) => (some (.error (StagedError.applyAll err)), w1)
    | (some (.ok cs), w1) =>
      let changeSet := changeSet.Append cs.Entries
      match waitFor b w1 (sortObjects b stageOne)
          { Interval := 2 * Second, Timeout := opts.WaitTimeout } with
      | (some err, w2) => (some (.error (StagedError.wait err)), w2)
      | (none, w2) => applyStageTwo m b fuel w2 changeSet stageTwo opts
  else
    applyStageTwo m b fuel w changeSet stageTwo opts

/-! ## Classification of the logged calls -/

/-- A server-side apply patch sent with `DryRunAll`. -/
def Call.isDryRun : Call → Bool
  | .Patch _ PatchSpec.Apply opts _ => decide (PatchOption.DryRunAll ∈ opts)
  | _ => false

/-- A server-side apply patch sent without `DryRunAll`: the real write. -/
def Call.isApplyWrite : Call → Bool
  | .Patch _ PatchSpec.Apply opts _ => !decide (PatchOption.DryRunAll ∈ opts)
  | _ => false

/-- A JSON patch: the sanitization write. -/
def Call.isSanitize : Call → Bool
  | .Patch _ (PatchSpec.RawJSONPatch _) _ _ => true
  | _ => false

/-- A delete. -/
def Call.isDelete : Call → Bool
  | .Delete _ _ => true
  | _ => false

/-- A read. -/
def Call.isGet : Call → Bool
  | .Get _ _ _ => true
  | _ => false

/-! ## An in-memory cluster store

A concrete client on which the scenarios below are run: it keeps the stored
objects and a revision counter, refuses changes to the content keys listed as
immutable, and can be set to refuse deletes. -/

deriving instance DecidableEq for Except

/-- The state of the in-memory store. -/
structure Store where
  objects : List Unstructured
  revision : Nat
  immutableKeys : List String
  refuseDelete : Bool
  deriving DecidableEq

/-- Two objects name the same resource. -/
def sameIdentity (a b : Unstructured) : Bool :=
  a.Kind == b.Kind && a.Namespace == b.Namespace && a.Name == b.Name

/-- The stored object with the identity of the given one. -/
def Store.find (s : Store) (object : Unstructured) : Option Unstructured :=
  s.objects.find? (sameIdentity object)

/-- The store without the object of the given identity. -/
def Store.remove (s : Store) (object : Unstructured) : Store :=
  { s with objects := s.objects.filter fun o => !sameIdentity object o }

/-- The store after writing the given object under the next revision. -/
def Store.put (s : Store) (object : Unstructured) : Unstructured × Store :=
  let stored := { object with ResourceVersion := toString (s.revision + 1) }
  (stored, { s with objects := stored :: (s.remove object).objects, revision := s.revision + 1 })

/-- The field owner named in the options of a patch. -/
def fieldOwnerOf : List PatchOption → String
  | [] => ""
  | PatchOption.FieldOwner name :: _ => name
  | _ :: rest => fieldOwnerOf rest

/-- The applied map: the desired pairs, then the stored pairs of other keys. -/
def mergeMap (desired stored : List (String × String)) : List (String × String) :=
  desired ++ stored.filter fun kv => (desired.lookup kv.1).isNone

/-- The object a server-side apply of `object` by `owner` produces, before it is
given a new revision: a fresh object when nothing is stored, else the stored
one overlaid with the desired labels, annotations and content, the owner
recorded as an apply manager. -/
def Store.applied (s : Store) (object : Unstructured) (owner : String) : Unstructured :=
  let entry : ManagedFieldsEntry :=
    { Manager := owner, Operation := ManagedFieldsOperationApply,
      Fields := object.Content.map Prod.fst }
  match s.find object with
  | none => { object with ResourceVersion := "", ManagedFields := [entry] }
  | some stored =>
    { object with
      ResourceVersion := stored.ResourceVersion
      Labels := mergeMap object.Labels stored.Labels
      Annotations := mergeMap object.Annotations stored.Annotations
      Content := mergeMap object.Content stored.Content
      ManagedFields :=
        (stored.ManagedFields.filter fun e =>
          !(e.Manager == owner && e.Operation == ManagedFieldsOperationApply)) ++ [entry] }

/-- The first immutable content key the given object would change, if any. -/
def Store.immutableConflict (s : Store) (object : Unstructured) : Option String :=
  match s.find object with
  | none => none
  | some stored =>
    s.immutableKeys.find? fun key => stored.Content.lookup key != object.Content.lookup key

/-- The effect of one sanitizer removal on a stored object. -/
def applyJsonPatch (object : Unstructured) : jsonPatch → Unstructured
  | .removeAnnotationKey key =>
    { object with Annotations := object.Annotations.filter fun kv => kv.1 != key }
  | .removeFieldsManager manager operation =>
    { object with ManagedFields := object.ManagedFields.filter fun e =>
        !(e.Manager == manager && e.Operation == operation) }

/-- The `Patch` of the in-memory store. A server-side apply is refused on an
immutable conflict; a dry run answers with the applied object and stores
nothing; a real apply stores the applied object under a new revision unless
it equals the stored one. A JSON patch needs a stored object. -/
def Store.patch (s : Store) (object : Unstructured) (patch : PatchSpec)
    (opts : List PatchOption) : Outcome × Store :=
  match patch with
  | PatchSpec.Apply =>
    match s.immutableConflict object with
    | some key => (Outcome.failed (ClientError.ImmutableFieldConflict key), s)
    | none =>
      let result := s.applied object (fieldOwnerOf opts)
      if PatchOption.DryRunAll ∈ opts then (Outcome.ok result, s)
      else if s.find object = some result then (Outcome.ok result, s)
      else ((s.put result).1 |> Outcome.ok, (s.put result).2)
  | PatchSpec.RawJSONPatch raw =>
    match s.find object with
    | none => (Outcome.failed ClientError.NotFound, s)
    | some stored =>
      let result := raw.foldl applyJsonPatch stored
      if result = stored then (Outcome.ok stored, s)
      else ((s.put result).1 |> Outcome.ok, (s.put result).2)

/-- The in-memory store as a cluster client. -/
def storeClient : Client Store where
  Get := fun s key object =>
    match s.find { object with Namespace := key.Namespace, Name := key.Name } with
    | some stored => (Outcome.ok stored, s)
    | none => (Outcome.failed ClientError.NotFound, s)
  Patch := Store.patch
  Delete := fun s object =>
    if s.refuseDelete then (some (ClientError.Other "delete refused"), s)
    else match s.find object with
      | some _ => (none, s.remove object)
      | none => (some ClientError.NotFound, s)

/-- Modelled from the spec: `m.hasDrifted` is not in the sources at hand.
Section 4.1 asks for drift on first creation (the dry run carries no resource
version) or when a user-meaningful field differs, the resource version and
the field-manager bookkeeping being ignored: here the labels, the
annotations and the content are compared, as the lists they are, so that
drift is reported at least as often as by a comparison that ignores the
order of the pairs. -/
def refHasDrifted (existingObject dryRunObject : Unstructured) : Bool :=
  dryRunObject.ResourceVersion == "" ||
    dryRunObject.Labels != existingObject.Labels ||
    dryRunObject.Annotations != existingObject.Annotations ||
    dryRunObject.Content != existingObject.Content

/-- The engine over the in-memory store, owned by `kustomize-controller`. -/
def storeManager : ResourceManager Store :=
  { client := storeClient
    owner := { Field := "kustomize-controller", Group := "kustomize.toolkit.fluxcd.io" }
    hasDrifted := refHasDrifted }

/-- An empty store. -/
def emptyStore : Store :=
  { objects := [], revision := 0, immutableKeys := [], refuseDelete := false }

/-- A config map `default/app` with one data key. -/
def appConfig : Unstructured :=
  { Kind := "ConfigMap", Namespace := "default", Name := "app", ResourceVersion := "",
    Labels := [("team", "a")], Annotations := [], ManagedFields := [],
    Content := [("data.key", "value")] }

/-! ## Stores of the scenarios -/

/-- The config map as the engine left it in the store after a first apply. -/
def storedApp : Unstructured :=
  { appConfig with
    ResourceVersion := "1"
    ManagedFields :=
      [{ Manager := "kustomize-controller", Operation := ManagedFieldsOperationApply,
         Fields := ["data.key"] }] }

/-- A store holding the config map applied by the engine. -/
def appStore : Store :=
  { emptyStore with objects := [storedApp], revision := 1 }

/-- The config map as kubectl created it: one update entry owned by kubectl. -/
def kubectlApp : Unstructured :=
  { appConfig with
    ResourceVersion := "1"
    ManagedFields :=
      [{ Manager := "kubectl", Operation := ManagedFieldsOperationUpdate,
         Fields := ["data.key"] }] }

/-- A store holding the config map created by kubectl. -/
def kubectlStore : Store :=
  { emptyStore with objects := [kubectlApp], revision := 1 }

/-- A store in which `data.key` is immutable and holds another value. -/
def frozenStore : Store :=
  { objects := [{ storedApp with Content := [("data.key", "old")] }], revision := 1,
    immutableKeys := ["data.key"], refuseDelete := false }

/-- The options with force enabled. -/
def forceOptions : ApplyOptions :=
  { DefaultApplyOptions with Force := true }

/-- The options excluding the objects labelled `team: a`. -/
def teamExclusion : ApplyOptions :=
  { DefaultApplyOptions with Exclusions := [("team", "a")] }

/-- The config map as exported from a cluster: it carries the
last-applied-configuration annotation of kubectl. -/
def exportedApp : Unstructured :=
  { appConfig with Annotations := [( LastAppliedConfigAnnotation, "{}")] }

/-- A store holding the exported config map as the engine applied it. -/
def exportedStore : Store :=
  { emptyStore with
    objects :=
      [{ exportedApp with ResourceVersion := "1", ManagedFields := storedApp.ManagedFields }]
    revision := 1 }

/-! ## Collaborators and clients of the batch scenarios -/

/-- A rank that puts namespaces first, then custom resource definitions, then
everything else. -/
def kindRank (object : Unstructured) : Nat :=
  if object.Kind == "Namespace" then 0
  else if object.Kind == "CustomResourceDefinition" then 1
  else 2

/-- An object of the in-memory store is ready when it is stored and its content
does not say `ready: false`. -/
def Store.ready (s : Store) (object : Unstructured) : Bool :=
  match s.find object with
  | some stored => stored.Content.lookup "ready" != some "false"
  | none => false

/-- The collaborators over the in-memory store: the wait succeeds when every
object is ready and times out otherwise. -/
def storeEnv : BatchEnv Store :=
  { rank := kindRank
    Wait := fun s objects _ =>
      if objects.all s.ready then (none, s) else (some WaitError.Timeout, s) }

/-- The namespace `default`. -/
def appNamespace : Unstructured :=
  { Kind := "Namespace", Namespace := "", Name := "default", ResourceVersion := "",
    Labels := [], Annotations := [], ManagedFields := [], Content := [] }

/-- A namespace that never becomes ready. -/
def stuckNamespace : Unstructured :=
  { appNamespace with Name := "stuck", Content := [("ready", "false")] }

/-- A second config map, `default/other`. -/
def otherConfig : Unstructured :=
  { appConfig with Name := "other", Labels := [] }

/-- The second config map as stored, with another value of `data.key`. -/
def storedOther : Unstructured :=
  { otherConfig with
    ResourceVersion := "1"
    Content := [("data.key", "old")] }

/-- The second config map with the label `team: a` added. -/
def labelledOther : Unstructured :=
  { otherConfig with Labels := [("team", "a")] }

/-- The options with force enabled, excluding the objects labelled `team: a`. -/
def forceTeamExclusion : ApplyOptions :=
  { forceOptions with Exclusions := [("team", "a")] }

/-- A store holding the config map created by kubectl and, under an immutable
`data.key`, the second config map with another value. -/
def mixedStore : Store :=
  { objects := [kubectlApp, storedOther], revision := 1, immutableKeys := ["data.key"],
    refuseDelete := false }

/-- A client that finds nothing, reports an immutable-field conflict on every
patch and accepts every delete. -/
def conflictClient : Client Unit :=
  { Get := fun s _ _ => (Outcome.failed ClientError.NotFound, s)
    Patch := fun s _ _ _ => (Outcome.failed (ClientError.ImmutableFieldConflict "spec"), s)
    Delete := fun s _ => (none, s) }

/-- The engine over the always conflicting client. -/
def conflictManager : ResourceManager Unit :=
  { client := conflictClient
    owner := storeManager.owner
    hasDrifted := refHasDrifted }

/-- The collaborators of the always conflicting client: one rank, no waiting. -/
def conflictEnv : BatchEnv Unit :=
  { rank := kindRank, Wait := fun s _ _ => (none, s) }

/-- The in-memory store behind a quota of real apply writes: the state is the
store and the number of writes still accepted. -/
def quotaClient : Client (Store × Nat) :=
  { Get := fun s key object =>
      ((storeClient.Get s.1 key object).1, ((storeClient.Get s.1 key object).2, s.2))
    Patch := fun s object patch opts =>
      if patch = PatchSpec.Apply ∧ PatchOption.DryRunAll ∉ opts then
        match s.2 with
        | 0 => (Outcome.failed (ClientError.Other "quota exceeded"), s)
        | quota + 1 =>
          ((storeClient.Patch s.1 object patch opts).1,
            ((storeClient.Patch s.1 object patch opts).2, quota))
      else
        ((storeClient.Patch s.1 object patch opts).1,
          ((storeClient.Patch s.1 object patch opts).2, s.2))
    Delete := fun s object =>
      ((storeClient.Delete s.1 object).1, ((storeClient.Delete s.1 object).2, s.2)) }

/-- The engine over the store with a write quota. -/
def quotaManager : ResourceManager (Store × Nat) :=
  { client := quotaClient
    owner := storeManager.owner
    hasDrifted := refHasDrifted }

/-- The collaborators of the store with a write quota. -/
def quotaEnv : BatchEnv (Store × Nat) :=
  { rank := kindRank
    Wait := fun s objects opts => ((storeEnv.Wait s.1 objects opts).1, s) }

/-- The collaborators of a store that accepts the writes of the next stage only
once the awaited objects are ready: a successful wait raises the write quota
by two, a wait on an object that is not ready times out. -/
def gatedEnv : BatchEnv (Store × Nat) :=
  { rank := kindRank
    Wait := fun s objects _ =>
      if objects.all s.1.ready then (none, (s.1, s.2 + 2)) else (some WaitError.Timeout, s) }

/-- The config map with three field managers: an update by kubectl, an apply by
before-first-apply and the apply of the engine itself. -/
def ownedApp : Unstructured :=
  { appConfig with
    ResourceVersion := "1"
    ManagedFields :=
      [{ Manager := "kubectl", Operation := ManagedFieldsOperationUpdate,
         Fields := ["data.key"] },
       { Manager := "before-first-apply", Operation := ManagedFieldsOperationApply,
         Fields := ["data.key"] },
       { Manager := "kustomize-controller", Operation := ManagedFieldsOperationApply,
         Fields := ["data.key"] }] }

/-- A store holding the config map with the three field managers. -/
def ownedStore : Store :=
  { emptyStore with objects := [ownedApp], revision := 1 }

/-! ## Vocabulary of the statements -/

/-- The removals `cleanupManagedFields` collects for an object, in order: the
annotation, the update managers, the kubectl apply manager. -/
def sanitizerPatches (object : Unstructured) : List jsonPatch :=
  patchRemoveAnnotations object [ LastAppliedConfigAnnotation] ++
    (patchRemoveFieldsManagers object [kubectlManager, beforeApplyManager, "kustomize-controller"]
        ManagedFieldsOperationUpdate ++
      patchRemoveFieldsManagers object [kubectlManager] ManagedFieldsOperationApply)

/-- A field-manager entry the sanitizer removes: an update by kubectl,
before-first-apply or kustomize-controller, or an apply by kubectl. -/
def sanitizableEntry (entry : ManagedFieldsEntry) : Bool :=
  (decide (entry.Manager ∈ [kubectlManager, beforeApplyManager, "kustomize-controller"]) &&
      decide (entry.Operation = ManagedFieldsOperationUpdate)) ||
    (decide (entry.Manager = kubectlManager) &&
      decide (entry.Operation = ManagedFieldsOperationApply))

/-- The object carries the last-applied-configuration annotation. -/
def hasLastApplied (object : Unstructured) : Bool :=
  (object.Annotations.lookup LastAppliedConfigAnnotation).isSome

/-- The error `Apply` returns, if any, of a client call outcome. -/
def Outcome.err : Outcome → Option ClientError
  | .ok _ => none
  | .failed e => some e

/-- The object once the removals collected for it are applied, one after the
other. -/
def sanitized (object : Unstructured) : Unstructured :=
  (sanitizerPatches object).foldl applyJsonPatch object

/-- The legacy manager names of line 241. -/
def legacyManagers : List String :=
  [kubectlManager, beforeApplyManager, "kustomize-controller"]

/-- A call of the diff pass: a read, a dry run, a sanitization patch or a
delete. -/
def Call.isDiffCall (c : Call) : Bool :=
  c.isGet || c.isDryRun || c.isSanitize || c.isDelete

/-- The client answers a Get or a Patch with an object of the identity (kind,
namespace, name) of the object it was given. -/
def KeepsIdentity (c : Client σ) : Prop :=
  (∀ s o r, (c.Get s (ObjectKeyFromObject o) o).1 = Outcome.ok r →
    FmtUnstructured r = FmtUnstructured o) ∧
  (∀ s o p opts r, (c.Patch s o p opts).1 = Outcome.ok r →
    FmtUnstructured r = FmtUnstructured o)

/-- An error of the diff pass: a failed forced delete, a rejected dry run or a
failed sanitization. -/
def ApplyError.inDiffPass : ApplyError → Bool
  | .deleteFailed _ _ => true
  | .validation _ _ => true
  | .cleanupFailed _ _ => true
  | .applyFailed _ _ => false

/-- The outcomes of `ApplyAll` on a one-element list and of `Apply` agree: both
ran out of fuel, both failed with the same error, or both succeeded and the
change set holds exactly one entry, with the action of the entry of `Apply`. -/
def outcomesAgree :
    Option (Except ApplyError ChangeSet) → Option (Except ApplyError ChangeSetEntry) → Prop
  | none, none => True
  | some (.error e1), some (.error e2) => e1 = e2
  | some (.ok changeSet), some (.ok entry) =>
    ∃ e, changeSet.Entries = [e] ∧ e.Action = entry.Action
  | _, _ => False

/-- The object a call is given. -/
def Call.object : Call → Unstructured
  | .Get _ o _ => o
  | .Patch o _ _ _ => o
  | .Delete o _ => o

/-- Every object of the store has a resource version. -/
def Store.versioned (s : Store) : Bool :=
  s.objects.all fun x => x.ResourceVersion != ""

/-- The store has nothing left to do for the object: a server-side apply of it
is not refused, the stored object (the desired one when nothing is stored)
has nothing to sanitize, and the reference drift detector sees no drift
between it and the applied object. -/
def Store.Settled (s : Store) (object : Unstructured) : Prop :=
  s.immutableConflict object = none ∧
    sanitizerPatches ((s.find object).getD object) = [] ∧
    refHasDrifted ((s.find object).getD object)
      (s.applied object storeManager.owner.Field) = false

instance (s : Store) (object : Unstructured) : Decidable (s.Settled object) := by
  unfold Store.Settled
  infer_instance

/-! ## Basic facts about the instrumented calls -/

theorem cleanupManagedFields_some (m : ResourceManager σ) (w : World σ) (object : Unstructured) :
    cleanupManagedFields m w (some object) =
      if sanitizerPatches object = [] then (false, none, w)
      else
        (true,
          (clientPatch m w object (PatchSpec.RawJSONPatch (sanitizerPatches object))
            [PatchOption.FieldOwner m.owner.Field]).2) := by
  simp [cleanupManagedFields, jsonMarshal, sanitizerPatches, DeepCopy]

theorem cleanupManagedFields_not_changed (m : ResourceManager σ) (w : World σ)
    (object : Option Unstructured)
    (h : (cleanupManagedFields m w object).1 = false) :
    cleanupManagedFields m w object = (false, none, w) := by
  cases object with
  | none => rfl
  | some o =>
    rw [cleanupManagedFields_some] at h ⊢
    split at h
    · rename_i he; simp [he]
    · simp at h

theorem clientPatch_eq (m : ResourceManager σ) (w : World σ) (object : Unstructured)
    (patch : PatchSpec) (opts : List PatchOption) :
    clientPatch m w object patch opts =
      ((match (m.client.Patch w.st object patch opts).1 with
        | .ok patched => patched
        | .failed _ => object),
       (m.client.Patch w.st object patch opts).1.err,
       { st := (m.client.Patch w.st object patch opts).2,
         calls := w.calls ++
          [Call.Patch object patch opts (m.client.Patch w.st object patch opts).1] }) := by
  unfold clientPatch
  cases h : (m.client.Patch w.st object patch opts).1 <;> simp [h, Outcome.err]

theorem clientPatch_ok (m : ResourceManager σ) (w w1 : World σ) (object result : Unstructured)
    (patch : PatchSpec) (opts : List PatchOption)
    (h : clientPatch m w object patch opts = (result, none, w1)) :
    (m.client.Patch w.st object patch opts).1 = Outcome.ok result ∧
      w1.calls = w.calls ++ [Call.Patch object patch opts (Outcome.ok result)] := by
  rw [clientPatch_eq] at h
  cases hr : (m.client.Patch w.st object patch opts).1 with
  | ok p =>
    rw [hr] at h
    simp only [Prod.mk.injEq] at h
    obtain ⟨rfl, -, rfl⟩ := h
    simp
  | failed e =>
    rw [hr] at h
    simp [Outcome.err] at h

theorem clientPatch_failed (m : ResourceManager σ) (w w1 : World σ) (object result : Unstructured)
    (patch : PatchSpec) (opts : List PatchOption) (err : ClientError)
    (h : clientPatch m w object patch opts = (result, some err, w1)) :
    result = object ∧
      w1.calls = w.calls ++ [Call.Patch object patch opts (Outcome.failed err)] := by
  rw [clientPatch_eq] at h
  cases hr : (m.client.Patch w.st object patch opts).1 with
  | ok p =>
    rw [hr] at h
    simp [Outcome.err] at h
  | failed e =>
    rw [hr] at h
    simp only [Prod.mk.injEq, Outcome.err, Option.some.injEq] at h
    obtain ⟨rfl, rfl, rfl⟩ := h
    simp

theorem clientGet_eq (m : ResourceManager σ) (w : World σ) (key : ObjectKey)
    (object : Unstructured) :
    clientGet m w key object =
      ((match (m.client.Get w.st key object).1 with
        | .ok found => found
        | .failed _ => object),
       (m.client.Get w.st key object).1,
       { st := (m.client.Get w.st key object).2,
         calls := w.calls ++ [Call.Get key object (m.client.Get w.st key object).1] }) := by
  unfold clientGet
  cases h : (m.client.Get w.st key object).1 <;> simp [h]

theorem clientGet_calls (m : ResourceManager σ) (w w1 : World σ) (key : ObjectKey)
    (object existingObject : Unstructured) (got : Outcome)
    (h : clientGet m w key object = (existingObject, got, w1)) :
    w1.calls = w.calls ++ [Call.Get key object got] := by
  rw [clientGet_eq] at h
  simp only [Prod.mk.injEq] at h
  obtain ⟨-, rfl, rfl⟩ := h
  rfl

theorem clientGet_failed (m : ResourceManager σ) (w w1 : World σ) (key : ObjectKey)
    (object existingObject : Unstructured) (err : ClientError)
    (h : clientGet m w key object = (existingObject, Outcome.failed err, w1)) :
    existingObject = object := by
  rw [clientGet_eq] at h
  simp only [Prod.mk.injEq] at h
  obtain ⟨h1, h2, -⟩ := h
  rw [h2] at h1
  exact h1.symm

theorem clientDelete_calls (m : ResourceManager σ) (w w1 : World σ) (object : Unstructured)
    (res : Option ClientError) (h : clientDelete m w object = (res, w1)) :
    w1.calls = w.calls ++ [Call.Delete object res] := by
  unfold clientDelete at h
  simp only [Prod.mk.injEq] at h
  obtain ⟨rfl, rfl⟩ := h
  rfl

theorem AnyInMetadata_of_pair (object : Unstructured) (metadata : List (String × String))
    (h : ∃ kv ∈ metadata,
      object.Labels.lookup kv.1 = some kv.2 ∨ object.Annotations.lookup kv.1 = some kv.2) :
    AnyInMetadata object metadata = true := by
  obtain ⟨kv, hmem, hkv⟩ := h
  unfold AnyInMetadata
  rw [List.any_eq_true]
  refine ⟨kv, hmem, ?_⟩
  rcases hkv with h1 | h1 <;> simp [h1]

/-! ## Apply: the paths without a write -/

/-- C1. When `Apply` reaches the drift decision with `patched = false` and the
drift detector reports no drift between the existing object and the dry-run
result, it returns the entry of the object with action Unchanged and no error;
the calls issued are exactly the Get and the dry run, so no apply write (and
no sanitization patch or delete) reaches the client. -/
theorem Apply_unchanged_without_write (m : ResourceManager σ) (w w1 w2 w3 : World σ)
    (object existingObject dryRunObject : Unstructured) (opts : ApplyOptions) (fuel : Nat)
    (got : Outcome)
    (hget : clientGet m w (ObjectKeyFromObject object) (DeepCopy object)
      = (existingObject, got, w1))
    (hexcl : AnyInMetadata existingObject opts.Exclusions = false)
    (hdry : dryRunApply m w1 (DeepCopy object) = (dryRunObject, none, w2))
    (hclean : cleanupManagedFields m w2 (some existingObject) = (false, none, w3))
    (hdrift : m.hasDrifted existingObject dryRunObject = false) :
    Apply m (fuel + 1) w object opts
        = (some (.ok (changeSetEntry object UnchangedAction)), w3) ∧
      w3.calls = w.calls ++
        [Call.Get (ObjectKeyFromObject object) object got,
         Call.Patch object PatchSpec.Apply (dryRunOpts m) (Outcome.ok dryRunObject)] ∧
      ∀ c ∈ w3.calls.drop w.calls.length,
        c.isApplyWrite = false ∧ c.isSanitize = false ∧ c.isDelete = false := by
  have hcalls : w3.calls = w.calls ++
        [Call.Get (ObjectKeyFromObject object) object got,
         Call.Patch object PatchSpec.Apply (dryRunOpts m) (Outcome.ok dryRunObject)] := by
    have h3 : w3 = w2 := by
      have := cleanupManagedFields_not_changed m w2 (some existingObject) (by rw [hclean])
      rw [hclean] at this
      simpa using this
    have hg := clientGet_calls m w w1 _ _ _ _ hget
    have hd := (clientPatch_ok m w1 w2 _ _ _ _ hdry).2
    rw [h3, hd, hg]
    simp [DeepCopy]
  refine ⟨?_, hcalls, ?_⟩
  · simp [Apply, hget, hexcl, hdry, hclean, hdrift]
  · intro c hc
    rw [hcalls] at hc
    simp at hc
    rcases hc with rfl | rfl <;>
      simp [Call.isApplyWrite, Call.isSanitize, Call.isDelete, dryRunOpts]

/-- C1, on the in-memory store: a second apply of the stored config map. -/
theorem Apply_unchanged_without_write_witness :
    Apply storeManager 1 ⟨appStore, []⟩ appConfig DefaultApplyOptions
        = (some (.ok (changeSetEntry appConfig UnchangedAction)),
            ⟨appStore,
              [Call.Get (ObjectKeyFromObject appConfig) appConfig (Outcome.ok storedApp),
               Call.Patch appConfig PatchSpec.Apply (dryRunOpts storeManager)
                (Outcome.ok storedApp)]⟩) :=
  (Apply_unchanged_without_write storeManager ⟨appStore, []⟩ _ _ _ appConfig storedApp
    storedApp DefaultApplyOptions 0 (Outcome.ok storedApp)
    rfl (by decide) rfl rfl (by decide)).1

/-- C2. When the object found in the cluster matches at least one key/value
pair of `opts.Exclusions` in its labels or annotations, `Apply` returns the
entry of the object with action Unchanged and no error, and the only client
call is the initial Get: no dry run, sanitization patch, delete or write. -/
theorem Apply_excluded_only_get (m : ResourceManager σ) (w w1 : World σ)
    (object existingObject : Unstructured) (opts : ApplyOptions) (fuel : Nat)
    (hget : clientGet m w (ObjectKeyFromObject object) (DeepCopy object)
      = (existingObject, Outcome.ok existingObject, w1))
    (hexcl : ∃ kv ∈ opts.Exclusions,
      existingObject.Labels.lookup kv.1 = some kv.2 ∨
        existingObject.Annotations.lookup kv.1 = some kv.2) :
    Apply m (fuel + 1) w object opts
        = (some (.ok (changeSetEntry object UnchangedAction)), w1) ∧
      w1.calls = w.calls ++
        [Call.Get (ObjectKeyFromObject object) object (Outcome.ok existingObject)] := by
  have hany := AnyInMetadata_of_pair existingObject opts.Exclusions hexcl
  refine ⟨?_, ?_⟩
  · simp [Apply, hget, hany]
  · simpa [DeepCopy] using clientGet_calls m w w1 _ _ _ _ hget

/-- C2, on the in-memory store: the stored config map carries `team: a`. -/
theorem Apply_excluded_only_get_witness :
    Apply storeManager 1 ⟨kubectlStore, []⟩ appConfig teamExclusion
        = (some (.ok (changeSetEntry appConfig UnchangedAction)),
            ⟨kubectlStore,
              [Call.Get (ObjectKeyFromObject appConfig) appConfig (Outcome.ok kubectlApp)]⟩) :=
  (Apply_excluded_only_get storeManager ⟨kubectlStore, []⟩ _ appConfig kubectlApp
    teamExclusion 0 rfl ⟨("team", "a"), by decide, by decide⟩).1

/-! ## Apply: a failing dry run -/

/-- C8. When the dry run fails and either `Force` is off or the failure is not
an immutable-field conflict, `Apply` returns the validation error of the
object with the cause (no change-set entry), and the calls issued are exactly
the Get and the failed dry run: no delete, sanitization patch or apply write. -/
theorem Apply_dry_run_failure_is_validation_error (m : ResourceManager σ)
    (w w1 w2 : World σ) (object existingObject dryRunObject : Unstructured)
    (opts : ApplyOptions) (fuel : Nat) (got : Outcome) (err : ClientError)
    (hget : clientGet m w (ObjectKeyFromObject object) (DeepCopy object)
      = (existingObject, got, w1))
    (hexcl : AnyInMetadata existingObject opts.Exclusions = false)
    (hdry : dryRunApply m w1 (DeepCopy object) = (dryRunObject, some err, w2))
    (hforce : opts.Force = false ∨ IsImmutableError err = false) :
    Apply m (fuel + 1) w object opts = (some (.error (validationError object err)), w2) ∧
      w2.calls = w.calls ++
        [Call.Get (ObjectKeyFromObject object) object got,
         Call.Patch object PatchSpec.Apply (dryRunOpts m) (Outcome.failed err)] ∧
      ∀ c ∈ w2.calls.drop w.calls.length,
        c.isDelete = false ∧ c.isSanitize = false ∧ c.isApplyWrite = false := by
  obtain ⟨hobj, hd⟩ := clientPatch_failed m w1 w2 _ _ _ _ _ hdry
  have hcalls : w2.calls = w.calls ++
        [Call.Get (ObjectKeyFromObject object) object got,
         Call.Patch object PatchSpec.Apply (dryRunOpts m) (Outcome.failed err)] := by
    rw [hd, clientGet_calls m w w1 _ _ _ _ hget]
    simp [DeepCopy]
  have hcond : (opts.Force && IsImmutableError err) = false := by
    rcases hforce with h | h <;> simp [h]
  refine ⟨?_, hcalls, ?_⟩
  · simp only [DeepCopy] at hget hdry hobj
    subst hobj
    simp [Apply, DeepCopy, hget, hexcl, hdry, hcond]
  · intro c hc
    rw [hcalls] at hc
    simp at hc
    rcases hc with rfl | rfl <;>
      simp [Call.isApplyWrite, Call.isSanitize, Call.isDelete, dryRunOpts]

/-- C8, on the in-memory store: an immutable key changes and force is off. -/
theorem Apply_dry_run_failure_is_validation_error_witness :
    Apply storeManager 1 ⟨frozenStore, []⟩ appConfig DefaultApplyOptions
        = (some (.error (ApplyError.validation "ConfigMap/default/app"
            (ClientError.ImmutableFieldConflict "data.key"))),
            ⟨frozenStore,
              [Call.Get (ObjectKeyFromObject appConfig) appConfig
                (Outcome.ok { storedApp with Content := [("data.key", "old")] }),
               Call.Patch appConfig PatchSpec.Apply (dryRunOpts storeManager)
                (Outcome.failed (ClientError.ImmutableFieldConflict "data.key"))]⟩) :=
  (Apply_dry_run_failure_is_validation_error storeManager ⟨frozenStore, []⟩ _ _ appConfig
    { storedApp with Content := [("data.key", "old")] } appConfig DefaultApplyOptions 0
    (Outcome.ok { storedApp with Content := [("data.key", "old")] })
    (ClientError.ImmutableFieldConflict "data.key")
    rfl (by decide) rfl (Or.inl rfl)).1

/-- C9. With `Force` on and a dry run failing with an immutable-field conflict,
a failing delete is fatal: `Apply` returns the delete-failed error, which
wraps the delete error and names the object, returns no entry, and the delete
is the last client call (no retry, sanitization patch or apply write). -/
theorem Apply_failed_delete_is_fatal (m : ResourceManager σ)
    (w w1 w2 w3 : World σ) (object existingObject dryRunObject : Unstructured)
    (opts : ApplyOptions) (fuel : Nat) (got : Outcome) (err derr : ClientError)
    (hget : clientGet m w (ObjectKeyFromObject object) (DeepCopy object)
      = (existingObject, got, w1))
    (hexcl : AnyInMetadata existingObject opts.Exclusions = false)
    (hdry : dryRunApply m w1 (DeepCopy object) = (dryRunObject, some err, w2))
    (hforce : opts.Force = true)
    (himm : IsImmutableError err = true)
    (hdel : clientDelete m w2 existingObject = (some derr, w3)) :
    Apply m (fuel + 1) w object opts
        = (some (.error (ApplyError.deleteFailed (FmtUnstructured object) derr)), w3) ∧
      w3.calls = w.calls ++
        [Call.Get (ObjectKeyFromObject object) object got,
         Call.Patch object PatchSpec.Apply (dryRunOpts m) (Outcome.failed err),
         Call.Delete existingObject (some derr)] := by
  obtain ⟨hobj, hd⟩ := clientPatch_failed m w1 w2 _ _ _ _ _ hdry
  refine ⟨?_, ?_⟩
  · simp only [DeepCopy] at hget hdry hobj
    subst hobj
    simp [Apply, DeepCopy, hget, hexcl, hdry, hforce, himm, hdel]
  · rw [clientDelete_calls m w2 w3 _ _ hdel, hd, clientGet_calls m w w1 _ _ _ _ hget]
    simp [DeepCopy]

/-- C9, on the in-memory store set to refuse deletes. -/
theorem Apply_failed_delete_is_fatal_witness :
    Apply storeManager 1 ⟨{ frozenStore with refuseDelete := true }, []⟩ appConfig forceOptions
        = (some (.error (ApplyError.deleteFailed "ConfigMap/default/app"
            (ClientError.Other "delete refused"))),
            ⟨{ frozenStore with refuseDelete := true },
              [Call.Get (ObjectKeyFromObject appConfig) appConfig
                (Outcome.ok { storedApp with Content := [("data.key", "old")] }),
               Call.Patch appConfig PatchSpec.Apply (dryRunOpts storeManager)
                (Outcome.failed (ClientError.ImmutableFieldConflict "data.key")),
               Call.Delete { storedApp with Content := [("data.key", "old")] }
                (some (ClientError.Other "delete refused"))]⟩) :=
  (Apply_failed_delete_is_fatal storeManager ⟨{ frozenStore with refuseDelete := true }, []⟩
    _ _ _ appConfig { storedApp with Content := [("data.key", "old")] } appConfig
    forceOptions 0 (Outcome.ok { storedApp with Content := [("data.key", "old")] })
    (ClientError.ImmutableFieldConflict "data.key") (ClientError.Other "delete refused")
    rfl (by decide) rfl rfl rfl rfl).1

/-! ## The sanitizer -/

theorem patchRemoveAnnotations_single_eq_nil (object : Unstructured) (key : String) :
    patchRemoveAnnotations object [key] = [] ↔ (object.Annotations.lookup key).isSome = false := by
  unfold patchRemoveAnnotations
  cases h : (object.Annotations.lookup key).isSome <;> simp [List.filter, h]

theorem sanitizerPatches_eq_nil_iff (object : Unstructured) :
    sanitizerPatches object = [] ↔
      hasLastApplied object = false ∧
        ∀ e ∈ object.ManagedFields, sanitizableEntry e = false := by
  unfold sanitizerPatches hasLastApplied
  rw [List.append_eq_nil, List.append_eq_nil, patchRemoveAnnotations_single_eq_nil]
  unfold patchRemoveFieldsManagers sanitizableEntry
  simp only [List.map_eq_nil_iff, List.filter_eq_nil_iff]
  constructor
  · rintro ⟨h1, h2, h3⟩
    refine ⟨h1, ?_⟩
    intro e he
    have a := h2 e he
    have b := h3 e he
    simp at a b ⊢
    exact ⟨a, b⟩
  · rintro ⟨h1, h2⟩
    refine ⟨h1, ?_, ?_⟩
    · intro e he
      have a := h2 e he
      simp at a ⊢
      exact a.1
    · intro e he
      have a := h2 e he
      simp at a ⊢
      exact a.2

/-- C10. On a non-nil object, `cleanupManagedFields` returns `changed = false`
with no error and leaves the world (client state and call log) untouched
when the object has neither the last-applied-configuration annotation nor a
sanitizable field-manager entry, which is when the collected patch list is
empty; otherwise it returns `changed = true` with the error of the patch, and
the log grows by exactly one Patch call: a JSON patch of the collected
removals whose only option is the field owner of the engine. -/
theorem cleanupManagedFields_patches_once_or_never (m : ResourceManager σ) (w : World σ)
    (object : Unstructured) :
    ((hasLastApplied object = false ∧
        ∀ e ∈ object.ManagedFields, sanitizableEntry e = false) →
      sanitizerPatches object = [] ∧
        cleanupManagedFields m w (some object) = (false, none, w)) ∧
    (¬ (hasLastApplied object = false ∧
        ∀ e ∈ object.ManagedFields, sanitizableEntry e = false) →
      sanitizerPatches object ≠ [] ∧
        cleanupManagedFields m w (some object) =
          (true,
            (m.client.Patch w.st object (PatchSpec.RawJSONPatch (sanitizerPatches object))
              [PatchOption.FieldOwner m.owner.Field]).1.err,
            { st := (m.client.Patch w.st object
                (PatchSpec.RawJSONPatch (sanitizerPatches object))
                [PatchOption.FieldOwner m.owner.Field]).2,
              calls := w.calls ++
                [Call.Patch object (PatchSpec.RawJSONPatch (sanitizerPatches object))
                  [PatchOption.FieldOwner m.owner.Field]
                  (m.client.Patch w.st object
                    (PatchSpec.RawJSONPatch (sanitizerPatches object))
                    [PatchOption.FieldOwner m.owner.Field]).1] })) := by
  refine ⟨?_, ?_⟩
  · intro h
    have hnil := (sanitizerPatches_eq_nil_iff object).2 h
    exact ⟨hnil, by rw [cleanupManagedFields_some, if_pos hnil]⟩
  · intro h
    have hne : sanitizerPatches object ≠ [] := fun hnil =>
      h ((sanitizerPatches_eq_nil_iff object).1 hnil)
    refine ⟨hne, ?_⟩
    rw [cleanupManagedFields_some, if_neg hne, clientPatch_eq]

/-- C10, on the in-memory store: the config map created by kubectl is patched
once, under the owner of the engine, and the kubectl entry is gone. -/
theorem cleanupManagedFields_patches_once_or_never_witness :
    cleanupManagedFields storeManager ⟨kubectlStore, []⟩ (some kubectlApp) =
      (true, none,
        ⟨{ kubectlStore with
            objects := [{ kubectlApp with ResourceVersion := "2", ManagedFields := [] }]
            revision := 2 },
          [Call.Patch kubectlApp
            (PatchSpec.RawJSONPatch
              [jsonPatch.removeFieldsManager "kubectl" ManagedFieldsOperationUpdate])
            [PatchOption.FieldOwner "kustomize-controller"]
            (Outcome.ok { kubectlApp with ResourceVersion := "2", ManagedFields := [] })]⟩) :=
  ((cleanupManagedFields_patches_once_or_never storeManager ⟨kubectlStore, []⟩ kubectlApp).2
    (by decide)).2

/-! ## Apply: classification of the outcome -/

theorem cleanupManagedFields_calls (m : ResourceManager σ) (w w1 : World σ)
    (object : Unstructured) (patched : Bool) (err : Option ClientError)
    (h : cleanupManagedFields m w (some object) = (patched, err, w1)) :
    ∃ cs, w1.calls = w.calls ++ cs ∧ (∀ c ∈ cs, c.isSanitize = true) ∧
      (patched = false → cs = []) ∧ (patched = true → cs.length = 1) := by
  rw [cleanupManagedFields_some] at h
  split at h
  · simp only [Prod.mk.injEq] at h
    obtain ⟨rfl, -, rfl⟩ := h
    exact ⟨[], by simp, by simp, by simp, by simp⟩
  · rw [clientPatch_eq] at h
    simp only [Prod.mk.injEq] at h
    obtain ⟨rfl, -, rfl⟩ := h
    exact ⟨[_], rfl, by simp [Call.isSanitize], by simp, by simp⟩

theorem dryRunOpts_ne_applyOpts (m : ResourceManager σ) : dryRunOpts m ≠ applyOpts m := by
  intro h
  have := congrArg List.length h
  simp [dryRunOpts, applyOpts] at this

/-- C3. For every successful `Apply`, with `issued` the calls it made (forced
retries included): the action is Unchanged exactly when no apply write was
issued; and when an apply write was issued, exactly one dry run of the object
succeeded, and the action is Created exactly when the resource version that
dry run reported is empty, Configured exactly when it is not. The version the
dry run reports is the version of the object before the apply: a dry run
stores nothing, and it is the value line 99 reads. -/
theorem Apply_action_classification (m : ResourceManager σ) (fuel : Nat)
    (w w' : World σ) (object : Unstructured) (opts : ApplyOptions) (entry : ChangeSetEntry)
    (h : Apply m fuel w object opts = (some (.ok entry), w')) :
    ∃ issued, w'.calls = w.calls ++ issued ∧
      (entry.Action = UnchangedAction ↔ ∀ c ∈ issued, c.isApplyWrite = false) ∧
      ((∃ c ∈ issued, c.isApplyWrite = true) →
        ∃ dryRunObject,
          (∀ d, Call.Patch object PatchSpec.Apply (dryRunOpts m) (Outcome.ok d) ∈ issued ↔
            d = dryRunObject) ∧
          (entry.Action = CreatedAction ↔ dryRunObject.ResourceVersion = "") ∧
          (entry.Action = ConfiguredAction ↔ dryRunObject.ResourceVersion ≠ "")) := by
  induction fuel generalizing w with
  | zero => simp [Apply] at h
  | succ fuel ih =>
    rcases hg : clientGet m w (ObjectKeyFromObject object) object with ⟨e, got, w1⟩
    have hgc := clientGet_calls m w w1 _ _ _ _ hg
    simp only [Apply, DeepCopy, hg] at h
    by_cases hex : AnyInMetadata e opts.Exclusions = true
    · simp only [hex, if_true, Prod.mk.injEq, Option.some.injEq, Except.ok.injEq] at h
      obtain ⟨rfl, rfl⟩ := h
      refine ⟨_, hgc, ?_, ?_⟩
      · simp [changeSetEntry, Call.isApplyWrite]
      · simp [Call.isApplyWrite]
    · simp only [hex, if_false] at h
      rcases hd : dryRunApply m w1 object with ⟨d, derr, w2⟩
      rw [hd] at h
      cases derr with
      | some err =>
        obtain ⟨-, hdc⟩ := clientPatch_failed m w1 w2 _ _ _ _ _ hd
        simp only at h
        by_cases hf : (opts.Force && IsImmutableError err) = true
        · simp only [hf, if_true] at h
          rcases hdel : clientDelete m w2 e with ⟨r, w3⟩
          have hdelc := clientDelete_calls m w2 w3 _ _ hdel
          rw [hdel] at h
          cases r with
          | some derr => simp at h
          | none =>
            simp only at h
            obtain ⟨issued, hc, h1, h2⟩ := ih w3 h
            refine ⟨[Call.Get (ObjectKeyFromObject object) object got,
              Call.Patch object PatchSpec.Apply (dryRunOpts m) (Outcome.failed err),
              Call.Delete e none] ++ issued, ?_, ?_, ?_⟩
            · rw [hc, hdelc, hdc, hgc]; simp
            · rw [h1]
              simp [Call.isApplyWrite, dryRunOpts]
            · intro hw
              have hw2 : ∃ c ∈ issued, c.isApplyWrite = true := by
                obtain ⟨c, hcm, hcw⟩ := hw
                simp only [List.mem_append, List.mem_cons, List.mem_singleton] at hcm
                rcases hcm with (rfl | rfl | rfl | hcm) | hcm
                · simp [Call.isApplyWrite] at hcw
                · simp [Call.isApplyWrite, dryRunOpts] at hcw
                · simp [Call.isApplyWrite] at hcw
                · simp at hcm
                · exact ⟨c, hcm, hcw⟩
              obtain ⟨dro, hu, hcr, hcf⟩ := h2 hw2
              refine ⟨dro, ?_, hcr, hcf⟩
              intro d2
              rw [← hu d2]
              simp
        · simp [hf] at h
      | none =>
        obtain ⟨-, hdc⟩ := clientPatch_ok m w1 w2 _ _ _ _ hd
        simp only at h
        rcases hcl : cleanupManagedFields m w2 (some e) with ⟨patched, cerr, w3⟩
        obtain ⟨cs, hcc, hcs, hcn, -⟩ := cleanupManagedFields_calls m w2 w3 e patched cerr hcl
        rw [hcl] at h
        cases cerr with
        | some err => simp at h
        | none =>
          simp only at h
          by_cases hun : (!patched && !m.hasDrifted e d) = true
          · simp only [hun, if_true, Prod.mk.injEq, Option.some.injEq, Except.ok.injEq] at h
            obtain ⟨rfl, rfl⟩ := h
            have hp : patched = false := by
              cases patched <;> simp_all
            have hcs0 := hcn hp
            subst hcs0
            refine ⟨[Call.Get (ObjectKeyFromObject object) object got,
              Call.Patch object PatchSpec.Apply (dryRunOpts m) (Outcome.ok d)], ?_, ?_, ?_⟩
            · rw [hcc, hdc, hgc]; simp
            · simp [changeSetEntry, Call.isApplyWrite, dryRunOpts]
            · simp [Call.isApplyWrite, dryRunOpts]
          · simp only [hun, if_false] at h
            rcases ha : apply m w3 object with ⟨a, aerr, w4⟩
            rw [ha] at h
            cases aerr with
            | some err => simp at h
            | none =>
              obtain ⟨-, hac⟩ := clientPatch_ok m w3 w4 _ _ _ _ ha
              simp only at h
              have hmem : ∀ d2, Call.Patch object PatchSpec.Apply (dryRunOpts m) (Outcome.ok d2) ∈
                  [Call.Get (ObjectKeyFromObject object) object got,
                    Call.Patch object PatchSpec.Apply (dryRunOpts m) (Outcome.ok d)] ++ cs ++
                    [Call.Patch object PatchSpec.Apply (applyOpts m) (Outcome.ok a)] ↔ d2 = d := by
                intro d2
                constructor
                · intro hm
                  simp only [List.mem_append, List.mem_cons, List.mem_singleton,
                    List.not_mem_nil, or_false] at hm
                  rcases hm with ((hm | hm) | hm) | hm
                  · cases hm
                  · simpa using hm
                  · have := hcs _ hm
                    simp [Call.isSanitize] at this
                  · simp only [Call.Patch.injEq, true_and] at hm
                    exact absurd hm.1 (dryRunOpts_ne_applyOpts m)
                · rintro rfl
                  simp
              have hwrite : ¬ ∀ c ∈ [Call.Get (ObjectKeyFromObject object) object got,
                    Call.Patch object PatchSpec.Apply (dryRunOpts m) (Outcome.ok d)] ++ cs ++
                    [Call.Patch object PatchSpec.Apply (applyOpts m) (Outcome.ok a)],
                  c.isApplyWrite = false := by
                intro hall
                have := hall (Call.Patch object PatchSpec.Apply (applyOpts m) (Outcome.ok a))
                  (by simp)
                simp [Call.isApplyWrite, applyOpts] at this
              by_cases hrv : d.ResourceVersion = ""
              · simp only [hrv, beq_self_eq_true, if_true, Prod.mk.injEq, Option.some.injEq,
                  Except.ok.injEq] at h
                obtain ⟨rfl, rfl⟩ := h
                refine ⟨[Call.Get (ObjectKeyFromObject object) object got,
                    Call.Patch object PatchSpec.Apply (dryRunOpts m) (Outcome.ok d)] ++ cs ++
                    [Call.Patch object PatchSpec.Apply (applyOpts m) (Outcome.ok a)], ?_, ?_, ?_⟩
                · rw [hac, hcc, hdc, hgc]; simp
                · constructor
                  · intro hh; simp [changeSetEntry] at hh
                  · intro hh; exact absurd hh hwrite
                · intro _
                  exact ⟨d, hmem, by simp [changeSetEntry, hrv], by simp [changeSetEntry, hrv]⟩
              · have hrvb : (d.ResourceVersion == "") = false := by simpa using hrv
                simp only [hrvb, Bool.false_eq_true, if_false, Prod.mk.injEq, Option.some.injEq,
                  Except.ok.injEq] at h
                obtain ⟨rfl, rfl⟩ := h
                refine ⟨[Call.Get (ObjectKeyFromObject object) object got,
                    Call.Patch object PatchSpec.Apply (dryRunOpts m) (Outcome.ok d)] ++ cs ++
                    [Call.Patch object PatchSpec.Apply (applyOpts m) (Outcome.ok a)], ?_, ?_, ?_⟩
                · rw [hac, hcc, hdc, hgc]; simp
                · constructor
                  · intro hh; simp [changeSetEntry] at hh
                  · intro hh; exact absurd hh hwrite
                · intro _
                  exact ⟨d, hmem, by simp [changeSetEntry, hrv], by simp [changeSetEntry, hrv]⟩

/-- C3, on the in-memory store: the first apply of the config map writes it and
is classified Created, the dry run having reported no resource version. -/
theorem Apply_action_classification_witness :
    ∃ issued,
      (Apply storeManager 1 ⟨emptyStore, []⟩ appConfig DefaultApplyOptions).2.calls
          = [] ++ issued ∧
      (CreatedAction = UnchangedAction ↔ ∀ c ∈ issued, c.isApplyWrite = false) ∧
      ((∃ c ∈ issued, c.isApplyWrite = true) →
        ∃ dryRunObject,
          (∀ d, Call.Patch appConfig PatchSpec.Apply (dryRunOpts storeManager) (Outcome.ok d)
              ∈ issued ↔ d = dryRunObject) ∧
          (CreatedAction = CreatedAction ↔ dryRunObject.ResourceVersion = "") ∧
          (CreatedAction = ConfiguredAction ↔ dryRunObject.ResourceVersion ≠ "")) :=
  Apply_action_classification storeManager 1 ⟨emptyStore, []⟩ _ appConfig DefaultApplyOptions
    (changeSetEntry appConfig CreatedAction) rfl

/-! ## Apply: an object that does not exist yet -/

/-- C5 fails as stated, on the in-memory store holding the config map created
by kubectl. The stored object has resource version 1 and a kubectl update
entry, which the sanitizer removes, and differs from the desired state in
nothing else: the dry run succeeds, reports version 1, and the drift detector
reports no drift. Under options whose exclusion `team: a` matches the label
of the stored object, `Apply` returns Unchanged after the Get alone: neither
a sanitization patch nor an apply write is issued, and the store is as it
was. -/
theorem Apply_sanitizable_excluded_is_unchanged :
    (storeClient.Get kubectlStore (ObjectKeyFromObject appConfig) appConfig).1
        = Outcome.ok kubectlApp ∧
      kubectlApp.ResourceVersion = "1" ∧
      (∃ e ∈ kubectlApp.ManagedFields, sanitizableEntry e = true) ∧
      AnyInMetadata kubectlApp teamExclusion.Exclusions = true ∧
      (∃ d, (storeClient.Patch kubectlStore appConfig PatchSpec.Apply
          (dryRunOpts storeManager)).1 = Outcome.ok d ∧ d.ResourceVersion = "1" ∧
        storeManager.hasDrifted kubectlApp d = false) ∧
      Apply storeManager 1 ⟨kubectlStore, []⟩ appConfig teamExclusion
        = (some (.ok (changeSetEntry appConfig UnchangedAction)),
            ⟨kubectlStore,
              [Call.Get (ObjectKeyFromObject appConfig) appConfig (Outcome.ok kubectlApp)]⟩) := by
  refine ⟨by decide, rfl, ⟨_, List.mem_singleton.2 rfl, by decide⟩, by decide,
    ⟨_, rfl, by decide, by decide⟩, by decide⟩

/-- C5, amended. For an object found in the cluster and matched by no pair of
`opts.Exclusions`, whose dry run succeeds and reports a non-empty resource
version (the version before the apply, which line 99 reads), which has
something to sanitize, and for which the drift detector reports no drift:
when the sanitization patch and the write succeed, `Apply` issues the Get,
the dry run, exactly one sanitization patch and then the apply write, and
returns the entry of the applied object with action Configured. -/
theorem Apply_sanitized_is_configured (m : ResourceManager σ) (w w1 w2 w3 w4 : World σ)
    (object existingObject dryRunObject patchedObject appliedObject : Unstructured)
    (opts : ApplyOptions) (fuel : Nat)
    (hget : clientGet m w (ObjectKeyFromObject object) (DeepCopy object)
      = (existingObject, Outcome.ok existingObject, w1))
    (hexcl : AnyInMetadata existingObject opts.Exclusions = false)
    (hdry : dryRunApply m w1 (DeepCopy object) = (dryRunObject, none, w2))
    (hversion : dryRunObject.ResourceVersion ≠ "")
    (hlegacy : hasLastApplied existingObject = true ∨
      ∃ e ∈ existingObject.ManagedFields, sanitizableEntry e = true)
    (_hdrift : m.hasDrifted existingObject dryRunObject = false)
    (hpatch : clientPatch m w2 existingObject
        (PatchSpec.RawJSONPatch (sanitizerPatches existingObject))
        [PatchOption.FieldOwner m.owner.Field] = (patchedObject, none, w3))
    (happly : apply m w3 (DeepCopy object) = (appliedObject, none, w4)) :
    Apply m (fuel + 1) w object opts
        = (some (.ok (changeSetEntry appliedObject ConfiguredAction)), w4) ∧
      w4.calls = w.calls ++
        [Call.Get (ObjectKeyFromObject object) object (Outcome.ok existingObject),
         Call.Patch object PatchSpec.Apply (dryRunOpts m) (Outcome.ok dryRunObject),
         Call.Patch existingObject (PatchSpec.RawJSONPatch (sanitizerPatches existingObject))
          [PatchOption.FieldOwner m.owner.Field] (Outcome.ok patchedObject),
         Call.Patch object PatchSpec.Apply (applyOpts m) (Outcome.ok appliedObject)] := by
  have hne : sanitizerPatches existingObject ≠ [] := by
    intro hnil
    obtain ⟨h1, h2⟩ := (sanitizerPatches_eq_nil_iff existingObject).1 hnil
    rcases hlegacy with h | ⟨e, he, h⟩
    · rw [h1] at h; cases h
    · rw [h2 e he] at h; cases h
  have hclean : cleanupManagedFields m w2 (some existingObject) = (true, none, w3) := by
    rw [cleanupManagedFields_some, if_neg hne, hpatch]
  have hrv : (dryRunObject.ResourceVersion == "") = false := by
    simpa using hversion
  refine ⟨?_, ?_⟩
  · simp only [DeepCopy] at hget hdry happly
    simp [Apply, DeepCopy, hget, hexcl, hdry, hclean, happly, hrv]
  · rw [(clientPatch_ok m w3 w4 _ _ _ _ happly).2, (clientPatch_ok m w2 w3 _ _ _ _ hpatch).2,
      (clientPatch_ok m w1 w2 _ _ _ _ hdry).2, clientGet_calls m w w1 _ _ _ _ hget]
    simp [DeepCopy]

/-- C5 amended, on the in-memory store: the config map created by kubectl,
under the default options. -/
theorem Apply_sanitized_is_configured_witness :
    (Apply storeManager 1 ⟨kubectlStore, []⟩ appConfig DefaultApplyOptions).1
      = some (.ok (changeSetEntry appConfig ConfiguredAction)) :=
  congrArg Prod.fst
    (Apply_sanitized_is_configured storeManager ⟨kubectlStore, []⟩ _ _ _ _ appConfig kubectlApp
      _ _ _ DefaultApplyOptions 0 rfl (by decide) rfl (by decide)
      (Or.inr ⟨_, List.mem_singleton.2 rfl, by decide⟩) (by decide) rfl rfl).1

/-! ## Apply: forced recreation -/

/-- C7 fails as stated, on the in-memory store in which `data.key` is
immutable, with `Force` on. In both scenarios the first dry run fails with an
immutable-field conflict, the Delete succeeds and, once the object is gone,
the dry run succeeds. First, for the second config map with the label
`team: a` under options excluding that label: the stored object has no label
and is not skipped, but after the delete the existing object is the copy of
the desired one, which the exclusion matches, and `Apply` returns Unchanged;
no apply write is issued and the object is left deleted. Second, for the
exported config map, which carries the last-applied-configuration
annotation: after the delete the sanitization patch is sent for an object
that is not stored, and `Apply` returns the cleanup error; no apply write is
issued and the object is left deleted. -/
theorem Apply_force_recreate_not_always_created :
    ((∃ k, (storeClient.Patch mixedStore labelledOther PatchSpec.Apply
          (dryRunOpts storeManager)).1 = Outcome.failed (ClientError.ImmutableFieldConflict k)) ∧
      storeClient.Delete mixedStore storedOther = (none, mixedStore.remove storedOther) ∧
      (∃ d, (storeClient.Patch (mixedStore.remove storedOther) labelledOther PatchSpec.Apply
          (dryRunOpts storeManager)).1 = Outcome.ok d) ∧
      (Apply storeManager 2 ⟨mixedStore, []⟩ labelledOther forceTeamExclusion).1
        = some (.ok (changeSetEntry labelledOther UnchangedAction)) ∧
      ((Apply storeManager 2 ⟨mixedStore, []⟩ labelledOther forceTeamExclusion).2.calls.map
        fun c => (c.isGet, c.isDryRun, c.isDelete, c.isApplyWrite))
        = [(true, false, false, false), (false, true, false, false),
           (false, false, true, false), (true, false, false, false)] ∧
      (Apply storeManager 2 ⟨mixedStore, []⟩ labelledOther forceTeamExclusion).2.st.find
        labelledOther = none) ∧
    ((∃ k, (storeClient.Patch frozenStore exportedApp PatchSpec.Apply
          (dryRunOpts storeManager)).1 = Outcome.failed (ClientError.ImmutableFieldConflict k)) ∧
      (storeClient.Delete frozenStore { storedApp with Content := [("data.key", "old")] }).1
        = none ∧
      (∃ d, (storeClient.Patch (frozenStore.remove exportedApp) exportedApp PatchSpec.Apply
          (dryRunOpts storeManager)).1 = Outcome.ok d) ∧
      (Apply storeManager 2 ⟨frozenStore, []⟩ exportedApp forceOptions).1
        = some (.error (ApplyError.cleanupFailed "ConfigMap/default/app"
            ClientError.NotFound)) ∧
      ((Apply storeManager 2 ⟨frozenStore, []⟩ exportedApp forceOptions).2.calls.map
        fun c => (c.isGet, c.isDryRun, c.isDelete, c.isSanitize, c.isApplyWrite))
        = [(true, false, false, false, false), (false, true, false, false, false),
           (false, false, true, false, false), (true, false, false, false, false),
           (false, true, false, false, false), (false, false, false, true, false)] ∧
      (Apply storeManager 2 ⟨frozenStore, []⟩ exportedApp forceOptions).2.st.find
        exportedApp = none) := by
  refine ⟨⟨⟨_, rfl⟩, by decide, ⟨_, rfl⟩, by decide, by decide, by decide⟩,
    ⟨⟨_, rfl⟩, by decide, ⟨_, rfl⟩, by decide, by decide, by decide⟩⟩

/-- C7, amended. With `Force` on, when the first dry run fails with an
immutable-field conflict and the delete of the existing object succeeds,
`Apply` starts again from the Get. When the object is then gone (the Get
fails, so the existing object is the copy of the desired one), the own
labels and annotations of the desired object match no pair of
`opts.Exclusions`, the dry run succeeds reporting no resource version, the
sanitization of that copy reports no error, the drift decision calls for a
write (the sanitizer patched, or the drift detector reports drift) and the
write succeeds, `Apply` returns the entry of the applied object with action
Created. The calls issued are, in order: Get, failed dry run, Delete, Get,
dry run, the sanitization patch if there is one, apply write; among them
exactly one Delete and exactly one apply write. -/
theorem Apply_force_recreate (m : ResourceManager σ) (w w1 w2 w3 w4 w5 w6 w7 : World σ)
    (object existingObject failedObject dryRunObject appliedObject : Unstructured)
    (opts : ApplyOptions) (fuel : Nat) (got : Outcome) (err gerr : ClientError)
    (patched : Bool)
    (hforce : opts.Force = true)
    (hget : clientGet m w (ObjectKeyFromObject object) (DeepCopy object)
      = (existingObject, got, w1))
    (hexcl : AnyInMetadata existingObject opts.Exclusions = false)
    (hdry : dryRunApply m w1 (DeepCopy object) = (failedObject, some err, w2))
    (himm : IsImmutableError err = true)
    (hdel : clientDelete m w2 existingObject = (none, w3))
    (hgone : clientGet m w3 (ObjectKeyFromObject object) (DeepCopy object)
      = (object, Outcome.failed gerr, w4))
    (hexcl2 : AnyInMetadata object opts.Exclusions = false)
    (hdry2 : dryRunApply m w4 (DeepCopy object) = (dryRunObject, none, w5))
    (hrv : dryRunObject.ResourceVersion = "")
    (hclean : cleanupManagedFields m w5 (some object) = (patched, none, w6))
    (hdrift : patched = true ∨ m.hasDrifted object dryRunObject = true)
    (happly : apply m w6 (DeepCopy object) = (appliedObject, none, w7)) :
    Apply m (fuel + 2) w object opts
        = (some (.ok (changeSetEntry appliedObject CreatedAction)), w7) ∧
      ∃ sanitizing, (∀ c ∈ sanitizing, c.isSanitize = true) ∧
        w7.calls = w.calls ++
          ([Call.Get (ObjectKeyFromObject object) object got,
            Call.Patch object PatchSpec.Apply (dryRunOpts m) (Outcome.failed err),
            Call.Delete existingObject none,
            Call.Get (ObjectKeyFromObject object) object (Outcome.failed gerr),
            Call.Patch object PatchSpec.Apply (dryRunOpts m) (Outcome.ok dryRunObject)] ++
            sanitizing ++
            [Call.Patch object PatchSpec.Apply (applyOpts m) (Outcome.ok appliedObject)]) ∧
        ((w7.calls.drop w.calls.length).filter Call.isDelete).length = 1 ∧
        ((w7.calls.drop w.calls.length).filter Call.isApplyWrite).length = 1 := by
  have hcond : (!patched && !m.hasDrifted object dryRunObject) = false := by
    rcases hdrift with h | h <;> simp [h]
  have hretry : Apply m (fuel + 1) w3 object opts
      = (some (.ok (changeSetEntry appliedObject CreatedAction)), w7) := by
    simp only [DeepCopy] at hgone hdry2 happly
    simp [Apply, DeepCopy, hgone, hexcl2, hdry2, hclean, hcond, happly, hrv]
  obtain ⟨cs, hcc, hcs, -, -⟩ := cleanupManagedFields_calls m w5 w6 object patched none hclean
  have hcalls : w7.calls = w.calls ++
        ([Call.Get (ObjectKeyFromObject object) object got,
          Call.Patch object PatchSpec.Apply (dryRunOpts m) (Outcome.failed err),
          Call.Delete existingObject none,
          Call.Get (ObjectKeyFromObject object) object (Outcome.failed gerr),
          Call.Patch object PatchSpec.Apply (dryRunOpts m) (Outcome.ok dryRunObject)] ++
          cs ++
          [Call.Patch object PatchSpec.Apply (applyOpts m) (Outcome.ok appliedObject)]) := by
    rw [(clientPatch_ok m w6 w7 _ _ _ _ happly).2, hcc,
      (clientPatch_ok m w4 w5 _ _ _ _ hdry2).2,
      clientGet_calls m w3 w4 _ _ _ _ hgone, clientDelete_calls m w2 w3 _ _ hdel,
      (clientPatch_failed m w1 w2 _ _ _ _ _ hdry).2, clientGet_calls m w w1 _ _ _ _ hget]
    simp [DeepCopy]
  have hnodel : cs.filter Call.isDelete = [] := by
    rw [List.filter_eq_nil_iff]
    intro c hc
    have := hcs c hc
    cases c <;> simp_all [Call.isSanitize, Call.isDelete]
  have hnowrite : cs.filter Call.isApplyWrite = [] := by
    rw [List.filter_eq_nil_iff]
    intro c hc
    have := hcs c hc
    cases c with
    | Patch o p os r => cases p <;> simp_all [Call.isSanitize, Call.isApplyWrite]
    | _ => simp_all [Call.isSanitize, Call.isApplyWrite]
  refine ⟨?_, cs, hcs, hcalls, ?_, ?_⟩
  · rw [← hretry]
    simp only [DeepCopy] at hget hdry
    rw [Apply]
    simp [DeepCopy, hget, hexcl, hdry, hforce, himm, hdel]
  · rw [hcalls]
    simp [List.filter_cons, hnodel, Call.isDelete]
  · rw [hcalls]
    simp [List.filter_cons, hnowrite, Call.isApplyWrite, dryRunOpts, applyOpts]

/-- C7 amended, on the in-memory store in which `data.key` is immutable: the
config map is deleted and created again. -/
theorem Apply_force_recreate_witness :
    (Apply storeManager 2 ⟨frozenStore, []⟩ appConfig forceOptions).1
      = some (.ok (changeSetEntry appConfig CreatedAction)) :=
  congrArg Prod.fst
    (Apply_force_recreate storeManager ⟨frozenStore, []⟩ _ _ _ _ _ _ _ appConfig
      { storedApp with Content := [("data.key", "old")] } _ _ _ forceOptions 0
      (Outcome.ok { storedApp with Content := [("data.key", "old")] })
      (ClientError.ImmutableFieldConflict "data.key") ClientError.NotFound false
      rfl rfl (by decide) rfl rfl rfl rfl (by decide) rfl (by decide) rfl
      (Or.inr (by decide)) rfl).1

/-! ## Apply: idempotence -/

theorem foldl_applyJsonPatch_fields (patches : List jsonPatch) (object : Unstructured) :
    (patches.foldl applyJsonPatch object).ManagedFields =
      object.ManagedFields.filter fun e =>
        !decide (jsonPatch.removeFieldsManager e.Manager e.Operation ∈ patches) := by
  induction patches generalizing object with
  | nil => simp
  | cons p rest ih =>
    rw [List.foldl_cons, ih]
    cases p with
    | removeAnnotationKey key =>
      simp [applyJsonPatch]
    | removeFieldsManager manager operation =>
      simp only [applyJsonPatch, List.filter_filter]
      apply List.filter_congr
      intro e _
      rw [Bool.eq_iff_iff]
      simp only [Bool.and_eq_true, Bool.not_eq_true', decide_eq_false_iff_not, List.mem_cons,
        jsonPatch.removeFieldsManager.injEq, Bool.and_eq_false_iff, beq_eq_false_iff_ne, ne_eq,
        not_or, not_and]
      tauto

theorem mem_sanitizerPatches_iff (object : Unstructured) (manager : String)
    (operation : ManagedFieldsOperationType) :
    jsonPatch.removeFieldsManager manager operation ∈ sanitizerPatches object ↔
      ∃ e ∈ object.ManagedFields, e.Manager = manager ∧ e.Operation = operation ∧
        sanitizableEntry e = true := by
  unfold sanitizerPatches patchRemoveAnnotations patchRemoveFieldsManagers sanitizableEntry
  simp only [List.mem_append, List.mem_map, List.mem_filter]
  constructor
  · rintro (⟨k, -, hk⟩ | ⟨e, ⟨he, hs⟩, heq⟩ | ⟨e, ⟨he, hs⟩, heq⟩)
    · cases hk
    · simp only [jsonPatch.removeFieldsManager.injEq] at heq
      refine ⟨e, he, heq.1, heq.2, ?_⟩
      simp only [Bool.and_eq_true, decide_eq_true_eq] at hs
      simp [hs.1, hs.2]
    · simp only [jsonPatch.removeFieldsManager.injEq] at heq
      refine ⟨e, he, heq.1, heq.2, ?_⟩
      simp only [Bool.and_eq_true, decide_eq_true_eq, List.mem_singleton] at hs
      simp [hs.1, hs.2]
  · rintro ⟨e, he, rfl, rfl, hs⟩
    simp only [Bool.or_eq_true, Bool.and_eq_true, decide_eq_true_eq] at hs
    rcases hs with hs | hs
    · exact Or.inr (Or.inl ⟨e, ⟨he, by simp [hs.1, hs.2]⟩, rfl⟩)
    · exact Or.inr (Or.inr ⟨e, ⟨he, by simp [hs.1, hs.2]⟩, rfl⟩)

theorem sanitized_fields (object : Unstructured) :
    (sanitized object).ManagedFields =
      object.ManagedFields.filter fun e => !sanitizableEntry e := by
  unfold sanitized
  rw [foldl_applyJsonPatch_fields]
  apply List.filter_congr
  intro e he
  by_cases hs : sanitizableEntry e = true
  · have : jsonPatch.removeFieldsManager e.Manager e.Operation ∈ sanitizerPatches object :=
      (mem_sanitizerPatches_iff object _ _).2 ⟨e, he, rfl, rfl, hs⟩
    simp [this, hs]
  · have hn : jsonPatch.removeFieldsManager e.Manager e.Operation ∉ sanitizerPatches object := by
      intro hmem
      obtain ⟨e2, -, h1, h2, h3⟩ := (mem_sanitizerPatches_iff object _ _).1 hmem
      apply hs
      unfold sanitizableEntry at h3 ⊢
      rw [← h1, ← h2]
      exact h3
    simp [hn, hs]

/-- C11 fails as stated, on the in-memory store holding the config map with
three field managers. The sanitization succeeds and removes the update entry
of kubectl, but the stored object keeps the apply entries of
before-first-apply and of kustomize-controller, two names of the legacy
list. -/
theorem cleanupManagedFields_keeps_apply_entries :
    (cleanupManagedFields storeManager ⟨ownedStore, []⟩ (some ownedApp)).1 = true ∧
      (cleanupManagedFields storeManager ⟨ownedStore, []⟩ (some ownedApp)).2.1 = none ∧
      ((cleanupManagedFields storeManager ⟨ownedStore, []⟩ (some ownedApp)).2.2.st.objects.map
          fun o => o.ManagedFields.map fun e => (e.Manager, e.Operation))
        = [[("before-first-apply", ManagedFieldsOperationApply),
            ("kustomize-controller", ManagedFieldsOperationApply)]] ∧
      "before-first-apply" ∈ legacyManagers ∧ "kustomize-controller" ∈ legacyManagers := by
  refine ⟨by decide, by decide, by decide, by decide, by decide⟩

/-- C11, amended. After a successful sanitization of an object by
`cleanupManagedFields`, the one patch sent carries the removals collected for
the object, and once they are applied the field-manager list holds no entry
that is an update by kubectl, before-first-apply or kustomize-controller, and
no entry that is an apply by kubectl; every other entry, the apply entries of
before-first-apply and kustomize-controller among them, is kept. -/
theorem cleanupManagedFields_removes_sanitizable (m : ResourceManager σ) (w w1 : World σ)
    (object : Unstructured)
    (h : cleanupManagedFields m w (some object) = (true, none, w1)) :
    (∃ patched, w1.calls = w.calls ++
        [Call.Patch object (PatchSpec.RawJSONPatch (sanitizerPatches object))
          [PatchOption.FieldOwner m.owner.Field] (Outcome.ok patched)]) ∧
      (∀ e ∈ (sanitized object).ManagedFields,
        ¬ (e.Manager ∈ legacyManagers ∧ e.Operation = ManagedFieldsOperationUpdate) ∧
        ¬ (e.Manager = kubectlManager ∧ e.Operation = ManagedFieldsOperationApply)) ∧
      (sanitized object).ManagedFields =
        object.ManagedFields.filter fun e => !sanitizableEntry e := by
  refine ⟨?_, ?_, sanitized_fields object⟩
  · rw [cleanupManagedFields_some] at h
    split at h
    · simp at h
    · simp only [Prod.mk.injEq, true_and] at h
      rcases hp : clientPatch m w object (PatchSpec.RawJSONPatch (sanitizerPatches object))
        [PatchOption.FieldOwner m.owner.Field] with ⟨p, e, w2⟩
      rw [hp] at h
      simp only [Prod.mk.injEq] at h
      obtain ⟨rfl, rfl⟩ := h
      exact ⟨p, (clientPatch_ok m w _ _ _ _ _ hp).2⟩
  · intro e he
    rw [sanitized_fields, List.mem_filter] at he
    have hs : sanitizableEntry e = false := by simpa using he.2
    unfold sanitizableEntry at hs
    simp only [Bool.or_eq_false_iff, Bool.and_eq_false_iff, decide_eq_false_iff_not] at hs
    refine ⟨?_, ?_⟩
    · rintro ⟨h1, h2⟩
      rcases hs.1 with h | h
      · exact h h1
      · exact h h2
    · rintro ⟨h1, h2⟩
      rcases hs.2 with h | h
      · exact h h1
      · exact h h2

/-- C11 amended, on the in-memory store: the config map created by kubectl. -/
theorem cleanupManagedFields_removes_sanitizable_witness :
    (sanitized kubectlApp).ManagedFields =
      kubectlApp.ManagedFields.filter fun e => !sanitizableEntry e :=
  (cleanupManagedFields_removes_sanitizable storeManager ⟨kubectlStore, []⟩ _ kubectlApp
    rfl).2.2

/-! ## The rounds of the diff pass and the write pass -/

theorem isApplyWrite_of_isDiffCall (c : Call) (h : c.isDiffCall = true) :
    c.isApplyWrite = false := by
  cases c with
  | Get k o r => rfl
  | Delete o r => rfl
  | Patch o p opts r =>
    cases p with
    | RawJSONPatch raw => rfl
    | Apply =>
      simp only [Call.isDiffCall, Call.isGet, Call.isDryRun, Call.isSanitize, Call.isDelete,
        Bool.or_false, Bool.false_or, decide_eq_true_eq] at h
      simp [Call.isApplyWrite, h]

theorem clientGet_identity (m : ResourceManager σ) (w w1 : World σ)
    (object existingObject : Unstructured) (got : Outcome)
    (hk : KeepsIdentity m.client)
    (h : clientGet m w (ObjectKeyFromObject object) object = (existingObject, got, w1)) :
    FmtUnstructured existingObject = FmtUnstructured object := by
  rw [clientGet_eq] at h
  simp only [Prod.mk.injEq] at h
  obtain ⟨h1, -, -⟩ := h
  cases hr : (m.client.Get w.st (ObjectKeyFromObject object) object).1 with
  | ok r =>
    rw [hr] at h1
    simp only at h1
    rw [← h1]
    exact hk.1 _ _ _ hr
  | failed e =>
    rw [hr] at h1
    simp only at h1
    rw [← h1]

theorem clientPatch_identity (m : ResourceManager σ) (w w1 : World σ)
    (object result : Unstructured) (patch : PatchSpec) (opts : List PatchOption)
    (err : Option ClientError) (hk : KeepsIdentity m.client)
    (h : clientPatch m w object patch opts = (result, err, w1)) :
    FmtUnstructured result = FmtUnstructured object := by
  rw [clientPatch_eq] at h
  simp only [Prod.mk.injEq] at h
  obtain ⟨h1, -, -⟩ := h
  cases hr : (m.client.Patch w.st object patch opts).1 with
  | ok r =>
    rw [hr] at h1
    simp only at h1
    rw [← h1]
    exact hk.2 _ _ _ _ _ hr
  | failed e =>
    rw [hr] at h1
    simp only at h1
    rw [← h1]

theorem sortObjects_perm (b : BatchEnv σ) (objects : List Unstructured) :
    (sortObjects b objects).Perm objects :=
  List.perm_insertionSort _ objects

theorem sortObjects_idem (b : BatchEnv σ) (objects : List Unstructured) :
    sortObjects b (sortObjects b objects) = sortObjects b objects := by
  unfold sortObjects
  haveI : IsTotal Unstructured (fun x y => b.rank x ≤ b.rank y) :=
    ⟨fun x y => Nat.le_total _ _⟩
  haveI : IsTrans Unstructured (fun x y => b.rank x ≤ b.rank y) :=
    ⟨fun _ _ _ h1 h2 => Nat.le_trans h1 h2⟩
  exact List.Sorted.insertionSort_eq (List.sorted_insertionSort _ objects)

theorem cleanupManagedFields_diffCalls (m : ResourceManager σ) (w w1 : World σ)
    (object : Unstructured) (patched : Bool) (err : Option ClientError)
    (h : cleanupManagedFields m w (some object) = (patched, err, w1)) :
    ∃ cs, w1.calls = w.calls ++ cs ∧
      ∀ c ∈ cs, c.isDiffCall = true ∧ c.isGet = false ∧ c.isDryRun = false ∧
        c.object = object := by
  rw [cleanupManagedFields_some] at h
  split at h
  · simp only [Prod.mk.injEq] at h
    obtain ⟨-, -, rfl⟩ := h
    exact ⟨[], by simp, by simp⟩
  · rw [clientPatch_eq] at h
    simp only [Prod.mk.injEq] at h
    obtain ⟨-, -, rfl⟩ := h
    exact ⟨[_], rfl, by simp [Call.isDiffCall, Call.isSanitize, Call.isGet, Call.isDryRun,
      Call.object]⟩

theorem diffStep_spec (m : ResourceManager σ) (opts : ApplyOptions) (object : Unstructured)
    (changeSet : ChangeSet) (toApply : List Unstructured) (w : World σ) :
    ∃ issued, (diffStep m opts object changeSet toApply w).2.calls = w.calls ++ issued ∧
      (∀ c ∈ issued, c.isDiffCall = true ∧
        ((c.isGet = true ∨ c.isDryRun = true) → c.object = object) ∧
        (KeepsIdentity m.client → FmtUnstructured c.object = FmtUnstructured object)) ∧
      ∀ cs ta, (diffStep m opts object changeSet toApply w).1 = DiffOutcome.done cs ta →
        ∃ x action, cs = changeSet.Add (changeSetEntry x action) ∧
          (ta = toApply ∨ ta = toApply ++ [object]) ∧
          (KeepsIdentity m.client → FmtUnstructured x = FmtUnstructured object) := by
  rcases hg : clientGet m w (ObjectKeyFromObject object) object with ⟨e, got, w1⟩
  have hgc := clientGet_calls m w w1 _ _ _ _ hg
  have hgi := fun hk => clientGet_identity m w w1 _ _ _ hk hg
  have hGet : ∀ c, c = Call.Get (ObjectKeyFromObject object) object got →
      c.isDiffCall = true ∧ ((c.isGet = true ∨ c.isDryRun = true) → c.object = object) ∧
        (KeepsIdentity m.client → FmtUnstructured c.object = FmtUnstructured object) := by
    rintro c rfl
    simp [Call.isDiffCall, Call.isGet, Call.object]
  have hDry : ∀ c r, c = Call.Patch object PatchSpec.Apply (dryRunOpts m) r →
      c.isDiffCall = true ∧ ((c.isGet = true ∨ c.isDryRun = true) → c.object = object) ∧
        (KeepsIdentity m.client → FmtUnstructured c.object = FmtUnstructured object) := by
    rintro c r rfl
    simp [Call.isDiffCall, Call.isDryRun, dryRunOpts, Call.object]
  simp only [diffStep, DeepCopy, hg]
  by_cases hex : AnyInMetadata e opts.Exclusions = true
  · simp only [hex, if_true]
    refine ⟨[Call.Get (ObjectKeyFromObject object) object got], hgc, ?_, ?_⟩
    · intro c hc
      exact hGet c (List.mem_singleton.1 hc)
    · intro cs ta h
      simp only [DiffOutcome.done.injEq] at h
      exact ⟨e, UnchangedAction, h.1.symm, Or.inl h.2.symm, hgi⟩
  · simp only [hex, Bool.false_eq_true, if_false]
    rcases hd : dryRunApply m w1 object with ⟨d, derr, w2⟩
    have hdi := fun hk => clientPatch_identity m w1 w2 _ _ _ _ _ hk hd
    cases derr with
    | some err =>
      obtain ⟨-, hdc⟩ := clientPatch_failed m w1 w2 _ _ _ _ _ hd
      simp only
      by_cases hf : (opts.Force && IsImmutableError err) = true
      · simp only [hf, if_true]
        rcases hdel : clientDelete m w2 e with ⟨r, w3⟩
        have hdelc := clientDelete_calls m w2 w3 _ _ hdel
        refine ⟨[Call.Get (ObjectKeyFromObject object) object got,
          Call.Patch object PatchSpec.Apply (dryRunOpts m) (Outcome.failed err),
          Call.Delete e r], ?_, ?_, ?_⟩
        · cases r <;> simp [hdelc, hdc, hgc]
        · intro c hc
          simp only [List.mem_cons, List.mem_singleton, List.not_mem_nil, or_false] at hc
          rcases hc with hc | hc | hc
          · exact hGet c hc
          · exact hDry c _ hc
          · subst hc
            exact ⟨by simp [Call.isDiffCall, Call.isDelete],
              by simp [Call.isGet, Call.isDryRun], fun hk => hgi hk⟩
        · intro cs ta h
          cases r <;> simp at h
      · simp only [hf, Bool.false_eq_true, if_false]
        refine ⟨[Call.Get (ObjectKeyFromObject object) object got,
          Call.Patch object PatchSpec.Apply (dryRunOpts m) (Outcome.failed err)], ?_, ?_, ?_⟩
        · simp [hdc, hgc]
        · intro c hc
          simp only [List.mem_cons, List.mem_singleton, List.not_mem_nil, or_false] at hc
          rcases hc with hc | hc
          · exact hGet c hc
          · exact hDry c _ hc
        · intro cs ta h
          simp at h
    | none =>
      obtain ⟨-, hdc⟩ := clientPatch_ok m w1 w2 _ _ _ _ hd
      simp only
      rcases hcl : cleanupManagedFields m w2 (some e) with ⟨patched, cerr, w3⟩
      obtain ⟨cs0, hcc, hcs⟩ := cleanupManagedFields_diffCalls m w2 w3 e patched cerr hcl
      refine ⟨[Call.Get (ObjectKeyFromObject object) object got,
          Call.Patch object PatchSpec.Apply (dryRunOpts m) (Outcome.ok d)] ++ cs0, ?_, ?_, ?_⟩
      · cases cerr with
        | some err => simp [hcc, hdc, hgc]
        | none =>
          simp only
          split
          · split <;> simp [hcc, hdc, hgc]
          · simp [hcc, hdc, hgc]
      · intro c hc
        simp only [List.mem_append, List.mem_cons, List.mem_singleton, List.not_mem_nil,
          or_false] at hc
        rcases hc with (hc | hc) | hc
        · exact hGet c hc
        · exact hDry c _ hc
        · obtain ⟨h1, h2, h3, h4⟩ := hcs c hc
          refine ⟨h1, ?_, ?_⟩
          · rintro (h | h)
            · rw [h2] at h; cases h
            · rw [h3] at h; cases h
          · intro hk
            rw [h4]
            exact hgi hk
      · intro cs ta h
        cases cerr with
        | some err => simp at h
        | none =>
          simp only at h
          split at h
          · split at h
            · simp only [DiffOutcome.done.injEq] at h
              exact ⟨d, CreatedAction, h.1.symm, Or.inr h.2.symm, hdi⟩
            · simp only [DiffOutcome.done.injEq] at h
              exact ⟨d, ConfiguredAction, h.1.symm, Or.inr h.2.symm, hdi⟩
          · simp only [DiffOutcome.done.injEq] at h
            exact ⟨d, UnchangedAction, h.1.symm, Or.inl h.2.symm, hdi⟩

theorem diffPass_cons (m : ResourceManager σ) (opts : ApplyOptions) (object : Unstructured)
    (rest : List Unstructured) (changeSet : ChangeSet) (toApply : List Unstructured)
    (w : World σ) :
    diffPass m opts (object :: rest) changeSet toApply w =
      match diffStep m opts object changeSet toApply w with
      | (DiffOutcome.done cs ta, w1) => diffPass m opts rest cs ta w1
      | (DiffOutcome.restart, w1) => (DiffOutcome.restart, w1)
      | (DiffOutcome.failed err, w1) => (DiffOutcome.failed err, w1) := by
  rw [diffPass]

theorem diffPass_spec (m : ResourceManager σ) (opts : ApplyOptions)
    (objects : List Unstructured) (changeSet : ChangeSet) (toApply : List Unstructured)
    (w : World σ) :
    ∃ issued, (diffPass m opts objects changeSet toApply w).2.calls = w.calls ++ issued ∧
      (∀ c ∈ issued, c.isDiffCall = true ∧
        ((c.isGet = true ∨ c.isDryRun = true) → c.object ∈ objects) ∧
        (KeepsIdentity m.client →
          ∃ o ∈ objects, FmtUnstructured c.object = FmtUnstructured o)) ∧
      ∀ cs ta, (diffPass m opts objects changeSet toApply w).1 = DiffOutcome.done cs ta →
        ∃ entries kept, cs.Entries = changeSet.Entries ++ entries ∧
          entries.length = objects.length ∧
          ta = toApply ++ kept ∧ kept.Sublist objects ∧
          (KeepsIdentity m.client →
            entries.map (fun e => e.Subject) = objects.map FmtUnstructured) := by
  induction objects generalizing changeSet toApply w with
  | nil =>
    refine ⟨[], by simp [diffPass], by simp, ?_⟩
    intro cs ta h
    simp only [diffPass, DiffOutcome.done.injEq] at h
    exact ⟨[], [], by simp [h.1], rfl, by simp [h.2], List.Sublist.refl _, fun _ => rfl⟩
  | cons object rest ih =>
    obtain ⟨i1, hc1, hd1, hs1⟩ := diffStep_spec m opts object changeSet toApply w
    have hd1' : ∀ c ∈ i1, c.isDiffCall = true ∧
        ((c.isGet = true ∨ c.isDryRun = true) → c.object ∈ object :: rest) ∧
        (KeepsIdentity m.client →
          ∃ o ∈ object :: rest, FmtUnstructured c.object = FmtUnstructured o) := by
      intro c hc
      obtain ⟨h1, h2, h3⟩ := hd1 c hc
      exact ⟨h1, fun h => by rw [h2 h]; exact List.mem_cons_self _ _,
        fun hk => ⟨object, List.mem_cons_self _ _, h3 hk⟩⟩
    rw [diffPass_cons]
    rcases hstep : diffStep m opts object changeSet toApply w with ⟨out, w1⟩
    rw [hstep] at hc1 hs1
    cases out with
    | restart =>
      refine ⟨i1, hc1, hd1', ?_⟩
      intro cs ta h
      simp at h
    | failed err =>
      refine ⟨i1, hc1, hd1', ?_⟩
      intro cs ta h
      simp at h
    | done cs1 ta1 =>
      simp only
      obtain ⟨x, action, hx, hta, hid⟩ := hs1 cs1 ta1 rfl
      obtain ⟨i2, hc2, hd2, hs2⟩ := ih cs1 ta1 w1
      refine ⟨i1 ++ i2, ?_, ?_, ?_⟩
      · rw [hc2]
        simp only at hc1
        rw [hc1, List.append_assoc]
      · intro c hc
        rcases List.mem_append.1 hc with h | h
        · exact hd1' c h
        · obtain ⟨h1, h2, h3⟩ := hd2 c h
          refine ⟨h1, fun hh => List.mem_cons_of_mem _ (h2 hh), fun hk => ?_⟩
          obtain ⟨o, ho, hf⟩ := h3 hk
          exact ⟨o, List.mem_cons_of_mem _ ho, hf⟩
      · intro cs ta h
        obtain ⟨entries, kept, he, hl, hk, hsub, hsubj⟩ := hs2 cs ta h
        refine ⟨changeSetEntry x action :: entries,
          (if ta1 = toApply then kept else object :: kept), ?_, ?_, ?_, ?_, ?_⟩
        · rw [he, hx]
          simp [ChangeSet.Add]
        · simp [hl]
        · rcases hta with h1 | h1
          · simp [hk, h1]
          · by_cases h2 : ta1 = toApply
            · rw [h2] at h1
              have : ([] : List Unstructured) = [object] := by
                have := congrArg List.length h1
                simp at this
              cases this
            · simp [h2, hk, h1]
        · split
          · exact List.Sublist.cons _ hsub
          · exact List.Sublist.cons₂ _ hsub
        · intro hkeep
          simp [hsubj hkeep, changeSetEntry, hid hkeep]

theorem writePass_spec (m : ResourceManager σ) (toApply : List Unstructured) (w : World σ) :
    ∃ issued, (writePass m toApply w).2.calls = w.calls ++ issued ∧
      ∀ c ∈ issued, c.isApplyWrite = true ∧ c.object ∈ toApply := by
  induction toApply generalizing w with
  | nil => exact ⟨[], by simp [writePass], by simp⟩
  | cons object rest ih =>
    rcases ha : apply m w object with ⟨a, aerr, w1⟩
    have hac : w1.calls = w.calls ++
        [Call.Patch object PatchSpec.Apply (applyOpts m) (m.client.Patch w.st object
          PatchSpec.Apply (applyOpts m)).1] := by
      unfold apply at ha
      rw [clientPatch_eq] at ha
      simp only [Prod.mk.injEq] at ha
      obtain ⟨-, -, rfl⟩ := ha
      rfl
    simp only [writePass, DeepCopy, ha]
    cases aerr with
    | some err =>
      exact ⟨[_], hac, by simp [Call.isApplyWrite, applyOpts, Call.object]⟩
    | none =>
      simp only
      obtain ⟨i2, hc2, hw2⟩ := ih w1
      refine ⟨[Call.Patch object PatchSpec.Apply (applyOpts m) (m.client.Patch w.st object
          PatchSpec.Apply (applyOpts m)).1] ++ i2, ?_, ?_⟩
      · rw [hc2, hac, List.append_assoc]
      · intro c hc
        rcases List.mem_append.1 hc with h | h
        · simp only [List.mem_singleton] at h
          subst h
          simp [Call.isApplyWrite, applyOpts, Call.object]
        · exact ⟨(hw2 c h).1, List.mem_cons_of_mem _ (hw2 c h).2⟩

theorem writePass_error (m : ResourceManager σ) (toApply : List Unstructured)
    (w w1 : World σ) (err : ApplyError) (h : writePass m toApply w = (some err, w1)) :
    err.inDiffPass = false := by
  induction toApply generalizing w with
  | nil => simp [writePass] at h
  | cons o rest ih =>
    rcases ha : apply m w o with ⟨a, aerr, w3⟩
    simp only [writePass, DeepCopy, ha] at h
    cases aerr with
    | some e =>
      simp only [Prod.mk.injEq, Option.some.injEq] at h
      rw [← h.1]
      rfl
    | none =>
      simp only at h
      exact ih w3 h

theorem ApplyAll_calls (m : ResourceManager σ) (b : BatchEnv σ) (fuel : Nat) (w : World σ)
    (objects : List Unstructured) (opts : ApplyOptions) :
    ∃ diffing writing,
      (ApplyAll m b fuel w objects opts).2.calls = w.calls ++ diffing ++ writing ∧
      (∀ c ∈ diffing, c.isDiffCall = true ∧
        ((c.isGet = true ∨ c.isDryRun = true) → c.object ∈ objects) ∧
        (KeepsIdentity m.client →
          ∃ o ∈ objects, FmtUnstructured c.object = FmtUnstructured o)) ∧
      (∀ c ∈ writing, c.isApplyWrite = true ∧ c.object ∈ objects) ∧
      (∀ err, (ApplyAll m b fuel w objects opts).1 = some (.error err) →
        err.inDiffPass = true → writing = []) := by
  induction fuel generalizing w objects with
  | zero => exact ⟨[], [], by simp [ApplyAll], by simp, by simp, by simp⟩
  | succ fuel ih =>
    obtain ⟨i1, hc1, hd1, hs1⟩ := diffPass_spec m opts (sortObjects b objects) NewChangeSet [] w
    have hmem : ∀ o, o ∈ sortObjects b objects → o ∈ objects :=
      fun o ho => (sortObjects_perm b objects).mem_iff.1 ho
    have hd1' : ∀ c ∈ i1, c.isDiffCall = true ∧
        ((c.isGet = true ∨ c.isDryRun = true) → c.object ∈ objects) ∧
        (KeepsIdentity m.client →
          ∃ o ∈ objects, FmtUnstructured c.object = FmtUnstructured o) := by
      intro c hc
      obtain ⟨h1, h2, h3⟩ := hd1 c hc
      refine ⟨h1, fun h => hmem _ (h2 h), fun hk => ?_⟩
      obtain ⟨o, ho, hf⟩ := h3 hk
      exact ⟨o, hmem o ho, hf⟩
    rw [ApplyAll]
    rcases hdiff : diffPass m opts (sortObjects b objects) NewChangeSet [] w with ⟨out, w1⟩
    rw [hdiff] at hc1 hs1
    simp only at hc1
    cases out with
    | restart =>
      simp only
      obtain ⟨d2, w2, hc2, hd2, hw2, he2⟩ := ih w1 (sortObjects b objects)
      refine ⟨i1 ++ d2, w2, ?_, ?_, ?_, he2⟩
      · rw [hc2, hc1]; simp
      · intro c hc
        rcases List.mem_append.1 hc with h | h
        · exact hd1' c h
        · obtain ⟨h1, h2, h3⟩ := hd2 c h
          refine ⟨h1, fun hh => hmem _ (h2 hh), fun hk => ?_⟩
          obtain ⟨o, ho, hf⟩ := h3 hk
          exact ⟨o, hmem o ho, hf⟩
      · intro c hc
        exact ⟨(hw2 c hc).1, hmem _ (hw2 c hc).2⟩
    | failed err =>
      exact ⟨i1, [], by simp [hc1], hd1', by simp, by simp⟩
    | done cs ta =>
      simp only
      obtain ⟨entries, kept, -, -, hta, hsub, -⟩ := hs1 cs ta rfl
      obtain ⟨i2, hc2, hw2⟩ := writePass_spec m ta w1
      have hw2' : ∀ c ∈ i2, c.isApplyWrite = true ∧ c.object ∈ objects := by
        intro c hc
        refine ⟨(hw2 c hc).1, hmem _ (hsub.subset ?_)⟩
        have := (hw2 c hc).2
        rw [hta] at this
        simpa using this
      rcases hwr : writePass m ta w1 with ⟨werr, w2⟩
      rw [hwr] at hc2
      simp only at hc2
      cases werr with
      | some err =>
        refine ⟨i1, i2, by simp [hc2, hc1], hd1', hw2', ?_⟩
        intro err2 h hin
        simp only [Option.some.injEq, Except.error.injEq] at h
        subst h
        have := writePass_error m ta w1 w2 err hwr
        rw [this] at hin
        cases hin
      | none =>
        exact ⟨i1, i2, by simp [hc2, hc1], hd1', hw2', by simp⟩

/-! ## ApplyAll: the writes come after the diff pass -/

/-- C20. In every run of `ApplyAll`, whatever the fuel and the outcome and
through every restart after a forced delete, the calls issued split into a
first part holding no apply write, in which every call is a Get, a dry run, a
sanitization patch or a Delete, and a second part holding apply writes only:
no apply write comes before the last call of the diff pass, and the mutating
calls of the diff pass are sanitization patches and Deletes. -/
theorem ApplyAll_writes_follow_diff (m : ResourceManager σ) (b : BatchEnv σ) (fuel : Nat)
    (w : World σ) (objects : List Unstructured) (opts : ApplyOptions) :
    ∃ diffing writing,
      (ApplyAll m b fuel w objects opts).2.calls = w.calls ++ diffing ++ writing ∧
      (∀ c ∈ diffing, c.isApplyWrite = false ∧
        (c.isGet = true ∨ c.isDryRun = true ∨ c.isSanitize = true ∨ c.isDelete = true)) ∧
      (∀ c ∈ writing, c.isApplyWrite = true ∧ c.isGet = false ∧ c.isDryRun = false ∧
        c.isSanitize = false ∧ c.isDelete = false) := by
  obtain ⟨diffing, writing, hc, hd, hw, -⟩ := ApplyAll_calls m b fuel w objects opts
  refine ⟨diffing, writing, hc, ?_, ?_⟩
  · intro c hcd
    refine ⟨isApplyWrite_of_isDiffCall c (hd c hcd).1, ?_⟩
    have := (hd c hcd).1
    simpa [Call.isDiffCall, or_assoc] using this
  · intro c hcw
    have h := (hw c hcw).1
    cases c with
    | Get k o r => simp [Call.isApplyWrite] at h
    | Delete o r => simp [Call.isApplyWrite] at h
    | Patch o p os r =>
      cases p with
      | RawJSONPatch raw => simp [Call.isApplyWrite] at h
      | Apply =>
        simp only [Call.isApplyWrite, Bool.not_eq_true', decide_eq_false_iff_not] at h
        simp [Call.isApplyWrite, Call.isGet, Call.isDryRun, Call.isSanitize, Call.isDelete, h]

/-! ## ApplyAll: a failure in the diff pass -/

/-- C12 fails as stated, on the in-memory store holding the config map created
by kubectl and a second config map whose immutable `data.key` differs. The
dry run of the second object is rejected and `ApplyAll` returns the
validation error, but the sanitization patch of the first object has been
issued before and has changed the store: the first object has lost its
kubectl entry and is stored under version 2. -/
theorem ApplyAll_diff_failure_after_sanitization :
    (ApplyAll storeManager storeEnv 1 ⟨mixedStore, []⟩ [appConfig, otherConfig]
        DefaultApplyOptions).1
      = some (.error (ApplyError.validation "ConfigMap/default/other"
          (ClientError.ImmutableFieldConflict "data.key"))) ∧
    ((ApplyAll storeManager storeEnv 1 ⟨mixedStore, []⟩ [appConfig, otherConfig]
        DefaultApplyOptions).2.calls.map fun c => (c.isSanitize, c.isApplyWrite))
      = [(false, false), (false, false), (true, false), (false, false), (false, false)] ∧
    (mixedStore.objects.map fun o => (o.Name, o.ResourceVersion, o.ManagedFields.length))
      = [("app", "1", 1), ("other", "1", 0)] ∧
    ((ApplyAll storeManager storeEnv 1 ⟨mixedStore, []⟩ [appConfig, otherConfig]
        DefaultApplyOptions).2.st.objects.map
          fun o => (o.Name, o.ResourceVersion, o.ManagedFields.length))
      = [("app", "2", 0), ("other", "1", 0)] := by
  refine ⟨by decide, by decide, by decide, by decide⟩

theorem diffPass_append (m : ResourceManager σ) (opts : ApplyOptions)
    (pre rest : List Unstructured) (changeSet cs : ChangeSet) (toApply ta : List Unstructured)
    (w w1 : World σ)
    (h : diffPass m opts pre changeSet toApply w = (DiffOutcome.done cs ta, w1)) :
    diffPass m opts (pre ++ rest) changeSet toApply w = diffPass m opts rest cs ta w1 := by
  induction pre generalizing changeSet toApply w with
  | nil =>
    simp only [diffPass, Prod.mk.injEq, DiffOutcome.done.injEq] at h
    obtain ⟨⟨rfl, rfl⟩, rfl⟩ := h
    rfl
  | cons o pre ih =>
    rw [List.cons_append, diffPass_cons]
    rw [diffPass_cons] at h
    rcases hstep : diffStep m opts o changeSet toApply w with ⟨out, w2⟩
    rw [hstep] at h
    cases out with
    | restart => simp at h
    | failed err => simp at h
    | done cs1 ta1 =>
      simp only at h ⊢
      exact ih cs1 ta1 w2 h

/-- C12, amended. In an invocation of `ApplyAll` (the first, or one started
by a restart), let the diff pass over the sorted objects reach an object, the
rounds of the objects before it being done, and let that object, found or
not and not skipped by an exclusion, fail in its round: its dry run is
rejected and not recovered (`Force` is off or the error is no
immutable-field conflict), or its dry run is rejected with an immutable-field
conflict under `Force` and the delete fails, or its dry run succeeds and its
sanitization fails. Then `ApplyAll` returns that error, naming the object,
and no apply write has been issued for any object of the batch: every call
issued is a Get, a dry run, a sanitization patch or a Delete. -/
theorem ApplyAll_fails_fast (m : ResourceManager σ) (b : BatchEnv σ) (fuel : Nat)
    (w w1 w2 w3 : World σ) (objects pre post : List Unstructured)
    (object existingObject : Unstructured) (opts : ApplyOptions) (changeSet : ChangeSet)
    (toApply : List Unstructured) (got : Outcome) (failure : ApplyError)
    (hsorted : sortObjects b objects = pre ++ object :: post)
    (hpre : diffPass m opts pre NewChangeSet [] w = (DiffOutcome.done changeSet toApply, w1))
    (hget : clientGet m w1 (ObjectKeyFromObject object) (DeepCopy object)
      = (existingObject, got, w2))
    (hexcl : AnyInMetadata existingObject opts.Exclusions = false)
    (hfail :
      (∃ d err, dryRunApply m w2 (DeepCopy object) = (d, some err, w3) ∧
        (opts.Force = false ∨ IsImmutableError err = false) ∧
        failure = validationError object err) ∨
      (∃ d err wd derr, dryRunApply m w2 (DeepCopy object) = (d, some err, wd) ∧
        opts.Force = true ∧ IsImmutableError err = true ∧
        clientDelete m wd existingObject = (some derr, w3) ∧
        failure = ApplyError.deleteFailed (FmtUnstructured object) derr) ∨
      (∃ d wd patched cerr, dryRunApply m w2 (DeepCopy object) = (d, none, wd) ∧
        cleanupManagedFields m wd (some existingObject) = (patched, some cerr, w3) ∧
        failure = ApplyError.cleanupFailed (FmtUnstructured existingObject) cerr)) :
    ApplyAll m b (fuel + 1) w objects opts = (some (.error failure), w3) ∧
      ∃ issued, w3.calls = w.calls ++ issued ∧
        ∀ c ∈ issued, c.isApplyWrite = false ∧
          (c.isGet = true ∨ c.isDryRun = true ∨ c.isSanitize = true ∨ c.isDelete = true) := by
  have hstep : diffStep m opts object changeSet toApply w1 = (DiffOutcome.failed failure, w3) := by
    simp only [DeepCopy] at hget hfail
    rcases hfail with ⟨d, err, hd, hf, rfl⟩ | ⟨d, err, wd, derr, hd, hforce, himm, hdel, rfl⟩ |
      ⟨d, wd, patched, cerr, hd, hcl, rfl⟩
    · obtain ⟨rfl, -⟩ := clientPatch_failed m w2 w3 _ _ _ _ _ hd
      have hc : (opts.Force && IsImmutableError err) = false := by
        rcases hf with h | h <;> simp [h]
      simp [diffStep, DeepCopy, hget, hexcl, hd, hc]
    · obtain ⟨rfl, -⟩ := clientPatch_failed m w2 wd _ _ _ _ _ hd
      simp [diffStep, DeepCopy, hget, hexcl, hd, hforce, himm, hdel]
    · simp [diffStep, DeepCopy, hget, hexcl, hd, hcl]
  have hpass : diffPass m opts (sortObjects b objects) NewChangeSet [] w
      = (DiffOutcome.failed failure, w3) := by
    rw [hsorted, diffPass_append m opts pre (object :: post) _ _ _ _ w w1 hpre, diffPass_cons,
      hstep]
  have hres : ApplyAll m b (fuel + 1) w objects opts = (some (.error failure), w3) := by
    rw [ApplyAll]
    simp only [hpass]
  have hin : failure.inDiffPass = true := by
    rcases hfail with ⟨d, err, -, -, rfl⟩ | ⟨d, err, wd, derr, -, -, -, -, rfl⟩ |
      ⟨d, wd, patched, cerr, -, -, rfl⟩ <;> rfl
  refine ⟨hres, ?_⟩
  obtain ⟨diffing, writing, hc, hd, -, he⟩ := ApplyAll_calls m b (fuel + 1) w objects opts
  rw [hres] at hc he
  have hnil := he failure rfl hin
  subst hnil
  refine ⟨diffing, by simpa using hc, ?_⟩
  intro c hcd
  refine ⟨isApplyWrite_of_isDiffCall c (hd c hcd).1, ?_⟩
  have := (hd c hcd).1
  simpa [Call.isDiffCall, or_assoc] using this

/-- C12 amended, on the in-memory store of the counterexample: the first
config map is diffed, the dry run of the second is rejected. -/
theorem ApplyAll_fails_fast_witness :
    ApplyAll storeManager storeEnv 1 ⟨mixedStore, []⟩ [appConfig, otherConfig]
        DefaultApplyOptions
      = (some (.error (ApplyError.validation "ConfigMap/default/other"
          (ClientError.ImmutableFieldConflict "data.key"))),
        (ApplyAll storeManager storeEnv 1 ⟨mixedStore, []⟩ [appConfig, otherConfig]
          DefaultApplyOptions).2) :=
  (ApplyAll_fails_fast storeManager storeEnv 0 ⟨mixedStore, []⟩ _ _ _
    [appConfig, otherConfig] [appConfig] [] otherConfig storedOther DefaultApplyOptions _ _
    (Outcome.ok storedOther)
    (ApplyError.validation "ConfigMap/default/other"
      (ClientError.ImmutableFieldConflict "data.key"))
    (by decide) rfl rfl (by decide)
    (Or.inl ⟨_, ClientError.ImmutableFieldConflict "data.key", rfl, Or.inl rfl, rfl⟩)).1

/-! ## ApplyAll: a failure in the write pass -/

theorem writePass_append (m : ResourceManager σ) (pre rest : List Unstructured)
    (w w1 : World σ) (h : writePass m pre w = (none, w1)) :
    writePass m (pre ++ rest) w = writePass m rest w1 := by
  induction pre generalizing w with
  | nil =>
    simp only [writePass, Prod.mk.injEq, true_and] at h
    subst h
    rfl
  | cons o pre ih =>
    rcases ha : apply m w o with ⟨a, aerr, w2⟩
    simp only [writePass, DeepCopy, ha, List.cons_append] at h ⊢
    cases aerr with
    | some e => simp at h
    | none =>
      simp only at h ⊢
      exact ih w2 h

theorem writePass_ok_calls (m : ResourceManager σ) (pre : List Unstructured)
    (w w1 : World σ) (h : writePass m pre w = (none, w1)) :
    ∃ written : List Unstructured, written.length = pre.length ∧
      w1.calls = w.calls ++
        List.zipWith (fun o r => Call.Patch o PatchSpec.Apply (applyOpts m) (Outcome.ok r))
          pre written := by
  induction pre generalizing w with
  | nil =>
    simp only [writePass, Prod.mk.injEq, true_and] at h
    subst h
    exact ⟨[], rfl, by simp⟩
  | cons o pre ih =>
    rcases ha : apply m w o with ⟨a, aerr, w2⟩
    simp only [writePass, DeepCopy, ha] at h
    cases aerr with
    | some e => simp at h
    | none =>
      simp only at h
      obtain ⟨written, hl, hc⟩ := ih w2 h
      refine ⟨a :: written, by simp [hl], ?_⟩
      rw [hc, (clientPatch_ok m w w2 _ _ _ _ ha).2]
      simp

/-- C14. When the diff pass is done and the write of the k-th object of the
to-apply list fails after the writes of the k-1 objects before it succeeded,
`ApplyAll` returns the apply-failed error naming that object and no change
set. From the end of the diff pass on, the calls issued are exactly the k-1
successful writes, in order, followed by the failed write: nothing undoes the
earlier writes and no later object is written. -/
theorem ApplyAll_write_failure (m : ResourceManager σ) (b : BatchEnv σ) (fuel : Nat)
    (w w1 w2 w3 : World σ) (objects pre post : List Unstructured) (x failed : Unstructured)
    (opts : ApplyOptions) (changeSet : ChangeSet) (err : ClientError)
    (hdiff : diffPass m opts (sortObjects b objects) NewChangeSet [] w
      = (DiffOutcome.done changeSet (pre ++ x :: post), w1))
    (hpre : writePass m pre w1 = (none, w2))
    (hfail : apply m w2 (DeepCopy x) = (failed, some err, w3)) :
    ApplyAll m b (fuel + 1) w objects opts
        = (some (.error (ApplyError.applyFailed (FmtUnstructured x) err)), w3) ∧
      ∃ written : List Unstructured, written.length = pre.length ∧
        w3.calls = w1.calls ++
          List.zipWith (fun o r => Call.Patch o PatchSpec.Apply (applyOpts m) (Outcome.ok r))
            pre written ++
          [Call.Patch x PatchSpec.Apply (applyOpts m) (Outcome.failed err)] := by
  obtain ⟨hx, hfc⟩ := clientPatch_failed m w2 w3 _ _ _ _ _ hfail
  have hwp : writePass m (pre ++ x :: post) w1
      = (some (ApplyError.applyFailed (FmtUnstructured x) err), w3) := by
    rw [writePass_append m pre (x :: post) w1 w2 hpre]
    simp only [DeepCopy] at hfail hx
    subst hx
    simp only [writePass, DeepCopy, hfail]
  refine ⟨?_, ?_⟩
  · rw [ApplyAll]
    simp only [hdiff, hwp]
  · obtain ⟨written, hl, hc⟩ := writePass_ok_calls m pre w1 w2 hpre
    refine ⟨written, hl, ?_⟩
    rw [hfc, hc]
    simp [DeepCopy]

/-- C14, on the in-memory store behind a quota of one write: of the namespace
and the two config maps, the first write succeeds, the second fails and the
third object is never written. -/
theorem ApplyAll_write_failure_witness :
    (ApplyAll quotaManager quotaEnv 1 ⟨(emptyStore, 1), []⟩
        [appNamespace, appConfig, otherConfig] DefaultApplyOptions).1
      = some (.error (ApplyError.applyFailed "ConfigMap/default/app"
          (ClientError.Other "quota exceeded"))) :=
  congrArg Prod.fst
    (ApplyAll_write_failure quotaManager quotaEnv 0 ⟨(emptyStore, 1), []⟩ _ _ _
      [appNamespace, appConfig, otherConfig] [appNamespace] [otherConfig] appConfig _
      DefaultApplyOptions _ (ClientError.Other "quota exceeded") rfl rfl rfl).1

/-! ## ApplyAll: the order of the change set -/

theorem ApplyAll_ok_entries (m : ResourceManager σ) (b : BatchEnv σ) (fuel : Nat)
    (w w1 : World σ) (objects : List Unstructured) (opts : ApplyOptions)
    (changeSet : ChangeSet)
    (h : ApplyAll m b fuel w objects opts = (some (.ok changeSet), w1)) :
    changeSet.Entries.length = objects.length ∧
      (KeepsIdentity m.client →
        changeSet.Entries.map (fun e => e.Subject) =
          (sortObjects b objects).map FmtUnstructured) := by
  induction fuel generalizing w objects with
  | zero => simp [ApplyAll] at h
  | succ fuel ih =>
    obtain ⟨-, -, -, hs⟩ := diffPass_spec m opts (sortObjects b objects) NewChangeSet [] w
    rw [ApplyAll] at h
    rcases hdiff : diffPass m opts (sortObjects b objects) NewChangeSet [] w with ⟨out, w2⟩
    rw [hdiff] at h hs
    cases out with
    | restart =>
      simp only at h
      have := ih w2 (sortObjects b objects) h
      rw [sortObjects_idem] at this
      refine ⟨?_, this.2⟩
      rw [this.1]
      exact (sortObjects_perm b objects).length_eq
    | failed err => simp at h
    | done cs ta =>
      simp only at h
      rcases hwr : writePass m ta w2 with ⟨werr, w3⟩
      rw [hwr] at h
      cases werr with
      | some err => simp at h
      | none =>
        simp only [Prod.mk.injEq, Option.some.injEq, Except.ok.injEq] at h
        obtain ⟨rfl, -⟩ := h
        obtain ⟨entries, kept, he, hl, -, -, hsubj⟩ := hs cs ta rfl
        simp only [NewChangeSet, List.nil_append] at he
        rw [he]
        exact ⟨by rw [hl]; exact (sortObjects_perm b objects).length_eq, hsubj⟩

theorem sameIdentity_fmt (a c : Unstructured) (h : sameIdentity a c = true) :
    FmtUnstructured c = FmtUnstructured a := by
  simp only [sameIdentity, Bool.and_eq_true, beq_iff_eq] at h
  simp [FmtUnstructured, h.1.1, h.1.2, h.2]

theorem Store.find_fmt (s : Store) (object stored : Unstructured)
    (h : s.find object = some stored) : FmtUnstructured stored = FmtUnstructured object := by
  unfold Store.find at h
  exact sameIdentity_fmt _ _ (List.find?_some h)

theorem foldl_applyJsonPatch_fmt (patches : List jsonPatch) (object : Unstructured) :
    FmtUnstructured (patches.foldl applyJsonPatch object) = FmtUnstructured object := by
  induction patches generalizing object with
  | nil => rfl
  | cons p rest ih =>
    rw [List.foldl_cons, ih]
    cases p <;> rfl

theorem storeClient_keepsIdentity : KeepsIdentity storeClient := by
  constructor
  · intro s o r h
    have ho : ({ o with
        Namespace := (ObjectKeyFromObject o).Namespace
        Name := (ObjectKeyFromObject o).Name } : Unstructured) = o := rfl
    simp only [storeClient, ho] at h
    cases hf : s.find o with
    | none => rw [hf] at h; cases h
    | some stored =>
      rw [hf] at h
      simp only [Outcome.ok.injEq] at h
      subst h
      exact Store.find_fmt s _ _ hf
  · intro s o p opts r h
    simp only [storeClient, Store.patch] at h
    cases p with
    | Apply =>
      simp only at h
      cases hc : s.immutableConflict o with
      | some key => rw [hc] at h; cases h
      | none =>
        rw [hc] at h
        simp only at h
        have happ : FmtUnstructured (s.applied o (fieldOwnerOf opts)) = FmtUnstructured o := by
          unfold Store.applied
          cases s.find o <;> rfl
        split at h
        · simp only [Outcome.ok.injEq] at h
          rw [← h]; exact happ
        · split at h
          · simp only [Outcome.ok.injEq] at h
            rw [← h]; exact happ
          · simp only [Outcome.ok.injEq] at h
            rw [← h]; exact happ
    | RawJSONPatch raw =>
      simp only at h
      cases hf : s.find o with
      | none => rw [hf] at h; cases h
      | some stored =>
        rw [hf] at h
        simp only at h
        have hst := Store.find_fmt s _ _ hf
        split at h
        · simp only [Outcome.ok.injEq] at h
          rw [← h]; exact hst
        · simp only [Outcome.ok.injEq] at h
          rw [← h]
          exact (foldl_applyJsonPatch_fmt raw stored).trans hst

/-- C13 fails as stated, on the in-memory store with nothing stored: for the
input list config map, namespace, `ApplyAll` succeeds and its change set is
namespace, config map. The entries follow the sorted list of line 109, in
which namespaces come first, not the input list. -/
theorem ApplyAll_entries_not_in_input_order :
    ([appConfig, appNamespace].map FmtUnstructured)
      = ["ConfigMap/default/app", "Namespace//default"] ∧
    (ApplyAll storeManager storeEnv 1 ⟨emptyStore, []⟩ [appConfig, appNamespace]
        DefaultApplyOptions).1
      = some (.ok { Entries :=
          [{ Subject := "Namespace//default", Action := CreatedAction },
           { Subject := "ConfigMap/default/app", Action := CreatedAction }] }) := by
  refine ⟨by decide, by decide⟩

/-- C13, amended. For every object list on which `ApplyAll` succeeds, the
returned change set has exactly one entry per input object, and its entries
follow the list as sorted by line 109, a rearrangement of the input: for a
client that answers with the identity it was asked for, the subjects of the
entries are, in order, the identities of the sorted objects. They follow the
input list when it is already sorted. -/
theorem ApplyAll_entries_in_sorted_order (m : ResourceManager σ) (b : BatchEnv σ)
    (fuel : Nat) (w w1 : World σ) (objects : List Unstructured) (opts : ApplyOptions)
    (changeSet : ChangeSet)
    (h : ApplyAll m b fuel w objects opts = (some (.ok changeSet), w1))
    (hk : KeepsIdentity m.client) :
    changeSet.Entries.length = objects.length ∧
      (sortObjects b objects).Perm objects ∧
      changeSet.Entries.map (fun e => e.Subject) =
        (sortObjects b objects).map FmtUnstructured ∧
      (sortObjects b objects = objects →
        changeSet.Entries.map (fun e => e.Subject) = objects.map FmtUnstructured) := by
  obtain ⟨hl, hs⟩ := ApplyAll_ok_entries m b fuel w w1 objects opts changeSet h
  refine ⟨hl, sortObjects_perm b objects, hs hk, ?_⟩
  intro hsorted
  have := hs hk
  rw [hsorted] at this
  exact this

/-- C13 amended, on the in-memory store with nothing stored. -/
theorem ApplyAll_entries_in_sorted_order_witness :
    ({ Entries :=
        [{ Subject := "Namespace//default", Action := CreatedAction },
         { Subject := "ConfigMap/default/app", Action := CreatedAction }] } :
      ChangeSet).Entries.map (fun e => e.Subject) =
        (sortObjects storeEnv [appConfig, appNamespace]).map FmtUnstructured :=
  (ApplyAll_entries_in_sorted_order storeManager storeEnv 1 ⟨emptyStore, []⟩ _
    [appConfig, appNamespace] DefaultApplyOptions _ rfl storeClient_keepsIdentity).2.2.1

/-! ## ApplyAll on one object and Apply -/

theorem sortObjects_singleton (b : BatchEnv σ) (object : Unstructured) :
    sortObjects b [object] = [object] := by
  simp [sortObjects]

/-- C19. For every object, options, client and fuel, `ApplyAll` on the
one-element list and `Apply` on the object leave the same world, that is the
same sequence of client calls with the same outcomes and the same client
state, and agree on the outcome: both are out of fuel, or both fail, with the
same error, or both succeed and the change set of `ApplyAll` holds exactly
one entry, whose action is the action of the entry of `Apply`. -/
theorem ApplyAll_singleton_agrees_with_Apply (m : ResourceManager σ) (b : BatchEnv σ)
    (fuel : Nat) (w : World σ) (object : Unstructured) (opts : ApplyOptions) :
    (ApplyAll m b fuel w [object] opts).2 = (Apply m fuel w object opts).2 ∧
      outcomesAgree (ApplyAll m b fuel w [object] opts).1 (Apply m fuel w object opts).1 := by
  induction fuel generalizing w with
  | zero => simp [ApplyAll, Apply, outcomesAgree]
  | succ fuel ih =>
    rw [ApplyAll, Apply]
    rcases hg : clientGet m w (ObjectKeyFromObject object) object with ⟨e, got, w1⟩
    simp only [sortObjects_singleton, diffPass, diffStep, DeepCopy, hg]
    by_cases hex : AnyInMetadata e opts.Exclusions = true
    · simp [hex, writePass, outcomesAgree, NewChangeSet, ChangeSet.Add, changeSetEntry]
    · simp only [hex, Bool.false_eq_true, if_false]
      rcases hd : dryRunApply m w1 object with ⟨d, derr, w2⟩
      cases derr with
      | some err =>
        simp only
        by_cases hf : (opts.Force && IsImmutableError err) = true
        · simp only [hf, if_true]
          rcases hdel : clientDelete m w2 e with ⟨r, w3⟩
          cases r with
          | some derr => simp [outcomesAgree]
          | none =>
            simp only
            exact ih w3
        · simp [hf, outcomesAgree]
      | none =>
        simp only
        rcases hcl : cleanupManagedFields m w2 (some e) with ⟨patched, cerr, w3⟩
        cases cerr with
        | some err => simp [outcomesAgree]
        | none =>
          simp only
          by_cases hun : (patched || m.hasDrifted e d) = true
          · have hun2 : (!patched && !m.hasDrifted e d) = false := by
              cases patched <;> cases hdr : m.hasDrifted e d <;> simp_all
            simp only [hun, hun2, if_true, Bool.false_eq_true, if_false]
            rcases ha : apply m w3 object with ⟨a, aerr, w4⟩
            by_cases hrv : (d.ResourceVersion == "") = true
            · simp only [hrv, if_true, writePass, DeepCopy, ha]
              cases aerr <;>
                simp [outcomesAgree, NewChangeSet, ChangeSet.Add, changeSetEntry, writePass]
            · simp only [hrv, Bool.false_eq_true, if_false, writePass, DeepCopy, ha]
              cases aerr <;>
                simp [outcomesAgree, NewChangeSet, ChangeSet.Add, changeSetEntry, writePass]
          · have hun2 : (!patched && !m.hasDrifted e d) = true := by
              cases patched <;> cases hdr : m.hasDrifted e d <;> simp_all
            simp [hun, hun2, writePass, outcomesAgree, NewChangeSet, ChangeSet.Add,
              changeSetEntry]

/-! ## A failed Get -/

/-- C18. When the Get fails, with whatever error, `Apply` and the round of
`ApplyAll` for the object go on without error and the existing object is the
copy of the desired one. So (1) when the desired object itself matches an
exclusion pair, both report the desired object Unchanged after the Get alone,
with no dry run, and `ApplyAll` does not list it for writing; and (2)
otherwise, after a successful dry run, the sanitizer runs on the desired
object and the drift detector compares the desired object with the dry-run
result: a sanitization error names the desired object, and the object is
Unchanged exactly when the sanitizer did not patch and no drift is reported
between the desired object and the dry-run result. -/
theorem Get_failure_leaves_desired_copy (m : ResourceManager σ) (b : BatchEnv σ)
    (w w1 : World σ) (object existingObject : Unstructured) (opts : ApplyOptions)
    (fuel : Nat) (gerr : ClientError) (changeSet : ChangeSet) (toApply : List Unstructured)
    (hget : clientGet m w (ObjectKeyFromObject object) (DeepCopy object)
      = (existingObject, Outcome.failed gerr, w1)) :
    existingObject = object ∧
    w1.calls = w.calls ++
      [Call.Get (ObjectKeyFromObject object) object (Outcome.failed gerr)] ∧
    ((∃ kv ∈ opts.Exclusions,
        object.Labels.lookup kv.1 = some kv.2 ∨ object.Annotations.lookup kv.1 = some kv.2) →
      Apply m (fuel + 1) w object opts
          = (some (.ok (changeSetEntry object UnchangedAction)), w1) ∧
        diffStep m opts object changeSet toApply w
          = (DiffOutcome.done (changeSet.Add (changeSetEntry object UnchangedAction))
              toApply, w1) ∧
        ApplyAll m b (fuel + 1) w [object] opts
          = (some (.ok { Entries := [changeSetEntry object UnchangedAction] }), w1)) ∧
    (AnyInMetadata object opts.Exclusions = false →
      ∀ (dryRunObject : Unstructured) (w2 w3 : World σ) (patched : Bool)
        (cerr : Option ClientError),
        dryRunApply m w1 (DeepCopy object) = (dryRunObject, none, w2) →
        cleanupManagedFields m w2 (some object) = (patched, cerr, w3) →
        (∀ err, cerr = some err →
          Apply m (fuel + 1) w object opts
              = (some (.error (ApplyError.cleanupFailed (FmtUnstructured object) err)), w3) ∧
            diffStep m opts object changeSet toApply w
              = (DiffOutcome.failed
                  (ApplyError.cleanupFailed (FmtUnstructured object) err), w3)) ∧
        (cerr = none → patched = false → m.hasDrifted object dryRunObject = false →
          Apply m (fuel + 1) w object opts
              = (some (.ok (changeSetEntry object UnchangedAction)), w3) ∧
            diffStep m opts object changeSet toApply w
              = (DiffOutcome.done
                  (changeSet.Add (changeSetEntry dryRunObject UnchangedAction)) toApply, w3)) ∧
        (cerr = none → (patched = true ∨ m.hasDrifted object dryRunObject = true) →
          Apply m (fuel + 1) w object opts
              = (match apply m w3 (DeepCopy object) with
                | (appliedObject, some err, w4) =>
                  (some (.error
                    (ApplyError.applyFailed (FmtUnstructured appliedObject) err)), w4)
                | (appliedObject, none, w4) =>
                  (some (.ok (changeSetEntry appliedObject
                    (if dryRunObject.ResourceVersion == "" then CreatedAction
                      else ConfiguredAction))), w4)) ∧
            diffStep m opts object changeSet toApply w
              = (DiffOutcome.done
                  (changeSet.Add (changeSetEntry dryRunObject
                    (if dryRunObject.ResourceVersion == "" then CreatedAction
                      else ConfiguredAction))) (toApply ++ [object]), w3))) := by
  have hobj := clientGet_failed m w w1 _ _ _ _ hget
  subst hobj
  have hcalls := clientGet_calls m w w1 _ _ _ _ hget
  simp only [DeepCopy] at hget hcalls
  refine ⟨rfl, hcalls, ?_, ?_⟩
  · intro hpair
    have hany := AnyInMetadata_of_pair existingObject opts.Exclusions hpair
    refine ⟨?_, ?_, ?_⟩
    · simp [Apply, DeepCopy, hget, hany]
    · simp [diffStep, DeepCopy, hget, hany]
    · rw [ApplyAll]
      simp [sortObjects_singleton, diffPass, diffStep, DeepCopy, hget, hany, writePass,
        NewChangeSet, ChangeSet.Add]
  · intro hex d w2 w3 patched cerr hdry hclean
    simp only [DeepCopy] at hdry
    refine ⟨?_, ?_, ?_⟩
    · rintro err rfl
      exact ⟨by simp [Apply, DeepCopy, hget, hex, hdry, hclean],
        by simp [diffStep, DeepCopy, hget, hex, hdry, hclean]⟩
    · rintro rfl hp hd
      exact ⟨by simp [Apply, DeepCopy, hget, hex, hdry, hclean, hp, hd],
        by simp [diffStep, DeepCopy, hget, hex, hdry, hclean, hp, hd]⟩
    · rintro rfl hor
      have h1 : (!patched && !m.hasDrifted existingObject d) = false := by
        rcases hor with h | h <;> simp [h]
      have h2 : (patched || m.hasDrifted existingObject d) = true := by
        rcases hor with h | h <;> simp [h]
      refine ⟨?_, ?_⟩
      · simp only [Apply, DeepCopy, hget, hex, hdry, hclean, h1, Bool.false_eq_true, if_false]
        rcases apply m w3 existingObject with ⟨a, aerr, w4⟩
        cases aerr with
        | some err => rfl
        | none =>
          simp only
          split <;> rfl
      · simp only [diffStep, DeepCopy, hget, hex, hdry, hclean, h2, Bool.false_eq_true,
          if_false, if_true]
        split <;> rfl

/-- C18, on the in-memory store with nothing stored: the desired config map is
labelled `team: a` and the exclusions hold that pair. -/
theorem Get_failure_leaves_desired_copy_witness :
    Apply storeManager 1 ⟨emptyStore, []⟩ appConfig teamExclusion
        = (some (.ok (changeSetEntry appConfig UnchangedAction)),
            ⟨emptyStore,
              [Call.Get (ObjectKeyFromObject appConfig) appConfig
                (Outcome.failed ClientError.NotFound)]⟩) ∧
      ApplyAll storeManager storeEnv 1 ⟨emptyStore, []⟩ [appConfig] teamExclusion
        = (some (.ok { Entries := [changeSetEntry appConfig UnchangedAction] }),
            ⟨emptyStore,
              [Call.Get (ObjectKeyFromObject appConfig) appConfig
                (Outcome.failed ClientError.NotFound)]⟩) :=
  ⟨((Get_failure_leaves_desired_copy storeManager storeEnv ⟨emptyStore, []⟩ _ appConfig
      appConfig teamExclusion 0 ClientError.NotFound NewChangeSet [] rfl).2.2.1
        ⟨("team", "a"), by decide, by decide⟩).1,
   ((Get_failure_leaves_desired_copy storeManager storeEnv ⟨emptyStore, []⟩ _ appConfig
      appConfig teamExclusion 0 ClientError.NotFound NewChangeSet [] rfl).2.2.1
        ⟨("team", "a"), by decide, by decide⟩).2.2⟩

/-! ## Forced recreation without a bound -/

theorem forced_round (m : ResourceManager σ) (opts : ApplyOptions) (object : Unstructured)
    (w : World σ)
    (hforce : opts.Force = true) (hexcl : opts.Exclusions = [])
    (hconf : ∀ s o, ∃ detail, (m.client.Patch s o PatchSpec.Apply (dryRunOpts m)).1
      = Outcome.failed (ClientError.ImmutableFieldConflict detail))
    (hdel : ∀ s o, (m.client.Delete s o).1 = none) :
    ∃ w3 issued, w3.calls = w.calls ++ issued ∧ (issued.filter Call.isDelete).length = 1 ∧
      (∀ fuel, Apply m (fuel + 1) w object opts = Apply m fuel w3 object opts) ∧
      (∀ changeSet toApply,
        diffStep m opts object changeSet toApply w = (DiffOutcome.restart, w3)) := by
  rcases hg : clientGet m w (ObjectKeyFromObject object) object with ⟨e, got, w1⟩
  have hex : AnyInMetadata e opts.Exclusions = false := by simp [AnyInMetadata, hexcl]
  obtain ⟨detail, hp⟩ := hconf w1.st object
  have hd : dryRunApply m w1 object
      = (object, some (ClientError.ImmutableFieldConflict detail),
          { st := (m.client.Patch w1.st object PatchSpec.Apply (dryRunOpts m)).2,
            calls := w1.calls ++ [Call.Patch object PatchSpec.Apply (dryRunOpts m)
              (Outcome.failed (ClientError.ImmutableFieldConflict detail))] }) := by
    unfold dryRunApply
    rw [clientPatch_eq, hp]
    rfl
  rcases hdl : clientDelete m
      { st := (m.client.Patch w1.st object PatchSpec.Apply (dryRunOpts m)).2,
        calls := w1.calls ++ [Call.Patch object PatchSpec.Apply (dryRunOpts m)
          (Outcome.failed (ClientError.ImmutableFieldConflict detail))] } e with ⟨r, w3⟩
  have hr : r = none := by
    unfold clientDelete at hdl
    simp only [Prod.mk.injEq] at hdl
    rw [← hdl.1]
    exact hdel _ _
  subst hr
  refine ⟨w3, [Call.Get (ObjectKeyFromObject object) object got,
    Call.Patch object PatchSpec.Apply (dryRunOpts m)
      (Outcome.failed (ClientError.ImmutableFieldConflict detail)),
    Call.Delete e none], ?_, ?_, ?_, ?_⟩
  · rw [clientDelete_calls m _ w3 _ _ hdl, clientGet_calls m w w1 _ _ _ _ hg]
    simp
  · simp [List.filter, Call.isDelete]
  · intro fuel
    rw [Apply]
    simp [DeepCopy, hg, hex, hd, hforce, IsImmutableError, hdl]
  · intro changeSet toApply
    simp [diffStep, DeepCopy, hg, hex, hd, hforce, IsImmutableError, hdl]

/-- C17 fails as stated, against the client that reports an immutable-field
conflict on every dry run and accepts every delete: with force on, three
invocations of `Apply`, and of `ApplyAll`, have performed three deletes, each
followed by a retry, and have not returned. -/
theorem Apply_force_retries_more_than_once :
    (Apply conflictManager 3 ⟨(), []⟩ appConfig forceOptions).1 = none ∧
      ((Apply conflictManager 3 ⟨(), []⟩ appConfig forceOptions).2.calls.filter
        Call.isDelete).length = 3 ∧
      (ApplyAll conflictManager conflictEnv 3 ⟨(), []⟩ [appConfig] forceOptions).1 = none ∧
      ((ApplyAll conflictManager conflictEnv 3 ⟨(), []⟩ [appConfig] forceOptions).2.calls.filter
        Call.isDelete).length = 3 := by
  refine ⟨by decide, by decide, by decide, by decide⟩

/-- C17, amended. With force on, `Apply` and `ApplyAll` delete and start again
after every dry run that fails with an immutable-field conflict and whose
delete succeeds, and nothing bounds the number of retries. Against a client
that reports an immutable-field conflict on every dry run and accepts every
delete (no exclusions set, and a non-empty list for `ApplyAll`) they never
return: whatever the number of invocations allowed, it is used up without a
result, and that many deletes have been performed. -/
theorem Apply_force_never_returns (m : ResourceManager σ) (b : BatchEnv σ)
    (opts : ApplyOptions) (object : Unstructured) (objects : List Unstructured)
    (fuel : Nat) (w : World σ)
    (hforce : opts.Force = true) (hexcl : opts.Exclusions = [])
    (hconf : ∀ s o, ∃ detail, (m.client.Patch s o PatchSpec.Apply (dryRunOpts m)).1
      = Outcome.failed (ClientError.ImmutableFieldConflict detail))
    (hdel : ∀ s o, (m.client.Delete s o).1 = none)
    (hne : objects ≠ []) :
    ((Apply m fuel w object opts).1 = none ∧
      ∃ issued, (Apply m fuel w object opts).2.calls = w.calls ++ issued ∧
        (issued.filter Call.isDelete).length = fuel) ∧
    ((ApplyAll m b fuel w objects opts).1 = none ∧
      ∃ issued, (ApplyAll m b fuel w objects opts).2.calls = w.calls ++ issued ∧
        (issued.filter Call.isDelete).length = fuel) := by
  constructor
  · induction fuel generalizing w with
    | zero => exact ⟨rfl, [], by simp [Apply], rfl⟩
    | succ fuel ih =>
      obtain ⟨w3, i1, hc1, hn1, hstep, -⟩ := forced_round m opts object w hforce hexcl hconf hdel
      rw [hstep fuel]
      obtain ⟨hres, i2, hc2, hn2⟩ := ih w3
      refine ⟨hres, i1 ++ i2, ?_, ?_⟩
      · rw [hc2, hc1, List.append_assoc]
      · rw [List.filter_append, List.length_append, hn1, hn2, Nat.add_comm]
  · induction fuel generalizing w objects with
    | zero => exact ⟨rfl, [], by simp [ApplyAll], rfl⟩
    | succ fuel ih =>
      have hsne : sortObjects b objects ≠ [] := by
        intro h
        have := (sortObjects_perm b objects).length_eq
        rw [h] at this
        exact hne (List.length_eq_zero.1 this.symm)
      obtain ⟨x, rest, hxs⟩ := List.exists_cons_of_ne_nil hsne
      obtain ⟨w3, i1, hc1, hn1, -, hstep⟩ := forced_round m opts x w hforce hexcl hconf hdel
      have hrun : ApplyAll m b (fuel + 1) w objects opts
          = ApplyAll m b fuel w3 (sortObjects b objects) opts := by
        rw [ApplyAll]
        simp only [hxs, diffPass, hstep]
      rw [hrun]
      obtain ⟨hres, i2, hc2, hn2⟩ := ih (sortObjects b objects) w3 hsne
      refine ⟨hres, i1 ++ i2, ?_, ?_⟩
      · rw [hc2, hc1, List.append_assoc]
      · rw [List.filter_append, List.length_append, hn1, hn2, Nat.add_comm]

/-- C17 amended, against the always conflicting client with five invocations. -/
theorem Apply_force_never_returns_witness :
    ((Apply conflictManager 5 ⟨(), []⟩ appConfig forceOptions).1 = none ∧
      ∃ issued, (Apply conflictManager 5 ⟨(), []⟩ appConfig forceOptions).2.calls
          = [] ++ issued ∧
        (issued.filter Call.isDelete).length = 5) ∧
    ((ApplyAll conflictManager conflictEnv 5 ⟨(), []⟩ [appConfig, otherConfig]
        forceOptions).1 = none ∧
      ∃ issued, (ApplyAll conflictManager conflictEnv 5 ⟨(), []⟩ [appConfig, otherConfig]
          forceOptions).2.calls = [] ++ issued ∧
        (issued.filter Call.isDelete).length = 5) :=
  Apply_force_never_returns conflictManager conflictEnv forceOptions appConfig
    [appConfig, otherConfig] 5 ⟨(), []⟩ rfl rfl (fun _ _ => ⟨"spec", rfl⟩) (fun _ _ => rfl)
    (by decide)

/-! ## The staged rollout -/

theorem ApplyAll_issued (m : ResourceManager σ) (b : BatchEnv σ) (fuel : Nat) (w w1 : World σ)
    (objects : List Unstructured) (opts : ApplyOptions)
    (res : Option (Except ApplyError ChangeSet))
    (h : ApplyAll m b fuel w objects opts = (res, w1)) :
    ∃ issued, w1.calls = w.calls ++ issued ∧
      ∀ c ∈ issued,
        ((c.isGet = true ∨ c.isDryRun = true ∨ c.isApplyWrite = true) → c.object ∈ objects) ∧
        (KeepsIdentity m.client →
          ∃ o ∈ objects, FmtUnstructured c.object = FmtUnstructured o) := by
  obtain ⟨diffing, writing, hc, hd, hw, -⟩ := ApplyAll_calls m b fuel w objects opts
  rw [h] at hc
  refine ⟨diffing ++ writing, by simpa [List.append_assoc] using hc, ?_⟩
  intro c hcm
  rcases List.mem_append.1 hcm with hcm | hcm
  · obtain ⟨h1, h2, h3⟩ := hd c hcm
    refine ⟨?_, h3⟩
    rintro (h | h | h)
    · exact h2 (Or.inl h)
    · exact h2 (Or.inr h)
    · rw [isApplyWrite_of_isDiffCall c h1] at h
      cases h
  · exact ⟨fun _ => (hw c hcm).2, fun _ => ⟨c.object, (hw c hcm).2, rfl⟩⟩

theorem applyStageTwo_ok (m : ResourceManager σ) (b : BatchEnv σ) (fuel : Nat) (w w1 : World σ)
    (first : ChangeSet) (stageTwo : List Unstructured) (opts : ApplyOptions)
    (changeSet : ChangeSet)
    (h : applyStageTwo m b fuel w first stageTwo opts = (some (.ok changeSet), w1)) :
    ∃ cs2, ApplyAll m b fuel w stageTwo opts = (some (.ok cs2), w1) ∧
      changeSet.Entries = first.Entries ++ cs2.Entries := by
  unfold applyStageTwo at h
  rcases ha : ApplyAll m b fuel w stageTwo opts with ⟨res, w2⟩
  rw [ha] at h
  cases res with
  | none => simp at h
  | some r =>
    cases r with
    | error e => simp at h
    | ok cs2 =>
      simp only [Prod.mk.injEq, Option.some.injEq, Except.ok.injEq] at h
      obtain ⟨rfl, rfl⟩ := h
      exact ⟨cs2, rfl, rfl⟩

/-- C15. For every object list on which `ApplyAllStaged` succeeds: stage one
holds the cluster definitions of the input and stage two all other objects,
each in the order of the input, and together they are the input. If stage
one is empty, the change set holds the entries of `ApplyAll` on stage two.
If it is not, `ApplyAll` on stage one succeeded; then the wait `b.Wait` was
called, on the client state stage one left, for the objects of stage one
(sorted, as `ApplyAll` left them) with interval 2 seconds and timeout
`opts.WaitTimeout`, and reported no error; and only then, from the client
state the wait left and the call log of stage one, `ApplyAll` ran on stage
two: all calls of stage one come before all calls of stage two in the log,
the Gets, dry runs and writes of each being for its own objects, and the
change set is the stage-one entries followed by the stage-two entries. -/
theorem ApplyAllStaged_stages (m : ResourceManager σ) (b : BatchEnv σ) (fuel : Nat)
    (w w3 : World σ) (objects : List Unstructured) (opts : ApplyOptions)
    (changeSet : ChangeSet)
    (h : ApplyAllStaged m b fuel w objects opts = (some (.ok changeSet), w3)) :
    (objects.filter fun u => IsClusterDefinition u).Sublist objects ∧
    (objects.filter fun u => !IsClusterDefinition u).Sublist objects ∧
    ((objects.filter fun u => IsClusterDefinition u) ++
      (objects.filter fun u => !IsClusterDefinition u)).Perm objects ∧
    ((objects.filter fun u => IsClusterDefinition u) = [] →
      ∃ cs2, ApplyAll m b fuel w (objects.filter fun u => !IsClusterDefinition u) opts
          = (some (.ok cs2), w3) ∧
        changeSet.Entries = cs2.Entries) ∧
    ((objects.filter fun u => IsClusterDefinition u) ≠ [] →
      ∃ cs1 cs2 w1 st2 calls1 calls2,
        ApplyAll m b fuel w (objects.filter fun u => IsClusterDefinition u) opts
          = (some (.ok cs1), w1) ∧
        b.Wait w1.st (sortObjects b (objects.filter fun u => IsClusterDefinition u))
          { Interval := 2 * Second, Timeout := opts.WaitTimeout } = (none, st2) ∧
        ApplyAll m b fuel { st := st2, calls := w1.calls }
            (objects.filter fun u => !IsClusterDefinition u) opts
          = (some (.ok cs2), w3) ∧
        changeSet.Entries = cs1.Entries ++ cs2.Entries ∧
        w1.calls = w.calls ++ calls1 ∧
        w3.calls = w.calls ++ calls1 ++ calls2 ∧
        (∀ c ∈ calls1, (c.isGet = true ∨ c.isDryRun = true ∨ c.isApplyWrite = true) →
          IsClusterDefinition c.object = true) ∧
        (∀ c ∈ calls2, (c.isGet = true ∨ c.isDryRun = true ∨ c.isApplyWrite = true) →
          c.object ∈ objects ∧ IsClusterDefinition c.object = false)) := by
  refine ⟨List.filter_sublist _, List.filter_sublist _,
    List.filter_append_perm (fun u => IsClusterDefinition u) objects, ?_, ?_⟩
  · intro hnil
    unfold ApplyAllStaged at h
    simp only [hnil, List.length_nil, gt_iff_lt, Nat.lt_irrefl, if_false] at h
    obtain ⟨cs2, h1, h2⟩ := applyStageTwo_ok m b fuel w w3 _ _ opts changeSet h
    exact ⟨cs2, h1, by simpa [NewChangeSet] using h2⟩
  · intro hne
    have hpos : (objects.filter fun u => IsClusterDefinition u).length > 0 :=
      List.length_pos.2 hne
    unfold ApplyAllStaged at h
    simp only [hpos, if_true] at h
    rcases ha : ApplyAll m b fuel w (objects.filter fun u => IsClusterDefinition u) opts
      with ⟨res, w1⟩
    rw [ha] at h
    cases res with
    | none => simp at h
    | some r =>
      cases r with
      | error e => simp at h
      | ok cs1 =>
        simp only [waitFor] at h
        rcases hwt : b.Wait w1.st (sortObjects b (objects.filter fun u => IsClusterDefinition u))
          { Interval := 2 * Second, Timeout := opts.WaitTimeout } with ⟨werr, st2⟩
        rw [hwt] at h
        cases werr with
        | some e => simp at h
        | none =>
          simp only at h
          obtain ⟨cs2, h1, h2⟩ := applyStageTwo_ok m b fuel _ w3 _ _ opts changeSet h
          obtain ⟨calls1, hc1, ht1⟩ := ApplyAll_issued m b fuel w w1 _ opts _ ha
          obtain ⟨calls2, hc2, ht2⟩ := ApplyAll_issued m b fuel _ w3 _ opts _ h1
          refine ⟨cs1, cs2, w1, st2, calls1, calls2, rfl, hwt, h1, ?_, hc1, ?_, ?_, ?_⟩
          · simpa [NewChangeSet, ChangeSet.Append] using h2
          · rw [hc2]
            simp only
            rw [hc1]
          · intro c hc hk
            have := (ht1 c hc).1 hk
            simpa using (List.mem_filter.1 this).2
          · intro c hc hk
            have := (ht2 c hc).1 hk
            exact ⟨(List.mem_filter.1 this).1, by simpa using (List.mem_filter.1 this).2⟩

/-- C15, on the in-memory store behind a write quota, with nothing stored and
one write allowed: of a config map, the namespace and a second config map,
the namespace is applied first, which uses up the quota; the wait on the
namespace succeeds and raises the quota; the two config maps are applied
from the state the wait left, and the staged call succeeds. -/
theorem ApplyAllStaged_stages_witness :
    (ApplyAllStaged quotaManager gatedEnv 1 ⟨(emptyStore, 1), []⟩
        [appConfig, appNamespace, otherConfig] DefaultApplyOptions).1
      = some (.ok { Entries :=
          [{ Subject := "Namespace//default", Action := CreatedAction },
           { Subject := "ConfigMap/default/app", Action := CreatedAction },
           { Subject := "ConfigMap/default/other", Action := CreatedAction }] }) ∧
    ∃ cs1 cs2 w1 st2,
      ApplyAll quotaManager gatedEnv 1 ⟨(emptyStore, 1), []⟩ [appNamespace] DefaultApplyOptions
        = (some (.ok cs1), w1) ∧
      w1.st.2 = 0 ∧
      gatedEnv.Wait w1.st [appNamespace]
        { Interval := 2000000000, Timeout := DefaultApplyOptions.WaitTimeout } = (none, st2) ∧
      st2.2 = 2 ∧
      (ApplyAll quotaManager gatedEnv 1 { st := st2, calls := w1.calls }
        [appConfig, otherConfig] DefaultApplyOptions).1 = some (.ok cs2) ∧
      (ApplyAll quotaManager gatedEnv 1 w1 [appConfig, otherConfig] DefaultApplyOptions).1
        = some (.error (ApplyError.applyFailed "ConfigMap/default/app"
            (ClientError.Other "quota exceeded"))) := by
  obtain ⟨cs1, cs2, w1, st2, calls1, calls2, h1, h2, h3, -⟩ :=
    (ApplyAllStaged_stages quotaManager gatedEnv 1 ⟨(emptyStore, 1), []⟩ _
      [appConfig, appNamespace, otherConfig] DefaultApplyOptions
      { Entries :=
          [{ Subject := "Namespace//default", Action := CreatedAction },
           { Subject := "ConfigMap/default/app", Action := CreatedAction },
           { Subject := "ConfigMap/default/other", Action := CreatedAction }] } rfl).2.2.2.2
      (by decide)
  have hw1 : w1 = (ApplyAll quotaManager gatedEnv 1 ⟨(emptyStore, 1), []⟩ [appNamespace]
      DefaultApplyOptions).2 := by
    have := congrArg Prod.snd h1
    exact this.symm
  have hs2 : st2 = (gatedEnv.Wait w1.st [appNamespace]
      { Interval := 2000000000, Timeout := DefaultApplyOptions.WaitTimeout }).2 := by
    have := congrArg Prod.snd h2
    exact this.symm
  refine ⟨by decide, cs1, cs2, w1, st2, h1, ?_, h2, ?_, ?_, ?_⟩
  · rw [hw1]; decide
  · rw [hs2, hw1]; decide
  · exact congrArg Prod.fst h3
  · rw [hw1]; decide

/-- C16. In `ApplyAllStaged` with a non-empty stage one, if `ApplyAll` on stage
one fails, or succeeds and the wait on stage one then fails, `ApplyAllStaged`
returns that error and no change set, and the call log is the one `ApplyAll`
on stage one left: every Get, dry run and apply write in it is for a cluster
definition, so none is for a stage-two object, and for a client that answers
with the identity it was asked for every call, sanitization patches and
deletes included, is for an object with the identity of a stage-one object. -/
theorem ApplyAllStaged_stage_one_failure (m : ResourceManager σ) (b : BatchEnv σ)
    (fuel : Nat) (w w1 w2 : World σ) (objects : List Unstructured) (opts : ApplyOptions)
    (err : StagedError)
    (hne : (objects.filter fun u => IsClusterDefinition u) ≠ [])
    (hfail :
      (∃ e, ApplyAll m b fuel w (objects.filter fun u => IsClusterDefinition u) opts
          = (some (.error e), w1) ∧ err = StagedError.applyAll e ∧ w2 = w1) ∨
      (∃ cs e, ApplyAll m b fuel w (objects.filter fun u => IsClusterDefinition u) opts
          = (some (.ok cs), w1) ∧
        waitFor b w1 (sortObjects b (objects.filter fun u => IsClusterDefinition u))
          { Interval := 2 * Second, Timeout := opts.WaitTimeout } = (some e, w2) ∧
        err = StagedError.wait e)) :
    ApplyAllStaged m b fuel w objects opts = (some (.error err), w2) ∧
      w2.calls = w1.calls ∧
      ∃ issued, w2.calls = w.calls ++ issued ∧
        ∀ c ∈ issued,
          ((c.isGet = true ∨ c.isDryRun = true ∨ c.isApplyWrite = true) →
            IsClusterDefinition c.object = true ∧
              c.object ∉ objects.filter fun u => !IsClusterDefinition u) ∧
          (KeepsIdentity m.client →
            ∃ o ∈ objects.filter fun u => IsClusterDefinition u,
              FmtUnstructured c.object = FmtUnstructured o) := by
  have hpos : (objects.filter fun u => IsClusterDefinition u).length > 0 :=
    List.length_pos.2 hne
  have key : ∀ res, ApplyAll m b fuel w (objects.filter fun u => IsClusterDefinition u) opts
      = (res, w1) → w2.calls = w1.calls →
      ∃ issued, w2.calls = w.calls ++ issued ∧
        ∀ c ∈ issued,
          ((c.isGet = true ∨ c.isDryRun = true ∨ c.isApplyWrite = true) →
            IsClusterDefinition c.object = true ∧
              c.object ∉ objects.filter fun u => !IsClusterDefinition u) ∧
          (KeepsIdentity m.client →
            ∃ o ∈ objects.filter fun u => IsClusterDefinition u,
              FmtUnstructured c.object = FmtUnstructured o) := by
    intro res ha hw
    obtain ⟨issued, hc, ht⟩ := ApplyAll_issued m b fuel w w1 _ opts res ha
    refine ⟨issued, by rw [hw, hc], ?_⟩
    intro c hc
    refine ⟨fun hk => ?_, (ht c hc).2⟩
    have hdef : IsClusterDefinition c.object = true := by
      simpa using (List.mem_filter.1 ((ht c hc).1 hk)).2
    refine ⟨hdef, ?_⟩
    intro hmem
    have := (List.mem_filter.1 hmem).2
    simp [hdef] at this
  rcases hfail with ⟨e, ha, rfl, rfl⟩ | ⟨cs, e, ha, hwt, rfl⟩
  · refine ⟨?_, rfl, key _ ha rfl⟩
    unfold ApplyAllStaged
    simp only [hpos, if_true, ha]
  · have hw2 : w2.calls = w1.calls := by
      unfold waitFor at hwt
      simp only [Prod.mk.injEq] at hwt
      rw [← hwt.2]
    refine ⟨?_, hw2, key _ ha hw2⟩
    unfold ApplyAllStaged
    simp only [hpos, if_true, ha, hwt]

/-- C16, on the in-memory store with nothing stored: the namespace never
becomes ready, the wait times out and the two config maps are never sent. -/
theorem ApplyAllStaged_stage_one_failure_witness :
    ApplyAllStaged storeManager storeEnv 1 ⟨emptyStore, []⟩
        [appConfig, stuckNamespace, otherConfig] DefaultApplyOptions
      = (some (.error (StagedError.wait WaitError.Timeout)),
          (ApplyAll storeManager storeEnv 1 ⟨emptyStore, []⟩ [stuckNamespace]
            DefaultApplyOptions).2) :=
  (ApplyAllStaged_stage_one_failure storeManager storeEnv 1 ⟨emptyStore, []⟩ _ _
    [appConfig, stuckNamespace, otherConfig] DefaultApplyOptions
    (StagedError.wait WaitError.Timeout) (by decide)
    (Or.inr ⟨_, WaitError.Timeout, rfl, rfl, rfl⟩)).1

/-! ## Apply on the in-memory store: idempotence

The second `Apply` of an object is followed through the store. A successful
first call leaves the store in a state that is settled for the object, or in
which the stored object is excluded (`Apply_ok_settles`, by induction over
the forced restarts); from such a state `Apply` returns Unchanged after a
Get and at most a dry run (`Apply_of_settled`). -/

theorem toDigitsCore_ne_nil (b f n : Nat) (ds : List Char) (h : ds ≠ [] ∨ 0 < f) :
    Nat.toDigitsCore b f n ds ≠ [] := by
  induction f generalizing n ds with
  | zero =>
    rcases h with h | h
    · simpa [Nat.toDigitsCore] using h
    · cases h
  | succ f ih =>
    rw [Nat.toDigitsCore]
    split
    · simp
    · exact ih _ _ (Or.inl (by simp))

theorem toString_nat_ne_empty (n : Nat) : toString n ≠ "" := by
  intro h
  have h2 : (Nat.repr n).data = [] := congrArg String.data h
  simp only [Nat.repr, Nat.toDigits, List.asString] at h2
  exact toDigitsCore_ne_nil 10 (n + 1) n [] (Or.inr (Nat.succ_pos n)) h2

theorem lookup_isSome_of_mem (a : List (String × String)) (kv : String × String)
    (h : kv ∈ a) : (a.lookup kv.1).isNone = false := by
  induction a with
  | nil => cases h
  | cons x rest ih =>
    rcases x with ⟨k, v⟩
    by_cases hk : kv.1 = k
    · simp [List.lookup, hk]
    · have hk2 : (kv.1 == k) = false := by simpa using hk
      simp only [List.lookup, hk2]
      apply ih
      rcases List.mem_cons.1 h with h | h
      · exact absurd (by rw [h]) hk
      · exact h

theorem filter_lookup_self (a : List (String × String)) :
    (a.filter fun kv => (a.lookup kv.1).isNone) = [] := by
  rw [List.filter_eq_nil_iff]
  intro kv hkv
  simp [lookup_isSome_of_mem a kv hkv]

theorem mergeMap_self (a : List (String × String)) : mergeMap a a = a := by
  unfold mergeMap
  rw [filter_lookup_self, List.append_nil]

theorem mergeMap_mergeMap (a c : List (String × String)) :
    mergeMap a (mergeMap a c) = mergeMap a c := by
  unfold mergeMap
  rw [List.filter_append, filter_lookup_self, List.nil_append, List.filter_filter]
  simp

theorem lookup_filter_isNone (a c : List (String × String)) (k : String)
    (h : a.lookup k = none) :
    (c.filter fun kv => (a.lookup kv.1).isNone).lookup k = c.lookup k := by
  induction c with
  | nil => rfl
  | cons kv rest ih =>
    rcases kv with ⟨x, y⟩
    by_cases hk : k = x
    · subst hk
      simp [List.filter, h, List.lookup]
    · have hk2 : (k == x) = false := by simpa using hk
      cases hn : (a.lookup x).isNone
      · simp only [List.filter, hn, List.lookup, hk2]
        exact ih
      · simp only [List.filter, hn, List.lookup, hk2]
        exact ih

theorem lookup_mergeMap (a c : List (String × String)) (k : String) :
    (mergeMap a c).lookup k = (a.lookup k).or (c.lookup k) := by
  unfold mergeMap
  rw [List.lookup_append]
  cases h : a.lookup k with
  | some v => rfl
  | none => simp [lookup_filter_isNone a c k h]

theorem Store.versioned_iff (s : Store) :
    s.versioned = true ↔ ∀ x ∈ s.objects, x.ResourceVersion ≠ "" := by
  simp [Store.versioned]

theorem Store.versioned_remove (s : Store) (object : Unstructured) (h : s.versioned = true) :
    (s.remove object).versioned = true := by
  rw [Store.versioned_iff] at h ⊢
  intro x hx
  exact h x (List.mem_of_mem_filter hx)

theorem Store.versioned_put (s : Store) (object : Unstructured) (h : s.versioned = true) :
    (s.put object).2.versioned = true := by
  have h2 := (Store.versioned_iff _).1 (Store.versioned_remove s object h)
  rw [Store.versioned_iff]
  intro x hx
  simp only [Store.put, List.mem_cons] at hx
  rcases hx with rfl | hx
  · exact toString_nat_ne_empty _
  · exact h2 x hx

theorem Store.find_mem (s : Store) (object stored : Unstructured)
    (h : s.find object = some stored) : stored ∈ s.objects :=
  List.mem_of_find?_eq_some h

theorem Store.find_identity (s : Store) (object stored : Unstructured)
    (h : s.find object = some stored) : sameIdentity object stored = true :=
  List.find?_some h

theorem sameIdentity_congr (a c : Unstructured) (h : sameIdentity a c = true) :
    sameIdentity c = sameIdentity a := by
  funext x
  simp only [sameIdentity, Bool.and_eq_true, beq_iff_eq] at h
  simp only [sameIdentity, h.1.1, h.1.2, h.2]

theorem Store.find_congr (s : Store) (a c : Unstructured) (h : sameIdentity a c = true) :
    s.find c = s.find a := by
  unfold Store.find
  rw [sameIdentity_congr a c h]

theorem Store.applied_identity (s : Store) (object : Unstructured) (owner : String) :
    sameIdentity object (s.applied object owner) = true := by
  unfold Store.applied
  split <;> simp [sameIdentity]

theorem Store.find_put (s : Store) (object result : Unstructured)
    (h : sameIdentity object result = true) :
    (s.put result).2.find object = some (s.put result).1 := by
  simp only [Store.put, Store.find]
  rw [List.find?_cons_of_pos]
  simpa [sameIdentity] using h

theorem Store.applied_merge (s : Store) (object : Unstructured) (owner : String) :
    mergeMap object.Labels (s.applied object owner).Labels = (s.applied object owner).Labels ∧
    mergeMap object.Annotations (s.applied object owner).Annotations
      = (s.applied object owner).Annotations ∧
    mergeMap object.Content (s.applied object owner).Content
      = (s.applied object owner).Content := by
  unfold Store.applied
  split
  · exact ⟨mergeMap_self _, mergeMap_self _, mergeMap_self _⟩
  · exact ⟨mergeMap_mergeMap _ _, mergeMap_mergeMap _ _, mergeMap_mergeMap _ _⟩

theorem refHasDrifted_self (x : Unstructured) (h : x.ResourceVersion ≠ "") :
    refHasDrifted x x = false := by
  simp [refHasDrifted, h]

theorem sanitizableEntry_owner (fields : List String) :
    sanitizableEntry
      { Manager := storeManager.owner.Field
        Operation := ManagedFieldsOperationApply
        Fields := fields } = false := by
  simp [sanitizableEntry, storeManager, kubectlManager]

theorem Store.put_settled (s : Store) (object : Unstructured)
    (hplain : hasLastApplied object = false)
    (hclean : ∀ x, s.find object = some x → sanitizerPatches x = [])
    (himm : s.immutableConflict object = none) :
    (s.put (s.applied object storeManager.owner.Field)).2.Settled object := by
  have hid := Store.applied_identity s object storeManager.owner.Field
  have hfind := Store.find_put s object _ hid
  obtain ⟨hl, ha, hc⟩ := Store.applied_merge s object storeManager.owner.Field
  refine ⟨?_, ?_, ?_⟩
  · unfold Store.immutableConflict
    rw [hfind]
    simp only
    rw [List.find?_eq_none]
    intro key hkey
    simp only [Store.put, bne_iff_ne, ne_eq, not_not]
    unfold Store.immutableConflict at himm
    unfold Store.applied
    cases hf : s.find object with
    | none => rfl
    | some old =>
      rw [hf] at himm
      simp only at himm ⊢
      rw [List.find?_eq_none] at himm
      have := himm key hkey
      simp only [bne_iff_ne, ne_eq, not_not] at this
      rw [lookup_mergeMap, this]
      cases object.Content.lookup key <;> rfl
  · rw [hfind]
    simp only [Option.getD_some]
    rw [sanitizerPatches_eq_nil_iff]
    simp only [Store.put, hasLastApplied]
    unfold Store.applied
    cases hf : s.find object with
    | none =>
      simp only
      refine ⟨hplain, ?_⟩
      intro e he
      simp only [List.mem_singleton] at he
      subst he
      exact sanitizableEntry_owner _
    | some old =>
      obtain ⟨h1, h2⟩ := (sanitizerPatches_eq_nil_iff old).1 (hclean old hf)
      simp only
      refine ⟨?_, ?_⟩
      · rw [lookup_mergeMap]
        unfold hasLastApplied at hplain h1
        cases hx : object.Annotations.lookup LastAppliedConfigAnnotation with
        | some v => rw [hx] at hplain; cases hplain
        | none => simpa using h1
      · intro e he
        rcases List.mem_append.1 he with he | he
        · exact h2 e (List.mem_of_mem_filter he)
        · simp only [List.mem_singleton] at he
          subst he
          exact sanitizableEntry_owner _
  · rw [hfind]
    simp only [Option.getD_some]
    have happ : (s.put (s.applied object storeManager.owner.Field)).2.applied object
        storeManager.owner.Field
        = { object with
            ResourceVersion := (s.put (s.applied object storeManager.owner.Field)).1.ResourceVersion
            Labels := mergeMap object.Labels
              (s.put (s.applied object storeManager.owner.Field)).1.Labels
            Annotations := mergeMap object.Annotations
              (s.put (s.applied object storeManager.owner.Field)).1.Annotations
            Content := mergeMap object.Content
              (s.put (s.applied object storeManager.owner.Field)).1.Content
            ManagedFields :=
              ((s.put (s.applied object storeManager.owner.Field)).1.ManagedFields.filter fun e =>
                !(e.Manager == storeManager.owner.Field &&
                  e.Operation == ManagedFieldsOperationApply)) ++
              [{ Manager := storeManager.owner.Field, Operation := ManagedFieldsOperationApply,
                 Fields := object.Content.map Prod.fst }] } := by
      rw [Store.applied, hfind]
    rw [happ]
    simp only [refHasDrifted, Store.put, hl, ha, hc, bne_self_eq_false, Bool.or_false,
      beq_eq_false_iff_ne, ne_eq]
    exact toString_nat_ne_empty _

theorem store_clientGet (w w1 : World Store) (object existingObject : Unstructured)
    (got : Outcome)
    (h : clientGet storeManager w (ObjectKeyFromObject object) object
      = (existingObject, got, w1)) :
    existingObject = (w.st.find object).getD object ∧ w1.st = w.st ∧
      w1.calls = w.calls ++ [Call.Get (ObjectKeyFromObject object) object got] := by
  have hc := clientGet_calls storeManager w w1 _ _ _ _ h
  rw [clientGet_eq] at h
  have hg : storeManager.client.Get w.st (ObjectKeyFromObject object) object =
      match w.st.find object with
      | some stored => (Outcome.ok stored, w.st)
      | none => (Outcome.failed ClientError.NotFound, w.st) := rfl
  rw [hg] at h
  cases hf : w.st.find object with
  | none =>
    rw [hf] at h
    simp only [Prod.mk.injEq] at h
    obtain ⟨h1, -, h3⟩ := h
    exact ⟨by simp [← h1], by rw [← h3], hc⟩
  | some stored =>
    rw [hf] at h
    simp only [Prod.mk.injEq] at h
    obtain ⟨h1, -, h3⟩ := h
    exact ⟨by simp [← h1], by rw [← h3], hc⟩

theorem store_dryRunApply (w w1 : World Store) (object dryRunObject : Unstructured)
    (err : Option ClientError)
    (h : dryRunApply storeManager w object = (dryRunObject, err, w1)) :
    w1.st = w.st ∧
      (err = none → w.st.immutableConflict object = none ∧
        dryRunObject = w.st.applied object storeManager.owner.Field ∧
        w1.calls = w.calls ++
          [Call.Patch object PatchSpec.Apply (dryRunOpts storeManager)
            (Outcome.ok dryRunObject)]) := by
  unfold dryRunApply at h
  cases err with
  | some e =>
    rw [clientPatch_eq] at h
    simp only [Prod.mk.injEq] at h
    obtain ⟨-, -, h3⟩ := h
    refine ⟨?_, by simp⟩
    rw [← h3]
    show (Store.patch w.st object PatchSpec.Apply (dryRunOpts storeManager)).2 = w.st
    unfold Store.patch
    simp only
    split <;> simp [dryRunOpts]
  | none =>
    obtain ⟨hr, hc⟩ := clientPatch_ok storeManager w w1 _ _ _ _ h
    rw [clientPatch_eq] at h
    simp only [Prod.mk.injEq] at h
    obtain ⟨-, -, h3⟩ := h
    have hp : storeManager.client.Patch w.st object PatchSpec.Apply (dryRunOpts storeManager)
        = Store.patch w.st object PatchSpec.Apply (dryRunOpts storeManager) := rfl
    rw [hp] at hr h3
    unfold Store.patch at hr h3
    simp only at hr h3
    cases hi : w.st.immutableConflict object with
    | some key =>
      rw [hi] at hr
      simp at hr
    | none =>
      rw [hi] at hr h3
      simp only [dryRunOpts, List.mem_cons, true_or, if_true, Outcome.ok.injEq] at hr h3
      refine ⟨by rw [← h3], fun _ => ⟨rfl, ?_, hc⟩⟩
      rw [← hr]
      rfl

theorem store_apply_ok (w w1 : World Store) (object appliedObject : Unstructured)
    (h : apply storeManager w object = (appliedObject, none, w1)) :
    w.st.immutableConflict object = none ∧
      (w1.st = w.st ∧ w.st.find object = some (w.st.applied object storeManager.owner.Field) ∨
        w1.st = (w.st.put (w.st.applied object storeManager.owner.Field)).2) := by
  unfold apply at h
  obtain ⟨hr, -⟩ := clientPatch_ok storeManager w w1 _ _ _ _ h
  rw [clientPatch_eq] at h
  simp only [Prod.mk.injEq] at h
  obtain ⟨-, -, h3⟩ := h
  have hp : storeManager.client.Patch w.st object PatchSpec.Apply (applyOpts storeManager)
      = Store.patch w.st object PatchSpec.Apply (applyOpts storeManager) := rfl
  rw [hp] at hr h3
  unfold Store.patch at hr h3
  simp only at hr h3
  cases hi : w.st.immutableConflict object with
  | some key =>
    rw [hi] at hr
    simp at hr
  | none =>
    rw [hi] at hr h3
    refine ⟨rfl, ?_⟩
    have hdry : PatchOption.DryRunAll ∉ applyOpts storeManager := by
      simp [applyOpts]
    simp only [hdry, if_false] at h3
    have hown : fieldOwnerOf (applyOpts storeManager) = storeManager.owner.Field := rfl
    rw [hown] at h3
    split at h3
    · rename_i hfind
      exact Or.inl ⟨by rw [← h3], hfind⟩
    · exact Or.inr (by rw [← h3])

theorem store_clientDelete_ok (w w1 : World Store) (object : Unstructured)
    (h : clientDelete storeManager w object = (none, w1)) :
    w1.st = w.st.remove object := by
  unfold clientDelete at h
  simp only [Prod.mk.injEq] at h
  obtain ⟨h1, h2⟩ := h
  have hd : storeManager.client.Delete w.st object =
      if w.st.refuseDelete then (some (ClientError.Other "delete refused"), w.st)
      else match w.st.find object with
        | some _ => (none, w.st.remove object)
        | none => (some ClientError.NotFound, w.st) := rfl
  rw [hd] at h1 h2
  rw [← h2]
  split at h1
  · simp at h1
  · rename_i hr
    simp only [hr, if_false, Bool.false_eq_true]
    split at h1
    · rfl
    · simp at h1

theorem foldl_applyJsonPatch_identity (patches : List jsonPatch) (object : Unstructured) :
    (patches.foldl applyJsonPatch object).Kind = object.Kind ∧
      (patches.foldl applyJsonPatch object).Namespace = object.Namespace ∧
      (patches.foldl applyJsonPatch object).Name = object.Name := by
  induction patches generalizing object with
  | nil => exact ⟨rfl, rfl, rfl⟩
  | cons p rest ih =>
    rw [List.foldl_cons]
    obtain ⟨h1, h2, h3⟩ := ih (applyJsonPatch object p)
    rw [h1, h2, h3]
    cases p <;> exact ⟨rfl, rfl, rfl⟩

theorem foldl_applyJsonPatch_annotations (patches : List jsonPatch) (object : Unstructured) :
    (patches.foldl applyJsonPatch object).Annotations =
      object.Annotations.filter fun kv =>
        !decide (jsonPatch.removeAnnotationKey kv.1 ∈ patches) := by
  induction patches generalizing object with
  | nil => simp
  | cons p rest ih =>
    rw [List.foldl_cons, ih]
    cases p with
    | removeFieldsManager manager operation =>
      simp [applyJsonPatch]
    | removeAnnotationKey key =>
      simp only [applyJsonPatch, List.filter_filter]
      apply List.filter_congr
      intro kv _
      rw [Bool.eq_iff_iff]
      simp only [Bool.and_eq_true, Bool.not_eq_true', decide_eq_false_iff_not, List.mem_cons,
        jsonPatch.removeAnnotationKey.injEq, bne_iff_ne, ne_eq, not_or]
      tauto

theorem mem_sanitizerPatches_annotationKey (object : Unstructured) (key : String) :
    jsonPatch.removeAnnotationKey key ∈ sanitizerPatches object ↔
      key = LastAppliedConfigAnnotation ∧ hasLastApplied object = true := by
  unfold sanitizerPatches patchRemoveAnnotations patchRemoveFieldsManagers hasLastApplied
  simp only [List.mem_append, List.mem_map, List.mem_filter, List.mem_singleton]
  constructor
  · rintro (⟨k, ⟨rfl, hk⟩, heq⟩ | ⟨e, -, heq⟩ | ⟨e, -, heq⟩)
    · simp only [jsonPatch.removeAnnotationKey.injEq] at heq
      exact ⟨heq.symm, hk⟩
    · cases heq
    · cases heq
  · rintro ⟨rfl, h⟩
    exact Or.inl ⟨_, ⟨rfl, h⟩, rfl⟩

theorem lookup_eq_none_of_no_key (l : List (String × String)) (k : String)
    (h : ∀ kv ∈ l, kv.1 ≠ k) : l.lookup k = none := by
  induction l with
  | nil => rfl
  | cons x rest ih =>
    rcases x with ⟨a, c⟩
    have hne : (k == a) = false :=
      beq_eq_false_iff_ne.2 fun hk => h (a, c) (List.mem_cons_self _ _) hk.symm
    simp only [List.lookup, hne]
    exact ih fun kv hkv => h kv (List.mem_cons_of_mem _ hkv)

theorem sanitizerPatches_sanitized (object : Unstructured) :
    sanitizerPatches (sanitized object) = [] := by
  rw [sanitizerPatches_eq_nil_iff]
  refine ⟨?_, ?_⟩
  · unfold hasLastApplied
    rw [lookup_eq_none_of_no_key]
    · rfl
    · intro kv hkv heq
      unfold sanitized at hkv
      rw [foldl_applyJsonPatch_annotations, List.mem_filter] at hkv
      obtain ⟨hmem, hnot⟩ := hkv
      simp only [Bool.not_eq_true', decide_eq_false_iff_not,
        mem_sanitizerPatches_annotationKey, not_and] at hnot
      have hsome := lookup_isSome_of_mem _ _ hmem
      rw [heq] at hsome
      have := hnot heq
      unfold hasLastApplied at this
      cases hl : List.lookup LastAppliedConfigAnnotation object.Annotations with
      | none => rw [hl] at hsome; simp at hsome
      | some v => rw [hl] at this; simp at this
  · intro e he
    rw [sanitized_fields, List.mem_filter] at he
    simpa using he.2

theorem sanitizerPatches_congr (a c : Unstructured) (h1 : a.Annotations = c.Annotations)
    (h2 : a.ManagedFields = c.ManagedFields) : sanitizerPatches a = sanitizerPatches c := by
  simp only [sanitizerPatches, patchRemoveAnnotations, patchRemoveFieldsManagers, h1, h2]

theorem store_cleanup_ok (w w1 : World Store) (object : Unstructured) (patched : Bool)
    (hv : w.st.versioned = true)
    (h : cleanupManagedFields storeManager w (some ((w.st.find object).getD object))
      = (patched, none, w1)) :
    w1.st.versioned = true ∧
      (∀ x, w1.st.find object = some x → sanitizerPatches x = []) ∧
      (patched = false →
        sanitizerPatches ((w.st.find object).getD object) = [] ∧ w1.st = w.st) := by
  rw [cleanupManagedFields_some] at h
  split at h
  · rename_i hnil
    simp only [Prod.mk.injEq] at h
    obtain ⟨-, -, rfl⟩ := h
    refine ⟨hv, ?_, fun _ => ⟨hnil, rfl⟩⟩
    intro x hx
    rw [hx] at hnil
    exact hnil
  · rename_i hne
    rw [clientPatch_eq] at h
    simp only [Prod.mk.injEq] at h
    obtain ⟨hp, herr, hw⟩ := h
    have hpatch : ∀ e raw opts, storeManager.client.Patch w.st e (PatchSpec.RawJSONPatch raw) opts
        = match w.st.find e with
          | none => (Outcome.failed ClientError.NotFound, w.st)
          | some stored =>
            if raw.foldl applyJsonPatch stored = stored then (Outcome.ok stored, w.st)
            else ((w.st.put (raw.foldl applyJsonPatch stored)).1 |> Outcome.ok,
              (w.st.put (raw.foldl applyJsonPatch stored)).2) := fun _ _ _ => rfl
    rw [hpatch] at herr hw
    cases hf : w.st.find object with
    | none =>
      rw [hf] at herr
      simp only [Option.getD_none, hf, Outcome.err] at herr
      cases herr
    | some x =>
      have hid := Store.find_identity _ _ _ hf
      have hfx : w.st.find x = some x := by rw [Store.find_congr _ _ _ hid, hf]
      rw [hf] at hw hne
      simp only [Option.getD_some, hfx] at hw hne
      have hs : (sanitizerPatches x).foldl applyJsonPatch x = sanitized x := rfl
      rw [hs] at hw
      refine ⟨?_, ?_, fun hpf => ?_⟩
      · rw [← hw]
        split
        · exact hv
        · exact Store.versioned_put _ _ hv
      · intro y hy
        rw [← hw] at hy
        split at hy
        · rename_i heq
          simp only at hy
          rw [hf] at hy
          cases hy
          rw [← heq]
          exact sanitizerPatches_sanitized x
        · simp only at hy
          have hid2 : sameIdentity object (sanitized x) = true := by
            obtain ⟨i1, i2, i3⟩ := foldl_applyJsonPatch_identity (sanitizerPatches x) x
            rw [hs] at i1 i2 i3
            simp only [sameIdentity, i1, i2, i3]
            exact hid
          rw [Store.find_put _ _ _ hid2] at hy
          cases hy
          exact (sanitizerPatches_congr (w.st.put (sanitized x)).1 (sanitized x) rfl rfl).trans
            (sanitizerPatches_sanitized x)
      · rw [← hp] at hpf
        cases hpf

theorem store_apply_settled (w w1 : World Store) (object appliedObject : Unstructured)
    (hv : w.st.versioned = true) (hplain : hasLastApplied object = false)
    (hclean : ∀ x, w.st.find object = some x → sanitizerPatches x = [])
    (h : apply storeManager w object = (appliedObject, none, w1)) :
    w1.st.Settled object := by
  obtain ⟨himm, hst⟩ := store_apply_ok w w1 object appliedObject h
  rcases hst with ⟨hst, hfind⟩ | hst
  · rw [hst]
    refine ⟨himm, ?_, ?_⟩
    · rw [hfind]
      exact hclean _ hfind
    · rw [hfind]
      exact refHasDrifted_self _
        ((Store.versioned_iff _).1 hv _ (Store.find_mem _ _ _ hfind))
  · rw [hst]
    exact Store.put_settled w.st object hplain hclean himm

theorem Apply_of_settled (w : World Store) (object : Unstructured) (opts : ApplyOptions)
    (fuel : Nat)
    (h : AnyInMetadata ((w.st.find object).getD object) opts.Exclusions = true ∨
      w.st.Settled object) :
    ∃ issued,
      Apply storeManager (fuel + 1) w object opts
        = (some (.ok (changeSetEntry object UnchangedAction)),
            { st := w.st, calls := w.calls ++ issued }) ∧
      ∀ c ∈ issued, c.isSanitize = false ∧ c.isDelete = false ∧ c.isApplyWrite = false := by
  rcases hg : clientGet storeManager w (ObjectKeyFromObject object) object with ⟨e, got, w1⟩
  obtain ⟨he, hs1, hc1⟩ := store_clientGet w w1 object e got hg
  by_cases hex : AnyInMetadata e opts.Exclusions = true
  · refine ⟨[Call.Get (ObjectKeyFromObject object) object got], ?_, ?_⟩
    · have hw1 : w1 = { st := w.st, calls := w.calls ++
          [Call.Get (ObjectKeyFromObject object) object got] } := by
        cases w1
        simp only at hs1 hc1
        rw [hs1, hc1]
      simp [Apply, DeepCopy, hg, hex, hw1]
    · simp [Call.isSanitize, Call.isDelete, Call.isApplyWrite]
  · have hex2 : AnyInMetadata e opts.Exclusions = false := by simpa using hex
    have hset : w.st.Settled object := by
      rcases h with h | h
      · rw [← he] at h
        exact absurd h hex
      · exact h
    obtain ⟨himm, hnil, hdrift⟩ := hset
    rw [← he] at hnil hdrift
    rcases hd : dryRunApply storeManager w1 object with ⟨d, derr, w2⟩
    obtain ⟨hs2, hok⟩ := store_dryRunApply w1 w2 object d derr hd
    cases derr with
    | some err =>
      exfalso
      unfold dryRunApply at hd
      rw [clientPatch_eq] at hd
      simp only [Prod.mk.injEq] at hd
      obtain ⟨-, herr, -⟩ := hd
      have hp : storeManager.client.Patch w1.st object PatchSpec.Apply (dryRunOpts storeManager)
          = Store.patch w1.st object PatchSpec.Apply (dryRunOpts storeManager) := rfl
      rw [hp, hs1] at herr
      unfold Store.patch at herr
      simp only [himm, dryRunOpts, List.mem_cons, true_or, if_true, Outcome.err] at herr
      cases herr
    | none =>
      obtain ⟨-, hdeq, hc2⟩ := hok rfl
      rw [hs1] at hdeq
      have hcl : cleanupManagedFields storeManager w2 (some e) = (false, none, w2) := by
        rw [cleanupManagedFields_some, if_pos hnil]
      have hdr : storeManager.hasDrifted e d = false := by
        rw [hdeq]
        exact hdrift
      refine ⟨[Call.Get (ObjectKeyFromObject object) object got,
        Call.Patch object PatchSpec.Apply (dryRunOpts storeManager) (Outcome.ok d)], ?_, ?_⟩
      · have hw2 : w2 = { st := w.st, calls := w.calls ++
            [Call.Get (ObjectKeyFromObject object) object got,
              Call.Patch object PatchSpec.Apply (dryRunOpts storeManager) (Outcome.ok d)] } := by
          cases w2
          simp only at hs2 hc2
          rw [hs2, hs1, hc2, hc1]
          simp
        rw [← hw2]
        simp [Apply, DeepCopy, hg, hex2, hd, hcl, hdr]
      · simp [Call.isSanitize, Call.isDelete, Call.isApplyWrite, dryRunOpts]

theorem Apply_ok_settles (fuel : Nat) (w wa : World Store) (object : Unstructured)
    (opts : ApplyOptions) (entry : ChangeSetEntry)
    (hv : w.st.versioned = true) (hplain : hasLastApplied object = false)
    (h : Apply storeManager fuel w object opts = (some (.ok entry), wa)) :
    AnyInMetadata ((wa.st.find object).getD object) opts.Exclusions = true ∨
      wa.st.Settled object := by
  induction fuel generalizing w with
  | zero => simp [Apply] at h
  | succ fuel ih =>
    rw [Apply] at h
    simp only [DeepCopy] at h
    rcases hg : clientGet storeManager w (ObjectKeyFromObject object) object with ⟨e, got, w1⟩
    obtain ⟨he, hs1, -⟩ := store_clientGet w w1 object e got hg
    rw [hg] at h
    simp only at h
    by_cases hex : AnyInMetadata e opts.Exclusions = true
    · simp only [hex, if_true, Prod.mk.injEq] at h
      obtain ⟨-, rfl⟩ := h
      left
      rw [hs1, ← he]
      exact hex
    · simp only [hex, Bool.false_eq_true, if_false] at h
      rcases hd : dryRunApply storeManager w1 object with ⟨d, derr, w2⟩
      obtain ⟨hs2, hok⟩ := store_dryRunApply w1 w2 object d derr hd
      rw [hd] at h
      cases derr with
      | some err =>
        simp only at h
        split at h
        · rcases hdel : clientDelete storeManager w2 e with ⟨r, w3⟩
          rw [hdel] at h
          cases r with
          | some derr => simp at h
          | none =>
            simp only at h
            have hs3 := store_clientDelete_ok w2 w3 e hdel
            refine ih w3 ?_ h
            rw [hs3]
            apply Store.versioned_remove
            rw [hs2, hs1]
            exact hv
        · simp at h
      | none =>
        simp only at h
        obtain ⟨himm, hdeq, -⟩ := hok rfl
        rcases hcl : cleanupManagedFields storeManager w2 (some e) with ⟨patched, cerr, w3⟩
        rw [hcl] at h
        cases cerr with
        | some cerr => simp at h
        | none =>
          simp only at h
          have hv2 : w2.st.versioned = true := by rw [hs2, hs1]; exact hv
          have he2 : e = (w2.st.find object).getD object := by rw [hs2, hs1]; exact he
          rw [he2] at hcl
          obtain ⟨hv3, hclean, hnot⟩ := store_cleanup_ok w2 w3 object patched hv2 hcl
          split at h
          · rename_i hcond
            simp only [Prod.mk.injEq] at h
            obtain ⟨-, rfl⟩ := h
            simp only [Bool.and_eq_true, Bool.not_eq_true'] at hcond
            obtain ⟨hnil, hst⟩ := hnot hcond.1
            right
            rw [hst]
            refine ⟨?_, hnil, ?_⟩
            · rw [hs2]; exact himm
            · have := hcond.2
              rw [hdeq, he2] at this
              rw [hs2]
              rw [hs2] at this
              exact this
          · rcases ha : apply storeManager w3 object with ⟨a, aerr, w4⟩
            rw [ha] at h
            cases aerr with
            | some aerr => simp at h
            | none =>
              simp only at h
              have hw : wa = w4 := by
                split at h
                · simp only [Prod.mk.injEq] at h
                  exact h.2.symm
                · simp only [Prod.mk.injEq] at h
                  exact h.2.symm
              rw [hw]
              right
              exact store_apply_settled w3 w4 object a hv3 hplain hclean ha

theorem storeClient_keeps_versioned (s : Store) (object : Unstructured) (key : ObjectKey)
    (patch : PatchSpec) (opts : List PatchOption) (h : s.versioned = true) :
    (storeClient.Get s key object).2.versioned = true ∧
      (storeClient.Patch s object patch opts).2.versioned = true ∧
      (storeClient.Delete s object).2.versioned = true := by
  refine ⟨?_, ?_, ?_⟩
  · simp only [storeClient]
    split <;> exact h
  · show (Store.patch s object patch opts).2.versioned = true
    unfold Store.patch
    cases patch with
    | Apply =>
      simp only
      split
      · exact h
      · split
        · exact h
        · split
          · exact h
          · exact Store.versioned_put _ _ h
    | RawJSONPatch raw =>
      simp only
      split
      · exact h
      · split
        · exact h
        · exact Store.versioned_put _ _ h
  · simp only [storeClient]
    split
    · exact h
    · split
      · exact Store.versioned_remove _ _ h
      · exact h

end ssa
